import Mathlib

/-!
# Force-directed graph maker: Barnes–Hut tree, force model and integrator

A shallow embedding of `forceDirectedGraphMaker.cpp`.

Conventions of the embedding.

* `double` values are elements of a linearly ordered field `K`.  The functions which carry
  the names of the source compute in exact arithmetic, and a theorem about them is a theorem
  about the program in exact arithmetic.  All definitions are executable at `K = ℚ`.
* The functions with the suffix `Fl` are the same source lines with every arithmetic
  operation rounded; `round64` is the rounding of binary64, on the rational numbers.
* `hypot` is the C library function; it is passed to the functions which call it as the
  argument `hypot`, and the theorems in exact arithmetic assume of it what exact arithmetic
  gives: `0 ≤ hypot a b` and `hypot a b * hypot a b = a * a + b * b` (`IsHypot`).
* The global arrays `points` and `pointsNew` are maps from indices to points; the functions
  with the suffix `Bounded` stop at the first index outside the `nPoints` entries which the
  program allocated.
* An array `nums` together with its length `nNums` is a `List Nat`.
* The recursion `init → buildSubBoxes → init` carries a fuel argument: `none` means that the
  recursion did not finish within the fuel.
* A file is the list of its bytes; 32-bit and 64-bit machine integers are natural numbers
  reduced modulo `2^32` and `2^64`.
-/

namespace ForceGraph

/-! ## Data model (source lines 24–65) -/

/-- Coordinates of a point: `struct Point`. -/
structure Point (K : Type) where
  x : K
  y : K
deriving DecidableEq, Repr

/-- Centre of mass of a box: `struct CenterOfMass`. -/
structure CenterOfMass (K : Type) where
  x : K
  y : K
  mass : K
deriving DecidableEq, Repr

/-- Force on a point: `struct ForceVector`. -/
structure ForceVector (K : Type) where
  x : K
  y : K
deriving DecidableEq, Repr

/-- Box of the Barnes–Hut tree: `struct DiagramBox`.  The constructor `box` is a box with
`hasSubBoxes = false`, the constructor `split` a box with `hasSubBoxes = true` and its four
`subBoxes`.  The field `parent` is never read by the program and is left out. -/
inductive DiagramBox (K : Type) where
  | box (xmin ymin xmax ymax boxSize : K) (cMass : CenterOfMass K) (num : Int) : DiagramBox K
  | split (xmin ymin xmax ymax boxSize : K) (cMass : CenterOfMass K) (num : Int)
      (s0 s1 s2 s3 : DiagramBox K) : DiagramBox K
deriving DecidableEq, Repr

set_option linter.unusedSectionVars false
set_option linter.unusedVariables false
set_option linter.unnecessarySeqFocus false

variable {K : Type} [LinearOrderedField K]

namespace DiagramBox

/-- Field `hasSubBoxes`. -/
def hasSubBoxes : DiagramBox K → Bool
  | box .. => false
  | split .. => true

/-- Field `xmin`. -/
def xmin : DiagramBox K → K
  | box a _ _ _ _ _ _ => a
  | split a _ _ _ _ _ _ _ _ _ _ => a

/-- Field `ymin`. -/
def ymin : DiagramBox K → K
  | box _ a _ _ _ _ _ => a
  | split _ a _ _ _ _ _ _ _ _ _ => a

/-- Field `xmax`. -/
def xmax : DiagramBox K → K
  | box _ _ a _ _ _ _ => a
  | split _ _ a _ _ _ _ _ _ _ _ => a

/-- Field `ymax`. -/
def ymax : DiagramBox K → K
  | box _ _ _ a _ _ _ => a
  | split _ _ _ a _ _ _ _ _ _ _ => a

/-- Field `boxSize`. -/
def boxSize : DiagramBox K → K
  | box _ _ _ _ a _ _ => a
  | split _ _ _ _ a _ _ _ _ _ _ => a

/-- Field `cMass`. -/
def cMass : DiagramBox K → CenterOfMass K
  | box _ _ _ _ _ c _ => c
  | split _ _ _ _ _ c _ _ _ _ _ => c

/-- Field `num`. -/
def num : DiagramBox K → Int
  | box _ _ _ _ _ _ n => n
  | split _ _ _ _ _ _ n _ _ _ _ => n

/-- The point indices stored in the leaves of a tree, from `subBoxes[0]` to `subBoxes[3]`;
`num = -1` marks a box without a point. -/
def indices : DiagramBox K → List Int
  | box _ _ _ _ _ _ n => if n = -1 then [] else [n]
  | split _ _ _ _ _ _ _ s0 s1 s2 s3 => s0.indices ++ s1.indices ++ s2.indices ++ s3.indices

/-- Every box of a tree: the box itself, followed by the boxes under its four sub-boxes. -/
def subtrees : DiagramBox K → List (DiagramBox K)
  | box a b c d e f g => [box a b c d e f g]
  | split a b c d e f g s0 s1 s2 s3 =>
    split a b c d e f g s0 s1 s2 s3 ::
      (s0.subtrees ++ s1.subtrees ++ s2.subtrees ++ s3.subtrees)

end DiagramBox

/-! ## Building the tree (source lines 131–246) -/

/-- The four index arrays `blNums`, `brNums`, `tlNums`, `trNums` of `buildSubBoxes`. -/
structure Quadrants where
  bl : List Nat
  br : List Nat
  tl : List Nat
  tr : List Nat
deriving DecidableEq, Repr

/-- First loop of `buildSubBoxes` (lines 171–191): the counters `nBLNums`, `nBRNums`,
`nTLNums`, `nTRNums`, in this order. -/
def countQuadrants (points : Nat → Point K) (xmid ymid : K) :
    List Nat → Nat × Nat × Nat × Nat
  | [] => (0, 0, 0, 0)
  | n :: rest =>
    let c := countQuadrants points xmid ymid rest
    if (points n).x > xmid then
      if (points n).y > ymid then (c.1, c.2.1, c.2.2.1, c.2.2.2 + 1)
      else (c.1, c.2.1 + 1, c.2.2.1, c.2.2.2)
    else
      if (points n).y > ymid then (c.1, c.2.1, c.2.2.1 + 1, c.2.2.2)
      else (c.1 + 1, c.2.1, c.2.2.1, c.2.2.2)

/-- Second loop of `buildSubBoxes` (lines 205–229): every entry of `nums` is appended to one
of the four arrays, which keep the order of `nums`. -/
def distribute (points : Nat → Point K) (xmid ymid : K) : List Nat → Quadrants
  | [] => ⟨[], [], [], []⟩
  | n :: rest =>
    let q := distribute points xmid ymid rest
    if (points n).x > xmid then
      if (points n).y > ymid then { q with tr := n :: q.tr }
      else { q with br := n :: q.br }
    else
      if (points n).y > ymid then { q with tl := n :: q.tl }
      else { q with bl := n :: q.bl }

/-- `DiagramBox::buildSubBoxes`: the midpoint, the four index arrays and the four calls of
`init` on the sub-boxes (lines 236–239), in the order of the source.  `initRec` is
`DiagramBox::init` with the remaining fuel. -/
def buildSubBoxes (points : Nat → Point K)
    (initRec : K → K → K → K → List Nat → Option (DiagramBox K))
    (xmin ymin xmax ymax : K) (nums : List Nat) :
    Option (DiagramBox K × DiagramBox K × DiagramBox K × DiagramBox K) :=
  let xmid := (xmin + xmax) / 2
  let ymid := (ymin + ymax) / 2
  let q := distribute points xmid ymid nums
  match initRec xmin ymin xmid ymid q.bl with
  | none => none
  | some b0 =>
    match initRec xmid ymin xmax ymid q.br with
    | none => none
    | some b1 =>
      match initRec xmin ymid xmid ymax q.tl with
      | none => none
      | some b2 =>
        match initRec xmid ymid xmax ymax q.tr with
        | none => none
        | some b3 => some (b0, b1, b2, b3)

/-- `DiagramBox::init`.  The field `cMass` is not written by `init`; `c0` is the value it
holds until `getMass` runs.  Point indices are below `nPoints`, an `int`, so the conversion
of `nums[0]` to the `int` field `num` keeps the value. -/
def init (points : Nat → Point K) (c0 : CenterOfMass K) :
    Nat → K → K → K → K → List Nat → Option (DiagramBox K)
  | 0, _, _, _, _, _ => none
  | fuel + 1, xmin, ymin, xmax, ymax, nums =>
    match nums with
    | [] => some (.box xmin ymin xmax ymax (xmax - xmin) c0 (-1))
    | [n] => some (.box xmin ymin xmax ymax (xmax - xmin) c0 (n : Int))
    | _ :: _ :: _ =>
      match buildSubBoxes points (init points c0 fuel) xmin ymin xmax ymax nums with
      | none => none
      | some (b0, b1, b2, b3) =>
        some (.split xmin ymin xmax ymax (xmax - xmin) c0 (-1) b0 b1 b2 b3)

/-! ## Centre of mass (source lines 249–276) -/

/-- `DiagramBox::getMass`: the centre of mass which the call returns, and the tree after the
call, in which every box has its `cMass` written. -/
def getMass (points : Nat → Point K) : DiagramBox K → CenterOfMass K × DiagramBox K
  | .box xmin ymin xmax ymax boxSize _ num =>
    let c : CenterOfMass K :=
      if num ≠ -1 then ⟨(points num.toNat).x, (points num.toNat).y, 1⟩ else ⟨0, 0, 0⟩
    (c, .box xmin ymin xmax ymax boxSize c num)
  | .split xmin ymin xmax ymax boxSize _ num s0 s1 s2 s3 =>
    let r0 := getMass points s0
    let r1 := getMass points s1
    let r2 := getMass points s2
    let r3 := getMass points s3
    let x := 0 + r0.1.x * r0.1.mass + r1.1.x * r1.1.mass + r2.1.x * r2.1.mass
      + r3.1.x * r3.1.mass
    let y := 0 + r0.1.y * r0.1.mass + r1.1.y * r1.1.mass + r2.1.y * r2.1.mass
      + r3.1.y * r3.1.mass
    let mass := 0 + r0.1.mass + r1.1.mass + r2.1.mass + r3.1.mass
    let c : CenterOfMass K := if mass > 0 then ⟨x / mass, y / mass, mass⟩ else ⟨x, y, mass⟩
    (c, .split xmin ymin xmax ymax boxSize c num r0.2 r1.2 r2.2 r3.2)

/-! ## Repulsion (source lines 290–336) -/

/-- What exact arithmetic gives for the library function `hypot`. -/
def IsHypot (hypot : K → K → K) : Prop :=
  ∀ a b : K, 0 ≤ hypot a b ∧ hypot a b * hypot a b = a * a + b * b

/-- Lines 297–306 of `getRepulsionForce`: the force which the single point `bnum` of a box
exerts on `pt`. -/
def pointForce (hypot : K → K → K) (points : Nat → Point K) (bnum : Int) (pt : Point K) :
    ForceVector K :=
  let X := (points bnum.toNat).x
  let Y := (points bnum.toNat).y
  let d := hypot (X - pt.x) (Y - pt.y)
  ⟨(pt.x - X) / (d * d * d), (pt.y - Y) / (d * d * d)⟩

/-- `DiagramBox::getRepulsionForce`, with the global `theta` as an argument. -/
def getRepulsionForce (hypot : K → K → K) (points : Nat → Point K) (theta : K) (num : Int)
    (pt : Point K) : DiagramBox K → ForceVector K
  | .box _ _ _ _ _ _ bnum =>
    if num = bnum then ⟨0, 0⟩
    else if bnum ≠ -1 then pointForce hypot points bnum pt
    else ⟨0, 0⟩
  | .split _ _ _ _ boxSize cMass bnum s0 s1 s2 s3 =>
    if num = bnum then ⟨0, 0⟩
    else if bnum ≠ -1 then pointForce hypot points bnum pt
    else
      let d := hypot (pt.x - cMass.x) (pt.y - cMass.y)
      if boxSize < theta * d then
        ⟨cMass.mass * (pt.x - cMass.x) / (d * d * d), cMass.mass * (pt.y - cMass.y) / (d * d * d)⟩
      else
        let v0 := getRepulsionForce hypot points theta num pt s0
        let v1 := getRepulsionForce hypot points theta num pt s1
        let v2 := getRepulsionForce hypot points theta num pt s2
        let v3 := getRepulsionForce hypot points theta num pt s3
        ⟨0 + v0.x + v1.x + v2.x + v3.x, 0 + v0.y + v1.y + v2.y + v3.y⟩

/-- The traversal of `getRepulsionForce`, recording instead of the force whether the
traversal takes the branch `boxSize < theta * d` (lines 317–325) at a box whose sub-tree
holds the index `num`. -/
def usesOwnMass (hypot : K → K → K) (theta : K) (num : Int) (pt : Point K) :
    DiagramBox K → Bool
  | .box .. => false
  | .split a b c e boxSize cMass bnum s0 s1 s2 s3 =>
    if num = bnum then false
    else if bnum ≠ -1 then false
    else
      let d := hypot (pt.x - cMass.x) (pt.y - cMass.y)
      if boxSize < theta * d then
        decide (num ∈ (DiagramBox.split a b c e boxSize cMass bnum s0 s1 s2 s3).indices)
      else
        usesOwnMass hypot theta num pt s0 || usesOwnMass hypot theta num pt s1
          || usesOwnMass hypot theta num pt s2 || usesOwnMass hypot theta num pt s3

/-- Brute-force reference of the repulsion on point `num`: the sum over all `j ≠ num` of
`nums` of `((x_num - x_j) / d_j^3, (y_num - y_j) / d_j^3)`, with `d_j` the distance between
the points `num` and `j`. -/
def bruteForceRepulsion (hypot : K → K → K) (points : Nat → Point K) (nums : List Nat)
    (num : Nat) : ForceVector K :=
  let others := nums.filter (fun j => decide (j ≠ num))
  let d := fun j => hypot ((points num).x - (points j).x) ((points num).y - (points j).y)
  ⟨(others.map (fun j => ((points num).x - (points j).x) / (d j) ^ 3)).sum,
   (others.map (fun j => ((points num).y - (points j).y) / (d j) ^ 3)).sum⟩

/-! ## One step of the simulation (source lines 356–463) -/

/-- The global variables of the program which the simulation step reads and writes.
`connections i` is the array which `connections[i]` points to. -/
structure State (K : Type) where
  REPL_SCALE : K
  ATTR_SCALE : K
  motionLimit : K
  theta : K
  nPoints : Nat
  points : Nat → Point K
  pointsNew : Nat → Point K
  connections : Nat → List Nat

/-- The entry which ends a connection list. -/
def sentinel : Nat := 0xFFFFFFFF

/-- The entries of a connection list which the loop of lines 385–404 visits: those before
the first `0xFFFFFFFF`. -/
def links : List Nat → List Nat
  | [] => []
  | cNum :: rest => if cNum = sentinel then [] else cNum :: links rest

/-- Repulsion loop of `movePoints` (lines 368–372), over the indices `0 .. nPoints - 1`. -/
def repulsionLoop (hypot : K → K → K) (points : Nat → Point K) (theta REPL_SCALE : K)
    (topBox : DiagramBox K) : List Nat → (Nat → Point K) → (Nat → Point K)
  | [], pointsNew => pointsNew
  | i :: rest, pointsNew =>
    let v := getRepulsionForce hypot points theta (i : Int) (points i) topBox
    repulsionLoop hypot points theta REPL_SCALE topBox rest
      (Function.update pointsNew i
        ⟨(pointsNew i).x + v.x * REPL_SCALE, (pointsNew i).y + v.y * REPL_SCALE⟩)

/-- The `while (true)` loop of `movePoints` (lines 385–404) over the array `cNums`, on the
accumulators `forceX`, `forceY` and the buffer `pointsNew`.  The buffers are maps on all
indices: this is the loop of the program for entries below `nPoints` and a list with its end
mark; `attractLinksBounded` is the loop on the arrays of `nPoints` points. -/
def attractLinks (points : Nat → Point K) (ATTR_SCALE x y : K) :
    List Nat → K × K × (Nat → Point K) → K × K × (Nat → Point K)
  | [], acc => acc
  | cNum :: rest, (forceX, forceY, pointsNew) =>
    if cNum = sentinel then (forceX, forceY, pointsNew)
    else
      let X := (points cNum).x
      let Y := (points cNum).y
      attractLinks points ATTR_SCALE x y rest
        (forceX + (X - x), forceY + (Y - y),
          Function.update pointsNew cNum
            ⟨(pointsNew cNum).x - (X - x) * ATTR_SCALE,
             (pointsNew cNum).y - (Y - y) * ATTR_SCALE⟩)

/-- Attraction loop of `movePoints` (lines 375–408), over the indices `0 .. nPoints - 1`. -/
def attractionLoop (points : Nat → Point K) (connections : Nat → List Nat) (ATTR_SCALE : K) :
    List Nat → (Nat → Point K) → (Nat → Point K)
  | [], pointsNew => pointsNew
  | i :: rest, pointsNew =>
    let r := attractLinks points ATTR_SCALE (points i).x (points i).y (connections i)
      (0, 0, pointsNew)
    attractionLoop points connections ATTR_SCALE rest
      (Function.update r.2.2 i
        ⟨(r.2.2 i).x + r.1 * ATTR_SCALE, (r.2.2 i).y + r.2.1 * ATTR_SCALE⟩)

/-- `movePoints`.  `numsList` holds `0 .. nPoints - 1` (`initGraph`, line 351).  The result is
`none` when the tree build does not finish within `fuel`. -/
def movePoints (hypot : K → K → K) (c0 : CenterOfMass K) (fuel : Nat) (s : State K) :
    Option (State K) :=
  match init s.points c0 fuel (-10) (-10) 10 10 (List.range s.nPoints) with
  | none => none
  | some built =>
    let topBox := (getMass s.points built).2
    let pn := repulsionLoop hypot s.points s.theta s.REPL_SCALE topBox
      (List.range s.nPoints) s.pointsNew
    some { s with
      pointsNew := attractionLoop s.points s.connections s.ATTR_SCALE
        (List.range s.nPoints) pn }

/-- The motion cap of `iterate` (lines 432–449): the values of `xnew`, `ynew` after the cap,
from the prior position `old` and the tentative position `tentative` of a point. -/
def motionCap (hypot : K → K → K) (motionLimit : K) (old tentative : Point K) : Point K :=
  let xold := old.x
  let yold := old.y
  let xnew := tentative.x
  let ynew := tentative.y
  let dx := xnew - xold
  let dy := ynew - yold
  let d := hypot dx dy
  if d > motionLimit then ⟨xold + dx / d * motionLimit, yold + dy / d * motionLimit⟩
  else ⟨xnew, ynew⟩

/-- Body of the clamping loop of `iterate` (lines 432–456) for point `i`: the motion cap,
written to `pointsNew[i]` when it binds, then the clamp to the circle of radius 10.  The sum
`dTotal` is never read and is left out. -/
def clampPoint (hypot : K → K → K) (motionLimit : K) (points : Nat → Point K) (i : Nat)
    (pointsNew : Nat → Point K) : Nat → Point K :=
  let d := hypot ((pointsNew i).x - (points i).x) ((pointsNew i).y - (points i).y)
  let capped := motionCap hypot motionLimit (points i) (pointsNew i)
  let pn1 := if d > motionLimit then Function.update pointsNew i capped else pointsNew
  let l := hypot capped.x capped.y
  if l > 10 then Function.update pn1 i ⟨capped.x / l * 10, capped.y / l * 10⟩ else pn1

/-- Clamping loop of `iterate` (lines 431–457), over the indices `0 .. nPoints - 1`. -/
def clampLoop (hypot : K → K → K) (motionLimit : K) (points : Nat → Point K) :
    List Nat → (Nat → Point K) → (Nat → Point K)
  | [], pointsNew => pointsNew
  | i :: rest, pointsNew =>
    clampLoop hypot motionLimit points rest (clampPoint hypot motionLimit points i pointsNew)

/-- `iterate`: the copy of the first `nPoints` points into `pointsNew`, `movePoints`, the
clamping loop and the swap of the two buffers. -/
def iterate (hypot : K → K → K) (c0 : CenterOfMass K) (fuel : Nat) (s : State K) :
    Option (State K) :=
  match movePoints hypot c0 fuel
      { s with pointsNew := fun i => if i < s.nPoints then s.points i else s.pointsNew i } with
  | none => none
  | some s1 =>
    some { s1 with
      points := clampLoop hypot s1.motionLimit s1.points (List.range s1.nPoints) s1.pointsNew
      pointsNew := s1.points }

/-! ## Writing the coordinates (source lines 524–548) -/

/-- The conversion `(long)` of a `double`: the fractional part is discarded. -/
def toLong [FloorRing K] (v : K) : Int :=
  if 0 ≤ v then ⌊v⌋ else ⌈v⌉

/-- The integer which `writePoints` computes for a coordinate `c` (lines 536–545). -/
def encodeCoord [FloorRing K] (c : K) : Int :=
  let x := c + 10
  let x := if x < 0 then 0 else x
  toLong (x * 1000000000000000)

/-! ## Binary input and output (source lines 465–551) -/

/-- The loop of `readUint32LittleEndian` (lines 469–473) for `n` more bytes: each byte read
from `file` is added to `value` shifted left by 8 bits, in 32-bit arithmetic.  `none` when
the file ends before the bytes are read: `byte` is then not determined by the file. -/
def readBytes : Nat → Nat → List Nat → Option (Nat × List Nat)
  | 0, value, file => some (value, file)
  | n + 1, value, file =>
    match file with
    | [] => none
    | byte :: rest => readBytes n (((value <<< 8) % 2 ^ 32 + byte) % 2 ^ 32) rest

/-- `readUint32LittleEndian`: the value returned and the rest of the file. -/
def readUint32LittleEndian (file : List Nat) : Option (Nat × List Nat) :=
  readBytes 4 0 file

/-- The loop of `writeUint64LittleEndian` (lines 480–484) for `n` more bytes: the bytes
written to the file, in the order in which they are written. -/
def writeBytes : Nat → Nat → List Nat
  | 0, _ => []
  | n + 1, value => (value &&& 0xFF) % 256 :: writeBytes n (value >>> 8)

/-- `writeUint64LittleEndian`: the bytes which the call writes to the file. -/
def writeUint64LittleEndian (value : Nat) : List Nat :=
  writeBytes 8 value

/-- The conversion of a `long` to the `uint64_t` argument of `writeUint64LittleEndian`. -/
def toUint64 (X : Int) : Nat :=
  (X % 2 ^ 64).toNat

/-- The loop of `writePoints` (lines 534–549) over the indices `0 .. nPoints - 1`: the bytes
written to the file. -/
def writePoints [FloorRing K] (points : Nat → Point K) : List Nat → List Nat
  | [] => []
  | i :: rest =>
    writeUint64LittleEndian (toUint64 (encodeCoord (points i).x))
      ++ writeUint64LittleEndian (toUint64 (encodeCoord (points i).y))
      ++ writePoints points rest

/-- An access outside an array which the program allocated.  The program tests no index
before it uses it; from such an access on its behaviour is undefined. -/
inductive Fault where
  | pointIndex (cNum : Nat) : Fault
  | endOfData : Fault
deriving DecidableEq, Repr

/-- The `while (true)` loop of `movePoints` (lines 385–404) on arrays of `nPoints` points.
As `attractLinks`, except that the two ways in which the loop leaves the arrays are results
of their own: an entry `cNum ≥ nPoints`, not the end mark, with which line 392 indexes
`points` (`Fault.pointIndex cNum`), and a list which ends without an end mark, after which
line 386 reads past the end of `dataBuffer` (`Fault.endOfData`). -/
def attractLinksBounded (nPoints : Nat) (points : Nat → Point K) (ATTR_SCALE x y : K) :
    List Nat → K × K × (Nat → Point K) → Except Fault (K × K × (Nat → Point K))
  | [], _ => .error .endOfData
  | cNum :: rest, (forceX, forceY, pointsNew) =>
    if cNum = sentinel then .ok (forceX, forceY, pointsNew)
    else if nPoints ≤ cNum then .error (.pointIndex cNum)
    else
      let X := (points cNum).x
      let Y := (points cNum).y
      attractLinksBounded nPoints points ATTR_SCALE x y rest
        (forceX + (X - x), forceY + (Y - y),
          Function.update pointsNew cNum
            ⟨(pointsNew cNum).x - (X - x) * ATTR_SCALE,
             (pointsNew cNum).y - (Y - y) * ATTR_SCALE⟩)

/-- Attraction loop of `movePoints` (lines 375–408) on arrays of `nPoints` points: as
`attractionLoop`, stopping at the first access outside the arrays. -/
def attractionLoopBounded (nPoints : Nat) (points : Nat → Point K)
    (connections : Nat → List Nat) (ATTR_SCALE : K) :
    List Nat → (Nat → Point K) → Except Fault (Nat → Point K)
  | [], pointsNew => .ok pointsNew
  | i :: rest, pointsNew =>
    match attractLinksBounded nPoints points ATTR_SCALE (points i).x (points i).y
        (connections i) (0, 0, pointsNew) with
    | .error f => .error f
    | .ok r =>
      attractionLoopBounded nPoints points connections ATTR_SCALE rest
        (Function.update r.2.2 i
          ⟨(r.2.2 i).x + r.1 * ATTR_SCALE, (r.2.2 i).y + r.2.1 * ATTR_SCALE⟩)

/-- `movePoints` on arrays of `nPoints` points: as `movePoints`, with the attraction loop
stopping at the first access outside the arrays.  The tree build, `getMass` and the
repulsion loop read no connection list and index the arrays with `0 .. nPoints - 1` only.
The result is `none` when the tree build does not finish within `fuel`. -/
def movePointsBounded (hypot : K → K → K) (c0 : CenterOfMass K) (fuel : Nat) (s : State K) :
    Option (Except Fault (State K)) :=
  match init s.points c0 fuel (-10) (-10) 10 10 (List.range s.nPoints) with
  | none => none
  | some built =>
    let topBox := (getMass s.points built).2
    let pn := repulsionLoop hypot s.points s.theta s.REPL_SCALE topBox
      (List.range s.nPoints) s.pointsNew
    match attractionLoopBounded s.nPoints s.points s.connections s.ATTR_SCALE
        (List.range s.nPoints) pn with
    | .error f => some (.error f)
    | .ok pn1 => some (.ok { s with pointsNew := pn1 })

/-! ## Binary64 arithmetic

The functions above compute in exact arithmetic.  The functions of this section are the
same source lines with the result of every arithmetic operation on `double` values passed
through a rounding function `fl`; comparisons are exact.  With `fl` the identity they are the
functions above (`initFl_id`, `getMassFl_id`, ...).  The arithmetic of the program is
`fl = round64`, the rounding of IEEE 754 binary64, when every operation is rounded to
`double` on its own (no fused multiply-add, no extended precision), as on x86-64 with SSE2.
Of `hypot` the examples in binary64 arithmetic assume only `hypot(0, b) = |b|` or
`hypot(a, 0) = |a|`, which the C standard requires (Annex F: `hypot(x, ±0)` is `fabs(x)`),
and the theorem on the divisors assumes that `hypot` is positive except at `(0, 0)`.
-/

/-- The integer nearest to `q`; of the two nearest integers of a `q` half-way between them,
the even one. -/
def roundHalfEven (q : ℚ) : Int :=
  if q - ⌊q⌋ < 1 / 2 then ⌊q⌋
  else if 1 / 2 < q - ⌊q⌋ then ⌊q⌋ + 1
  else if ⌊q⌋ % 2 = 0 then ⌊q⌋ else ⌊q⌋ + 1

/-- The `double` nearest to the rational number `q` (IEEE 754 binary64, round to nearest,
ties to even): a multiple of `2 ^ (e - 52)`, where `2 ^ e ≤ |q| < 2 ^ (e + 1)` and `e` is at
least `-1022` (below `2 ^ (-1022)` the doubles are the multiples of `2 ^ (-1074)`).  A result
of magnitude `2 ^ 1024` or more is an infinity in the program and is not modelled. -/
def round64 (q : ℚ) : ℚ :=
  roundHalfEven (q / 2 ^ (max (Int.log 2 |q|) (-1022) - 52))
    * 2 ^ (max (Int.log 2 |q|) (-1022) - 52)

/-- `DiagramBox::buildSubBoxes` in floating-point arithmetic: as `buildSubBoxes`, with the
sum and the quotient of lines 166–167 each rounded by `fl`. -/
def buildSubBoxesFl (fl : K → K) (points : Nat → Point K)
    (initRec : K → K → K → K → List Nat → Option (DiagramBox K))
    (xmin ymin xmax ymax : K) (nums : List Nat) :
    Option (DiagramBox K × DiagramBox K × DiagramBox K × DiagramBox K) :=
  let xmid := fl (fl (xmin + xmax) / 2)
  let ymid := fl (fl (ymin + ymax) / 2)
  let q := distribute points xmid ymid nums
  match initRec xmin ymin xmid ymid q.bl with
  | none => none
  | some b0 =>
    match initRec xmid ymin xmax ymid q.br with
    | none => none
    | some b1 =>
      match initRec xmin ymid xmid ymax q.tl with
      | none => none
      | some b2 =>
        match initRec xmid ymid xmax ymax q.tr with
        | none => none
        | some b3 => some (b0, b1, b2, b3)

/-- `DiagramBox::init` in floating-point arithmetic: as `init`, with the difference of line
137 rounded by `fl`. -/
def initFl (fl : K → K) (points : Nat → Point K) (c0 : CenterOfMass K) :
    Nat → K → K → K → K → List Nat → Option (DiagramBox K)
  | 0, _, _, _, _, _ => none
  | fuel + 1, xmin, ymin, xmax, ymax, nums =>
    match nums with
    | [] => some (.box xmin ymin xmax ymax (fl (xmax - xmin)) c0 (-1))
    | [n] => some (.box xmin ymin xmax ymax (fl (xmax - xmin)) c0 (n : Int))
    | _ :: _ :: _ =>
      match buildSubBoxesFl fl points (initFl fl points c0 fuel) xmin ymin xmax ymax nums with
      | none => none
      | some (b0, b1, b2, b3) =>
        some (.split xmin ymin xmax ymax (fl (xmax - xmin)) c0 (-1) b0 b1 b2 b3)

/-- `DiagramBox::getMass` in floating-point arithmetic: as `getMass`, with every product,
sum and quotient of lines 258–264 rounded by `fl`. -/
def getMassFl (fl : K → K) (points : Nat → Point K) :
    DiagramBox K → CenterOfMass K × DiagramBox K
  | .box xmin ymin xmax ymax boxSize _ num =>
    let c : CenterOfMass K :=
      if num ≠ -1 then ⟨(points num.toNat).x, (points num.toNat).y, 1⟩ else ⟨0, 0, 0⟩
    (c, .box xmin ymin xmax ymax boxSize c num)
  | .split xmin ymin xmax ymax boxSize _ num s0 s1 s2 s3 =>
    let r0 := getMassFl fl points s0
    let r1 := getMassFl fl points s1
    let r2 := getMassFl fl points s2
    let r3 := getMassFl fl points s3
    let x := fl (fl (fl (fl (0 + fl (r0.1.x * r0.1.mass)) + fl (r1.1.x * r1.1.mass))
      + fl (r2.1.x * r2.1.mass)) + fl (r3.1.x * r3.1.mass))
    let y := fl (fl (fl (fl (0 + fl (r0.1.y * r0.1.mass)) + fl (r1.1.y * r1.1.mass))
      + fl (r2.1.y * r2.1.mass)) + fl (r3.1.y * r3.1.mass))
    let mass := fl (fl (fl (fl (0 + r0.1.mass) + r1.1.mass) + r2.1.mass) + r3.1.mass)
    let c : CenterOfMass K :=
      if mass > 0 then ⟨fl (x / mass), fl (y / mass), mass⟩ else ⟨x, y, mass⟩
    (c, .split xmin ymin xmax ymax boxSize c num r0.2 r1.2 r2.2 r3.2)

/-- The traversal `usesOwnMass` in floating-point arithmetic: the differences of line 316
and the product of line 317 are rounded by `fl`; `hypot` returns a `double`. -/
def usesOwnMassFl (fl : K → K) (hypot : K → K → K) (theta : K) (num : Int) (pt : Point K) :
    DiagramBox K → Bool
  | .box .. => false
  | .split a b c e boxSize cMass bnum s0 s1 s2 s3 =>
    if num = bnum then false
    else if bnum ≠ -1 then false
    else
      let d := hypot (fl (pt.x - cMass.x)) (fl (pt.y - cMass.y))
      if boxSize < fl (theta * d) then
        decide (num ∈ (DiagramBox.split a b c e boxSize cMass bnum s0 s1 s2 s3).indices)
      else
        usesOwnMassFl fl hypot theta num pt s0 || usesOwnMassFl fl hypot theta num pt s1
          || usesOwnMassFl fl hypot theta num pt s2 || usesOwnMassFl fl hypot theta num pt s3

/-- The traversal `divisors` in floating-point arithmetic: the values `d` of lines 301 and
316, with the differences and the product `theta * d` rounded by `fl`. -/
def divisorsFl (fl : K → K) (hypot : K → K → K) (points : Nat → Point K) (theta : K)
    (num : Int) (pt : Point K) : DiagramBox K → List K
  | .box _ _ _ _ _ _ bnum =>
    if num = bnum then []
    else if bnum ≠ -1 then
      [hypot (fl ((points bnum.toNat).x - pt.x)) (fl ((points bnum.toNat).y - pt.y))]
    else []
  | .split _ _ _ _ boxSize cMass bnum s0 s1 s2 s3 =>
    if num = bnum then []
    else if bnum ≠ -1 then
      [hypot (fl ((points bnum.toNat).x - pt.x)) (fl ((points bnum.toNat).y - pt.y))]
    else
      let d := hypot (fl (pt.x - cMass.x)) (fl (pt.y - cMass.y))
      if boxSize < fl (theta * d) then [d]
      else
        divisorsFl fl hypot points theta num pt s0
          ++ divisorsFl fl hypot points theta num pt s1
          ++ divisorsFl fl hypot points theta num pt s2
          ++ divisorsFl fl hypot points theta num pt s3

/-- The divisor `d * d * d` of lines 302–303 and 321–322 in floating-point arithmetic: the
product `d * d` is rounded, then its product with `d`. -/
def cubeFl (fl : K → K) (d : K) : K :=
  fl (fl (d * d) * d)

/-- The motion cap of `iterate` (lines 432–449) in floating-point arithmetic: as
`motionCap`, with every difference, quotient, product and sum rounded by `fl`. -/
def motionCapFl (fl : K → K) (hypot : K → K → K) (motionLimit : K) (old tentative : Point K) :
    Point K :=
  let xold := old.x
  let yold := old.y
  let xnew := tentative.x
  let ynew := tentative.y
  let dx := fl (xnew - xold)
  let dy := fl (ynew - yold)
  let d := hypot dx dy
  if d > motionLimit then
    ⟨fl (xold + fl (fl (dx / d) * motionLimit)), fl (yold + fl (fl (dy / d) * motionLimit))⟩
  else ⟨xnew, ynew⟩

/-- Body of the clamping loop of `iterate` (lines 432–456) in floating-point arithmetic: as
`clampPoint`, with every arithmetic operation rounded by `fl`. -/
def clampPointFl (fl : K → K) (hypot : K → K → K) (motionLimit : K) (points : Nat → Point K)
    (i : Nat) (pointsNew : Nat → Point K) : Nat → Point K :=
  let d := hypot (fl ((pointsNew i).x - (points i).x)) (fl ((pointsNew i).y - (points i).y))
  let capped := motionCapFl fl hypot motionLimit (points i) (pointsNew i)
  let pn1 := if d > motionLimit then Function.update pointsNew i capped else pointsNew
  let l := hypot capped.x capped.y
  if l > 10 then Function.update pn1 i ⟨fl (fl (capped.x / l) * 10), fl (fl (capped.y / l) * 10)⟩
  else pn1

/-- Clamping loop of `iterate` (lines 431–457) in floating-point arithmetic. -/
def clampLoopFl (fl : K → K) (hypot : K → K → K) (motionLimit : K) (points : Nat → Point K) :
    List Nat → (Nat → Point K) → (Nat → Point K)
  | [], pointsNew => pointsNew
  | i :: rest, pointsNew =>
    clampLoopFl fl hypot motionLimit points rest
      (clampPointFl fl hypot motionLimit points i pointsNew)

/-- The integer which `writePoints` computes for a coordinate `c` (lines 536–545) in
floating-point arithmetic: the sum of line 536 and the product of line 544 are rounded by
`fl` before the conversion to `long`. -/
def encodeCoordFl [FloorRing K] (fl : K → K) (c : K) : Int :=
  let x := fl (c + 10)
  let x := if x < 0 then 0 else x
  toLong (fl (x * 1000000000000000))

/-! ## Notions used in the statements -/

/-- The larger of the two coordinate differences of the points `i` and `j`. -/
def gap (points : Nat → Point K) (i j : Nat) : K :=
  max |(points i).x - (points j).x| |(points i).y - (points j).y|

/-- Every point of `nums` lies in the closed box. -/
def InBox (points : Nat → Point K) (xmin ymin xmax ymax : K) (nums : List Nat) : Prop :=
  ∀ n ∈ nums, xmin ≤ (points n).x ∧ (points n).x ≤ xmax ∧
    ymin ≤ (points n).y ∧ (points n).y ≤ ymax

/-- The point with index `i` lies in the closed box of `s`. -/
def DiagramBox.Holds (points : Nat → Point K) (s : DiagramBox K) (i : Int) : Prop :=
  s.xmin ≤ (points i.toNat).x ∧ (points i.toNat).x ≤ s.xmax ∧
    s.ymin ≤ (points i.toNat).y ∧ (points i.toNat).y ≤ s.ymax

/-- The attraction sum of point `i`: the sum over the entries `j` of `connections[i]` of
`points[j] - points[i]`, plus the sum over every occurrence of `i` in a list
`connections[k]`, `k < nPoints`, of `points[k] - points[i]`. -/
def attractionSum (points : Nat → Point K) (connections : Nat → List Nat) (nPoints i : Nat) :
    ForceVector K :=
  ⟨((links (connections i)).map (fun j => (points j).x - (points i).x)).sum
      + ((List.range nPoints).map (fun k =>
          ((links (connections k)).count i : K) * ((points k).x - (points i).x))).sum,
   ((links (connections i)).map (fun j => (points j).y - (points i).y)).sum
      + ((List.range nPoints).map (fun k =>
          ((links (connections k)).count i : K) * ((points k).y - (points i).y))).sum⟩

/-- The position which the body of the clamping loop leaves in `pointsNew[i]`, from the prior
position `old` and the tentative position `tentative` of point `i`. -/
def clampedPosition (hypot : K → K → K) (motionLimit : K) (old tentative : Point K) :
    Point K :=
  if hypot (motionCap hypot motionLimit old tentative).x
      (motionCap hypot motionLimit old tentative).y > 10 then
    ⟨(motionCap hypot motionLimit old tentative).x
        / hypot (motionCap hypot motionLimit old tentative).x
            (motionCap hypot motionLimit old tentative).y * 10,
     (motionCap hypot motionLimit old tentative).y
        / hypot (motionCap hypot motionLimit old tentative).x
            (motionCap hypot motionLimit old tentative).y * 10⟩
  else motionCap hypot motionLimit old tentative

/-- The inverse of the linear map which `writePoints` applies to a coordinate:
`D(X) = X / 10^15 - 10`. -/
def decodeCoord (X : Int) : K :=
  (X : K) / 1000000000000000 - 10

/-- The sub-boxes of a box: `subBoxes[0 .. 3]` when `hasSubBoxes` holds. -/
def DiagramBox.children : DiagramBox K → List (DiagramBox K)
  | .box .. => []
  | .split _ _ _ _ _ _ _ s0 s1 s2 s3 => [s0, s1, s2, s3]

/-- The depth of a tree: the largest depth of a box in it, the root having depth `0`. -/
def DiagramBox.depth : DiagramBox K → Nat
  | .box .. => 0
  | .split _ _ _ _ _ _ _ s0 s1 s2 s3 => 1 + max (max s0.depth s1.depth) (max s2.depth s3.depth)

/-- Every box of a tree together with its depth, the root having depth `0`. -/
def DiagramBox.levels : DiagramBox K → List (Nat × DiagramBox K)
  | .box a b c d e f g => [(0, .box a b c d e f g)]
  | .split a b c d e f g s0 s1 s2 s3 =>
    (0, .split a b c d e f g s0 s1 s2 s3) ::
      (s0.levels ++ s1.levels ++ s2.levels ++ s3.levels).map (fun p => (p.1 + 1, p.2))

/-- The traversal of `getRepulsionForce`, recording instead of the force the values `d` by
whose cube the traversal divides: in the branch of a box holding one point (lines 301–303)
and in the centre-of-mass branch (lines 316–322). -/
def divisors (hypot : K → K → K) (points : Nat → Point K) (theta : K) (num : Int)
    (pt : Point K) : DiagramBox K → List K
  | .box _ _ _ _ _ _ bnum =>
    if num = bnum then []
    else if bnum ≠ -1 then
      [hypot ((points bnum.toNat).x - pt.x) ((points bnum.toNat).y - pt.y)]
    else []
  | .split _ _ _ _ boxSize cMass bnum s0 s1 s2 s3 =>
    if num = bnum then []
    else if bnum ≠ -1 then
      [hypot ((points bnum.toNat).x - pt.x) ((points bnum.toNat).y - pt.y)]
    else
      let d := hypot (pt.x - cMass.x) (pt.y - cMass.y)
      if boxSize < theta * d then [d]
      else
        divisors hypot points theta num pt s0 ++ divisors hypot points theta num pt s1
          ++ divisors hypot points theta num pt s2 ++ divisors hypot points theta num pt s3

/-- Search for the exponent `e` with `2 ^ e ≤ r < 2 ^ (e + 1)`, in at most `fuel` steps from
the candidate `e`, with `p = 2 ^ e`: the exponent found and its power of two. -/
def searchExp : Nat → ℚ → Int → ℚ → Option (Int × ℚ)
  | 0, _, _, _ => none
  | fuel + 1, r, e, p =>
    if r < p then searchExp fuel r (e - 1) (p / 2)
    else if 2 * p ≤ r then searchExp fuel r (e + 1) (2 * p)
    else some (e, p)

/-- An evaluation of `round64` in which the exponent is found by `searchExp`; it is equal to
`round64` (`round64Fast_eq`) and is used to evaluate `round64` at concrete numbers. -/
def round64Fast (q : ℚ) : ℚ :=
  if q = 0 then 0
  else
    match searchExp 1200 |q| 0 1 with
    | some (e, p) =>
      if -1022 ≤ e then roundHalfEven (q / (p / 4503599627370496)) * (p / 4503599627370496)
      else roundHalfEven (q / 2 ^ (-1074 : Int)) * 2 ^ (-1074 : Int)
    | none => round64 q

/-! ## Example inputs -/

/-- Two points of the example tree. -/
def examplePoints : Nat → Point ℚ := fun n => if n = 0 then ⟨1, 1⟩ else ⟨7, 9⟩

/-- The tree which `init` builds over the two example points. -/
def exampleTree : DiagramBox ℚ :=
  .split (-10) (-10) 10 10 20 ⟨0, 0, 0⟩ (-1)
    (.box (-10) (-10) 0 0 10 ⟨0, 0, 0⟩ (-1))
    (.box 0 (-10) 10 0 10 ⟨0, 0, 0⟩ (-1))
    (.box (-10) 0 0 10 10 ⟨0, 0, 0⟩ (-1))
    (.split 0 0 10 10 10 ⟨0, 0, 0⟩ (-1)
      (.box 0 0 5 5 5 ⟨0, 0, 0⟩ 0)
      (.box 5 0 10 5 5 ⟨0, 0, 0⟩ (-1))
      (.box 0 5 5 10 5 ⟨0, 0, 0⟩ (-1))
      (.box 5 5 10 10 5 ⟨0, 0, 0⟩ 1))

/-- Two points, the first on the midpoint of the box `[-10, 10] × [-10, 10]`. -/
def tiePoints : Nat → Point ℚ := fun n => if n = 0 then ⟨0, 0⟩ else ⟨5, 5⟩

/-- The two example points, as real numbers. -/
def examplePointsR : Nat → Point ℝ := fun n => if n = 0 then ⟨1, 1⟩ else ⟨7, 9⟩

/-- The tree which `init` builds over the two real example points. -/
def exampleTreeR : DiagramBox ℝ :=
  .split (-10) (-10) 10 10 20 ⟨0, 0, 0⟩ (-1)
    (.box (-10) (-10) 0 0 10 ⟨0, 0, 0⟩ (-1))
    (.box 0 (-10) 10 0 10 ⟨0, 0, 0⟩ (-1))
    (.box (-10) 0 0 10 10 ⟨0, 0, 0⟩ (-1))
    (.split 0 0 10 10 10 ⟨0, 0, 0⟩ (-1)
      (.box 0 0 5 5 5 ⟨0, 0, 0⟩ 0)
      (.box 5 0 10 5 5 ⟨0, 0, 0⟩ (-1))
      (.box 0 5 5 10 5 ⟨0, 0, 0⟩ (-1))
      (.box 5 5 10 10 5 ⟨0, 0, 0⟩ 1))

/-- The example tree after `getMass`. -/
def exampleMassTreeR : DiagramBox ℝ :=
  .split (-10) (-10) 10 10 20 ⟨4, 5, 2⟩ (-1)
    (.box (-10) (-10) 0 0 10 ⟨0, 0, 0⟩ (-1))
    (.box 0 (-10) 10 0 10 ⟨0, 0, 0⟩ (-1))
    (.box (-10) 0 0 10 10 ⟨0, 0, 0⟩ (-1))
    (.split 0 0 10 10 10 ⟨4, 5, 2⟩ (-1)
      (.box 0 0 5 5 5 ⟨1, 1, 1⟩ 0)
      (.box 5 0 10 5 5 ⟨0, 0, 0⟩ (-1))
      (.box 0 5 5 10 5 ⟨0, 0, 0⟩ (-1))
      (.box 5 5 10 10 5 ⟨7, 9, 1⟩ 1))

/-- Two points at adjacent `double` values: `(1 + 2^-52, 1 + 2^-52)` and
`(1 + 2^-51, 1 + 2^-51)`. -/
def adjacentPoints : Nat → Point ℚ :=
  fun n => if n = 0 then ⟨1 + 1 / 2 ^ 52, 1 + 1 / 2 ^ 52⟩ else ⟨1 + 1 / 2 ^ 51, 1 + 1 / 2 ^ 51⟩

/-- Two points on the left edge of the box `[-10, 10] × [-10, 10]`, at the adjacent
`double` values `1` and `1 + 2^-52` of `y`. -/
def edgePoints : Nat → Point ℚ := fun n => if n = 0 then ⟨-10, 1⟩ else ⟨-10, 1 + 1 / 2 ^ 52⟩

/-- Two points at distance `2^-365` (about `1.3e-110`): `(0, 0)` and `(0, 2^-365)`. -/
def tinyPoints : Nat → Point ℚ := fun n => if n = 0 then ⟨0, 0⟩ else ⟨0, 1 / 2 ^ 365⟩

/-- A state of two nodes at the same position `(1, 1)`, with empty connection lists. -/
def coincidentState : State ℚ :=
  { REPL_SCALE := 1 / 50, ATTR_SCALE := 1 / 25, motionLimit := 1 / 5, theta := 1 / 2,
    nPoints := 2, points := fun _ => ⟨1, 1⟩, pointsNew := fun _ => ⟨1, 1⟩,
    connections := fun _ => [sentinel] }

/-! # Theorems -/

/-! ## The tree build distributes the indices -/

theorem distribute_count (points : Nat → Point K) (xmid ymid : K) (a : Nat) (nums : List Nat) :
    (distribute points xmid ymid nums).bl.count a + (distribute points xmid ymid nums).br.count a
      + (distribute points xmid ymid nums).tl.count a
      + (distribute points xmid ymid nums).tr.count a = nums.count a := by
  induction nums with
  | nil => simp [distribute]
  | cons n rest ih =>
    simp only [distribute]
    split_ifs <;> simp only [List.count_cons] <;> omega

theorem distribute_perm (points : Nat → Point K) (xmid ymid : K) (nums : List Nat) :
    ((distribute points xmid ymid nums).bl ++ (distribute points xmid ymid nums).br
      ++ (distribute points xmid ymid nums).tl ++ (distribute points xmid ymid nums).tr).Perm
      nums := by
  rw [List.perm_iff_count]
  intro a
  simp only [List.count_append]
  exact distribute_count points xmid ymid a nums

theorem countQuadrants_eq (points : Nat → Point K) (xmid ymid : K) (nums : List Nat) :
    countQuadrants points xmid ymid nums =
      ((distribute points xmid ymid nums).bl.length, (distribute points xmid ymid nums).br.length,
        (distribute points xmid ymid nums).tl.length,
        (distribute points xmid ymid nums).tr.length) := by
  induction nums with
  | nil => simp [distribute, countQuadrants]
  | cons n rest ih =>
    simp only [distribute, countQuadrants, ih]
    split_ifs <;> simp

theorem distribute_eq_filter (points : Nat → Point K) (xmid ymid : K) (nums : List Nat) :
    distribute points xmid ymid nums =
      ⟨nums.filter (fun n => !decide ((points n).x > xmid) && !decide ((points n).y > ymid)),
       nums.filter (fun n => decide ((points n).x > xmid) && !decide ((points n).y > ymid)),
       nums.filter (fun n => !decide ((points n).x > xmid) && decide ((points n).y > ymid)),
       nums.filter (fun n => decide ((points n).x > xmid) && decide ((points n).y > ymid))⟩ := by
  induction nums with
  | nil => simp [distribute]
  | cons n rest ih =>
    by_cases hx : (points n).x > xmid <;> by_cases hy : (points n).y > ymid <;>
      simp [distribute, ih, hx, hy, List.filter_cons]

theorem distribute_sublist (points : Nat → Point K) (xmid ymid : K) (nums : List Nat) :
    (distribute points xmid ymid nums).bl.Sublist nums ∧
    (distribute points xmid ymid nums).br.Sublist nums ∧
    (distribute points xmid ymid nums).tl.Sublist nums ∧
    (distribute points xmid ymid nums).tr.Sublist nums := by
  rw [distribute_eq_filter]
  exact ⟨List.filter_sublist _, List.filter_sublist _, List.filter_sublist _,
    List.filter_sublist _⟩

theorem mem_distribute (points : Nat → Point K) (xmid ymid : K) (nums : List Nat) (a : Nat) :
    (a ∈ (distribute points xmid ymid nums).bl ↔
      a ∈ nums ∧ (points a).x ≤ xmid ∧ (points a).y ≤ ymid) ∧
    (a ∈ (distribute points xmid ymid nums).br ↔
      a ∈ nums ∧ xmid < (points a).x ∧ (points a).y ≤ ymid) ∧
    (a ∈ (distribute points xmid ymid nums).tl ↔
      a ∈ nums ∧ (points a).x ≤ xmid ∧ ymid < (points a).y) ∧
    (a ∈ (distribute points xmid ymid nums).tr ↔
      a ∈ nums ∧ xmid < (points a).x ∧ ymid < (points a).y) := by
  rw [distribute_eq_filter]
  simp [List.mem_filter]

theorem buildSubBoxes_eq_some (points : Nat → Point K)
    (initRec : K → K → K → K → List Nat → Option (DiagramBox K))
    (xmin ymin xmax ymax : K) (nums : List Nat) (b0 b1 b2 b3 : DiagramBox K) :
    buildSubBoxes points initRec xmin ymin xmax ymax nums = some (b0, b1, b2, b3) ↔
      initRec xmin ymin ((xmin + xmax) / 2) ((ymin + ymax) / 2)
          (distribute points ((xmin + xmax) / 2) ((ymin + ymax) / 2) nums).bl = some b0 ∧
      initRec ((xmin + xmax) / 2) ymin xmax ((ymin + ymax) / 2)
          (distribute points ((xmin + xmax) / 2) ((ymin + ymax) / 2) nums).br = some b1 ∧
      initRec xmin ((ymin + ymax) / 2) ((xmin + xmax) / 2) ymax
          (distribute points ((xmin + xmax) / 2) ((ymin + ymax) / 2) nums).tl = some b2 ∧
      initRec ((xmin + xmax) / 2) ((ymin + ymax) / 2) xmax ymax
          (distribute points ((xmin + xmax) / 2) ((ymin + ymax) / 2) nums).tr = some b3 := by
  simp only [buildSubBoxes]
  cases initRec xmin ymin ((xmin + xmax) / 2) ((ymin + ymax) / 2)
      (distribute points ((xmin + xmax) / 2) ((ymin + ymax) / 2) nums).bl <;>
    cases initRec ((xmin + xmax) / 2) ymin xmax ((ymin + ymax) / 2)
      (distribute points ((xmin + xmax) / 2) ((ymin + ymax) / 2) nums).br <;>
    cases initRec xmin ((ymin + ymax) / 2) ((xmin + xmax) / 2) ymax
      (distribute points ((xmin + xmax) / 2) ((ymin + ymax) / 2) nums).tl <;>
    cases initRec ((xmin + xmax) / 2) ((ymin + ymax) / 2) xmax ymax
      (distribute points ((xmin + xmax) / 2) ((ymin + ymax) / 2) nums).tr <;>
    simp

theorem init_succ_eq_some (points : Nat → Point K) (c0 : CenterOfMass K) (fuel : Nat)
    (xmin ymin xmax ymax : K) (nums : List Nat) (t : DiagramBox K) :
    init points c0 (fuel + 1) xmin ymin xmax ymax nums = some t ↔
      (nums = [] ∧ t = .box xmin ymin xmax ymax (xmax - xmin) c0 (-1)) ∨
      (∃ n, nums = [n] ∧ t = .box xmin ymin xmax ymax (xmax - xmin) c0 (n : Int)) ∨
      (2 ≤ nums.length ∧ ∃ b0 b1 b2 b3,
        buildSubBoxes points (init points c0 fuel) xmin ymin xmax ymax nums
          = some (b0, b1, b2, b3) ∧
        t = .split xmin ymin xmax ymax (xmax - xmin) c0 (-1) b0 b1 b2 b3) := by
  match nums with
  | [] => simp [init, eq_comm]
  | [n] => simp [init, eq_comm]
  | a :: b :: rest =>
    simp only [init, List.length_cons]
    constructor
    · intro h
      split at h
      · exact absurd h (by simp)
      · rename_i b0 b1 b2 b3 hb
        simp only [Option.some.injEq] at h
        exact Or.inr (Or.inr ⟨by omega, b0, b1, b2, b3, hb, h.symm⟩)
    · rintro (⟨h, -⟩ | ⟨n, h, -⟩ | ⟨-, b0, b1, b2, b3, hb, rfl⟩)
      · exact absurd h (by simp)
      · exact absurd h (by simp)
      · simp [hb]

theorem init_indices_perm (points : Nat → Point K) (c0 : CenterOfMass K) :
    ∀ (fuel : Nat) (xmin ymin xmax ymax : K) (nums : List Nat) (t : DiagramBox K),
      init points c0 fuel xmin ymin xmax ymax nums = some t →
      t.indices.Perm (nums.map Int.ofNat) := by
  intro fuel
  induction fuel with
  | zero => intro _ _ _ _ _ _ h; simp [init] at h
  | succ fuel ih =>
    intro xmin ymin xmax ymax nums t h
    rw [init_succ_eq_some] at h
    rcases h with ⟨rfl, rfl⟩ | ⟨n, rfl, rfl⟩ | ⟨-, b0, b1, b2, b3, hb, rfl⟩
    · simp [DiagramBox.indices]
    · have : (n : Int) ≠ -1 := by omega
      simp [DiagramBox.indices, this]
    · rw [buildSubBoxes_eq_some] at hb
      obtain ⟨h0, h1, h2, h3⟩ := hb
      simp only [DiagramBox.indices]
      refine List.Perm.trans ?_
        ((distribute_perm points ((xmin + xmax) / 2) ((ymin + ymax) / 2) nums).map Int.ofNat)
      simp only [List.map_append]
      exact (((ih _ _ _ _ _ _ h0).append (ih _ _ _ _ _ _ h1)).append (ih _ _ _ _ _ _ h2)).append
        (ih _ _ _ _ _ _ h3)

theorem init_fields (points : Nat → Point K) (c0 : CenterOfMass K) (fuel : Nat)
    (xmin ymin xmax ymax : K) (nums : List Nat) (t : DiagramBox K)
    (h : init points c0 fuel xmin ymin xmax ymax nums = some t) :
    t.xmin = xmin ∧ t.ymin = ymin ∧ t.xmax = xmax ∧ t.ymax = ymax ∧
      t.boxSize = xmax - xmin ∧ t.cMass = c0 := by
  cases fuel with
  | zero => simp [init] at h
  | succ fuel =>
    rw [init_succ_eq_some] at h
    rcases h with ⟨-, rfl⟩ | ⟨n, -, rfl⟩ | ⟨-, b0, b1, b2, b3, -, rfl⟩ <;>
      simp [DiagramBox.xmin, DiagramBox.ymin, DiagramBox.xmax, DiagramBox.ymax,
        DiagramBox.boxSize, DiagramBox.cMass]

theorem init_subtrees (points : Nat → Point K) (c0 : CenterOfMass K) :
    ∀ (fuel : Nat) (xmin ymin xmax ymax : K) (nums : List Nat) (t : DiagramBox K),
      init points c0 fuel xmin ymin xmax ymax nums = some t →
      ∀ s ∈ t.subtrees, ∃ (fuel1 : Nat) (nums1 : List Nat), nums1.Sublist nums ∧
        init points c0 fuel1 s.xmin s.ymin s.xmax s.ymax nums1 = some s := by
  intro fuel
  induction fuel with
  | zero => intro _ _ _ _ _ _ h; simp [init] at h
  | succ fuel ih =>
    intro xmin ymin xmax ymax nums t h s hs
    have hf := init_fields points c0 _ _ _ _ _ _ _ h
    have hself : ∃ (fuel1 : Nat) (nums1 : List Nat), nums1.Sublist nums ∧
        init points c0 fuel1 t.xmin t.ymin t.xmax t.ymax nums1 = some t := by
      obtain ⟨h1, h2, h3, h4, -, -⟩ := hf
      exact ⟨fuel + 1, nums, List.Sublist.refl _, by rw [h1, h2, h3, h4]; exact h⟩
    rw [init_succ_eq_some] at h
    rcases h with ⟨-, rfl⟩ | ⟨n, -, rfl⟩ | ⟨-, b0, b1, b2, b3, hb, rfl⟩
    · simp only [DiagramBox.subtrees, List.mem_singleton] at hs
      subst hs; exact hself
    · simp only [DiagramBox.subtrees, List.mem_singleton] at hs
      subst hs; exact hself
    · rw [buildSubBoxes_eq_some] at hb
      obtain ⟨h0, h1, h2, h3⟩ := hb
      obtain ⟨l0, l1, l2, l3⟩ :=
        distribute_sublist points ((xmin + xmax) / 2) ((ymin + ymax) / 2) nums
      simp only [DiagramBox.subtrees, List.mem_cons, List.mem_append] at hs
      rcases hs with rfl | ((hs | hs) | hs) | hs
      · exact hself
      · obtain ⟨f, l, hl, hi⟩ := ih _ _ _ _ _ _ h0 s hs
        exact ⟨f, l, hl.trans l0, hi⟩
      · obtain ⟨f, l, hl, hi⟩ := ih _ _ _ _ _ _ h1 s hs
        exact ⟨f, l, hl.trans l1, hi⟩
      · obtain ⟨f, l, hl, hi⟩ := ih _ _ _ _ _ _ h2 s hs
        exact ⟨f, l, hl.trans l2, hi⟩
      · obtain ⟨f, l, hl, hi⟩ := ih _ _ _ _ _ _ h3 s hs
        exact ⟨f, l, hl.trans l3, hi⟩

/-- C1. `buildSubBoxes` distributes every list of indices into four lists which together are
a permutation of it, and whose lengths are the four counters; whenever `init` returns a tree
on `nums`, the indices stored in its leaves are a permutation of `nums`, and every box of the
tree at every depth was built by `init` from a sub-list of `nums` of which its own leaves are
a permutation. -/
theorem tree_build_partition (points : Nat → Point K) (c0 : CenterOfMass K) (fuel : Nat)
    (xmin ymin xmax ymax : K) (nums : List Nat) (t : DiagramBox K)
    (h : init points c0 fuel xmin ymin xmax ymax nums = some t) :
    (∀ (xmid ymid : K) (l : List Nat),
      ((distribute points xmid ymid l).bl ++ (distribute points xmid ymid l).br
        ++ (distribute points xmid ymid l).tl ++ (distribute points xmid ymid l).tr).Perm l ∧
      countQuadrants points xmid ymid l =
        ((distribute points xmid ymid l).bl.length, (distribute points xmid ymid l).br.length,
         (distribute points xmid ymid l).tl.length, (distribute points xmid ymid l).tr.length)) ∧
    t.indices.Perm (nums.map Int.ofNat) ∧
    ∀ s ∈ t.subtrees, ∃ (fuel1 : Nat) (nums1 : List Nat), nums1.Sublist nums ∧
      init points c0 fuel1 s.xmin s.ymin s.xmax s.ymax nums1 = some s ∧
      s.indices.Perm (nums1.map Int.ofNat) := by
  refine ⟨fun xmid ymid l => ⟨distribute_perm points xmid ymid l,
    countQuadrants_eq points xmid ymid l⟩, init_indices_perm points c0 _ _ _ _ _ _ _ h, ?_⟩
  intro s hs
  obtain ⟨f, l, hl, hi⟩ := init_subtrees points c0 _ _ _ _ _ _ _ h s hs
  exact ⟨f, l, hl, hi, init_indices_perm points c0 _ _ _ _ _ _ _ hi⟩

theorem exampleTree_built :
    init examplePoints ⟨0, 0, 0⟩ 3 (-10) (-10) 10 10 [0, 1] = some exampleTree := by
  simp [init, buildSubBoxes, distribute, examplePoints, exampleTree]
  norm_num

theorem tree_build_partition_witness :
    init examplePoints ⟨0, 0, 0⟩ 3 (-10) (-10) 10 10 [0, 1] = some exampleTree ∧
      exampleTree.indices.Perm ([0, 1].map Int.ofNat) :=
  ⟨exampleTree_built,
    (tree_build_partition examplePoints ⟨0, 0, 0⟩ 3 (-10) (-10) 10 10 [0, 1] exampleTree
      exampleTree_built).2.1⟩

/-! ## Mass of a tree -/

theorem getMass_indices (points : Nat → Point K) (t : DiagramBox K) :
    (getMass points t).2.indices = t.indices := by
  induction t with
  | box => simp [getMass, DiagramBox.indices]
  | split _ _ _ _ _ _ _ s0 s1 s2 s3 ih0 ih1 ih2 ih3 =>
    simp [getMass, DiagramBox.indices, ih0, ih1, ih2, ih3]

theorem getMass_cMass (points : Nat → Point K) (t : DiagramBox K) :
    (getMass points t).2.cMass = (getMass points t).1 := by
  cases t <;> simp [getMass, DiagramBox.cMass]

theorem getMass_mass (points : Nat → Point K) (t : DiagramBox K) :
    (getMass points t).1.mass = (t.indices.length : K) := by
  induction t with
  | box _ _ _ _ _ _ n =>
    by_cases h : n = -1 <;> simp [getMass, DiagramBox.indices, h]
  | split _ _ _ _ _ _ _ s0 s1 s2 s3 ih0 ih1 ih2 ih3 =>
    simp only [getMass, DiagramBox.indices, List.length_append, Nat.cast_add]
    split_ifs <;> simp [ih0, ih1, ih2, ih3]

theorem getMass_subtrees (points : Nat → Point K) (t : DiagramBox K) :
    (getMass points t).2.subtrees = t.subtrees.map (fun s => (getMass points s).2) := by
  induction t with
  | box => simp [getMass, DiagramBox.subtrees]
  | split _ _ _ _ _ _ _ s0 s1 s2 s3 ih0 ih1 ih2 ih3 =>
    simp [getMass, DiagramBox.subtrees, ih0, ih1, ih2, ih3]

theorem getMass_hasSubBoxes (points : Nat → Point K) (t : DiagramBox K) :
    (getMass points t).2.hasSubBoxes = t.hasSubBoxes ∧ (getMass points t).2.num = t.num := by
  cases t <;> simp [getMass, DiagramBox.hasSubBoxes, DiagramBox.num]

/-- C2. On a tree which `init` built over a list of `k` indices, `getMass` returns a mass
equal to `k` and stores what it returns in `cMass`; after the call the cached mass of every
box of the tree is the number of indices in the leaves under it, `0` for a box without a
point and `1` for a box holding a point. -/
theorem mass_conservation (points : Nat → Point K) (c0 : CenterOfMass K) (fuel : Nat)
    (xmin ymin xmax ymax : K) (nums : List Nat) (t : DiagramBox K)
    (h : init points c0 fuel xmin ymin xmax ymax nums = some t) :
    (getMass points t).1.mass = (nums.length : K) ∧
    (getMass points t).2.cMass = (getMass points t).1 ∧
    ∀ s ∈ (getMass points t).2.subtrees,
      s.cMass.mass = (s.indices.length : K) ∧
      (s.hasSubBoxes = false → s.num = -1 → s.cMass.mass = 0) ∧
      (s.hasSubBoxes = false → s.num ≠ -1 → s.cMass.mass = 1) := by
  refine ⟨?_, getMass_cMass points t, ?_⟩
  · rw [getMass_mass, (init_indices_perm points c0 _ _ _ _ _ _ _ h).length_eq, List.length_map]
  · intro s hs
    rw [getMass_subtrees, List.mem_map] at hs
    obtain ⟨u, -, rfl⟩ := hs
    have hm : (getMass points u).2.cMass.mass = ((getMass points u).2.indices.length : K) := by
      rw [getMass_cMass, getMass_mass, getMass_indices]
    refine ⟨hm, ?_, ?_⟩
    · intro h1 h2
      rw [hm]
      cases u <;> simp_all [getMass, DiagramBox.indices, DiagramBox.hasSubBoxes, DiagramBox.num]
    · intro h1 h2
      rw [hm]
      cases u <;> simp_all [getMass, DiagramBox.indices, DiagramBox.hasSubBoxes, DiagramBox.num]

theorem mass_conservation_witness :
    init examplePoints ⟨0, 0, 0⟩ 3 (-10) (-10) 10 10 [0, 1] = some exampleTree ∧
      (getMass examplePoints exampleTree).1.mass = (([0, 1] : List Nat).length : ℚ) :=
  ⟨exampleTree_built,
    (mass_conservation examplePoints ⟨0, 0, 0⟩ 3 (-10) (-10) 10 10 [0, 1] exampleTree
      exampleTree_built).1⟩

/-! ## Termination of the tree build -/

theorem init_mono (points : Nat → Point K) (c0 : CenterOfMass K) :
    ∀ (fuel : Nat) (xmin ymin xmax ymax : K) (nums : List Nat) (t : DiagramBox K),
      init points c0 fuel xmin ymin xmax ymax nums = some t →
      init points c0 (fuel + 1) xmin ymin xmax ymax nums = some t := by
  intro fuel
  induction fuel with
  | zero => intro _ _ _ _ _ _ h; simp [init] at h
  | succ fuel ih =>
    intro xmin ymin xmax ymax nums t h
    rw [init_succ_eq_some] at h ⊢
    rcases h with h | h | ⟨hl, b0, b1, b2, b3, hb, rfl⟩
    · exact Or.inl h
    · exact Or.inr (Or.inl h)
    · refine Or.inr (Or.inr ⟨hl, b0, b1, b2, b3, ?_, rfl⟩)
      rw [buildSubBoxes_eq_some] at hb ⊢
      exact ⟨ih _ _ _ _ _ _ hb.1, ih _ _ _ _ _ _ hb.2.1, ih _ _ _ _ _ _ hb.2.2.1,
        ih _ _ _ _ _ _ hb.2.2.2⟩

theorem init_mono_le (points : Nat → Point K) (c0 : CenterOfMass K)
    (fuel fuel1 : Nat) (hle : fuel ≤ fuel1) (xmin ymin xmax ymax : K) (nums : List Nat)
    (t : DiagramBox K) (h : init points c0 fuel xmin ymin xmax ymax nums = some t) :
    init points c0 fuel1 xmin ymin xmax ymax nums = some t := by
  induction hle with
  | refl => exact h
  | step _ ih => exact init_mono points c0 _ _ _ _ _ _ _ ih

theorem init_deterministic (points : Nat → Point K) (c0 : CenterOfMass K)
    (fuel fuel1 : Nat) (xmin ymin xmax ymax : K) (nums : List Nat) (t t1 : DiagramBox K)
    (h : init points c0 fuel xmin ymin xmax ymax nums = some t)
    (h1 : init points c0 fuel1 xmin ymin xmax ymax nums = some t1) : t1 = t := by
  have a := init_mono_le points c0 fuel (max fuel fuel1) (le_max_left _ _) _ _ _ _ _ _ h
  have b := init_mono_le points c0 fuel1 (max fuel fuel1) (le_max_right _ _) _ _ _ _ _ _ h1
  rw [a] at b
  exact (Option.some.inj b).symm

theorem init_coincident_none (p : Point K) (c0 : CenterOfMass K) :
    ∀ (fuel : Nat) (xmin ymin xmax ymax : K) (nums : List Nat), 2 ≤ nums.length →
      init (fun _ => p) c0 fuel xmin ymin xmax ymax nums = none := by
  intro fuel
  induction fuel with
  | zero => intro _ _ _ _ _ _; simp [init]
  | succ fuel ih =>
    intro xmin ymin xmax ymax nums hl
    cases hres : init (fun _ => p) c0 (fuel + 1) xmin ymin xmax ymax nums with
    | none => rfl
    | some t =>
      exfalso
      rw [init_succ_eq_some] at hres
      rcases hres with ⟨rfl, -⟩ | ⟨n, rfl, -⟩ | ⟨-, b0, b1, b2, b3, hb, -⟩
      · simp at hl
      · simp at hl
      · rw [buildSubBoxes_eq_some, distribute_eq_filter] at hb
        obtain ⟨h0, h1, h2, h3⟩ := hb
        by_cases hx : p.x > (xmin + xmax) / 2 <;> by_cases hy : p.y > (ymin + ymax) / 2
        · simp only [hx, hy, decide_True, Bool.and_self, List.filter_true] at h3
          rw [ih _ _ _ _ _ hl] at h3
          exact absurd h3 (by simp)
        · simp only [hx, hy, decide_True, decide_False, Bool.not_false, Bool.and_self,
            List.filter_true] at h1
          rw [ih _ _ _ _ _ hl] at h1
          exact absurd h1 (by simp)
        · simp only [hx, hy, decide_True, decide_False, Bool.not_false, Bool.and_self,
            List.filter_true] at h2
          rw [ih _ _ _ _ _ hl] at h2
          exact absurd h2 (by simp)
        · simp only [hx, hy, decide_False, Bool.not_false, Bool.and_self,
            List.filter_true] at h0
          rw [ih _ _ _ _ _ hl] at h0
          exact absurd h0 (by simp)

/-- C3, counterexample. The indices `0` and `1` refer to two points with the same coordinates
`(1, 1)`, inside the region `[-10, 10] × [-10, 10]`: with no amount of fuel does `init`
return a tree. -/
theorem init_coincident_points_diverge :
    ¬ ∃ (fuel : Nat) (t : DiagramBox ℚ),
      init (fun _ => (⟨1, 1⟩ : Point ℚ)) ⟨0, 0, 0⟩ fuel (-10) (-10) 10 10 [0, 1] = some t := by
  rintro ⟨fuel, t, h⟩
  rw [init_coincident_none _ _ fuel _ _ _ _ _ (by simp)] at h
  exact absurd h (by simp)

theorem gap_pos (points : Nat → Point K) (i j : Nat) (h : points i ≠ points j) :
    0 < gap points i j := by
  unfold gap
  by_contra hn
  apply h
  have h1 : |(points i).x - (points j).x| ≤ 0 := le_trans (le_max_left _ _) (not_lt.1 hn)
  have h2 : |(points i).y - (points j).y| ≤ 0 := le_trans (le_max_right _ _) (not_lt.1 hn)
  have e1 : (points i).x = (points j).x := sub_eq_zero.1 (abs_nonpos_iff.1 h1)
  have e2 : (points i).y = (points j).y := sub_eq_zero.1 (abs_nonpos_iff.1 h2)
  cases hi : points i
  cases hj : points j
  simp_all

theorem exists_lower_bound {α : Type} (f : α → K) (l : List α) (h : ∀ b ∈ l, 0 < f b) :
    ∃ δ : K, 0 < δ ∧ ∀ b ∈ l, δ ≤ f b := by
  induction l with
  | nil => exact ⟨1, one_pos, by simp⟩
  | cons a l ih =>
    obtain ⟨δ, hδ, hl⟩ := ih (fun b hb => h b (List.mem_cons_of_mem _ hb))
    refine ⟨min δ (f a), lt_min hδ (h a (List.mem_cons_self _ _)), ?_⟩
    intro b hb
    rcases List.mem_cons.1 hb with rfl | hb
    · exact min_le_right _ _
    · exact le_trans (min_le_left _ _) (hl b hb)

theorem exists_gap (points : Nat → Point K) (nums : List Nat)
    (h : nums.Pairwise (fun i j => points i ≠ points j)) :
    ∃ δ : K, 0 < δ ∧ nums.Pairwise (fun i j => δ ≤ gap points i j) := by
  induction nums with
  | nil => exact ⟨1, one_pos, List.Pairwise.nil⟩
  | cons a l ih =>
    rw [List.pairwise_cons] at h
    obtain ⟨δ, hδ, hl⟩ := ih h.2
    obtain ⟨ε, hε, hb⟩ := exists_lower_bound (fun b => gap points a b) l
      (fun b hb => gap_pos points a b (h.1 b hb))
    refine ⟨min δ ε, lt_min hδ hε, List.pairwise_cons.2 ⟨?_, ?_⟩⟩
    · intro b hb'
      exact le_trans (min_le_right _ _) (hb b hb')
    · exact hl.imp (fun hab => le_trans (min_le_left _ _) hab)

theorem gap_le_of_inBox (points : Nat → Point K) (xmin ymin xmax ymax : K) (i j : Nat)
    (hi : xmin ≤ (points i).x ∧ (points i).x ≤ xmax ∧ ymin ≤ (points i).y ∧ (points i).y ≤ ymax)
    (hj : xmin ≤ (points j).x ∧ (points j).x ≤ xmax ∧ ymin ≤ (points j).y ∧ (points j).y ≤ ymax) :
    gap points i j ≤ max (xmax - xmin) (ymax - ymin) := by
  unfold gap
  apply max_le_max
  · rw [abs_le]; constructor <;> linarith [hi.1, hi.2.1, hj.1, hj.2.1]
  · rw [abs_le]; constructor <;> linarith [hi.2.2.1, hi.2.2.2, hj.2.2.1, hj.2.2.2]

theorem inBox_distribute (points : Nat → Point K) (xmin ymin xmax ymax : K) (nums : List Nat)
    (h : InBox points xmin ymin xmax ymax nums) :
    InBox points xmin ymin ((xmin + xmax) / 2) ((ymin + ymax) / 2)
      (distribute points ((xmin + xmax) / 2) ((ymin + ymax) / 2) nums).bl ∧
    InBox points ((xmin + xmax) / 2) ymin xmax ((ymin + ymax) / 2)
      (distribute points ((xmin + xmax) / 2) ((ymin + ymax) / 2) nums).br ∧
    InBox points xmin ((ymin + ymax) / 2) ((xmin + xmax) / 2) ymax
      (distribute points ((xmin + xmax) / 2) ((ymin + ymax) / 2) nums).tl ∧
    InBox points ((xmin + xmax) / 2) ((ymin + ymax) / 2) xmax ymax
      (distribute points ((xmin + xmax) / 2) ((ymin + ymax) / 2) nums).tr := by
  refine ⟨?_, ?_, ?_, ?_⟩ <;> intro n hn
  · obtain ⟨hm, hx, hy⟩ := (mem_distribute points _ _ nums n).1.1 hn
    obtain ⟨a, b, c, d⟩ := h n hm
    exact ⟨a, hx, c, hy⟩
  · obtain ⟨hm, hx, hy⟩ := (mem_distribute points _ _ nums n).2.1.1 hn
    obtain ⟨a, b, c, d⟩ := h n hm
    exact ⟨le_of_lt hx, b, c, hy⟩
  · obtain ⟨hm, hx, hy⟩ := (mem_distribute points _ _ nums n).2.2.1.1 hn
    obtain ⟨a, b, c, d⟩ := h n hm
    exact ⟨a, hx, le_of_lt hy, d⟩
  · obtain ⟨hm, hx, hy⟩ := (mem_distribute points _ _ nums n).2.2.2.1 hn
    obtain ⟨a, b, c, d⟩ := h n hm
    exact ⟨le_of_lt hx, b, le_of_lt hy, d⟩

theorem init_some_of_small (points : Nat → Point K) (c0 : CenterOfMass K) (δ : K) :
    ∀ (k : Nat) (xmin ymin xmax ymax : K) (nums : List Nat),
      InBox points xmin ymin xmax ymax nums →
      nums.Pairwise (fun i j => δ ≤ gap points i j) →
      max (xmax - xmin) (ymax - ymin) < δ * 2 ^ k →
      ∃ t, init points c0 (k + 1) xmin ymin xmax ymax nums = some t := by
  intro k
  induction k with
  | zero =>
    intro xmin ymin xmax ymax nums hin hp hw
    match nums, hin, hp with
    | [], _, _ => exact ⟨_, rfl⟩
    | [n], _, _ => exact ⟨_, rfl⟩
    | a :: b :: rest, hin, hp =>
      exfalso
      have h1 : δ ≤ gap points a b := (List.pairwise_cons.1 hp).1 b (List.mem_cons_self _ _)
      have h2 := gap_le_of_inBox points xmin ymin xmax ymax a b
        (hin a (List.mem_cons_self _ _))
        (hin b (List.mem_cons_of_mem _ (List.mem_cons_self _ _)))
      simp only [pow_zero, mul_one] at hw
      exact absurd (lt_of_le_of_lt (le_trans h1 h2) hw) (lt_irrefl _)
  | succ k ih =>
    intro xmin ymin xmax ymax nums hin hp hw
    match nums, hin, hp with
    | [], _, _ => exact ⟨_, rfl⟩
    | [n], _, _ => exact ⟨_, rfl⟩
    | a :: b :: rest, hin, hp =>
      obtain ⟨i0, i1, i2, i3⟩ := inBox_distribute points xmin ymin xmax ymax _ hin
      obtain ⟨l0, l1, l2, l3⟩ :=
        distribute_sublist points ((xmin + xmax) / 2) ((ymin + ymax) / 2) (a :: b :: rest)
      have hx : xmax - xmin < δ * 2 ^ (k + 1) := lt_of_le_of_lt (le_max_left _ _) hw
      have hy : ymax - ymin < δ * 2 ^ (k + 1) := lt_of_le_of_lt (le_max_right _ _) hw
      rw [pow_succ] at hx hy
      obtain ⟨b0, h0⟩ := ih _ _ _ _ _ i0 (hp.sublist l0)
        (max_lt (by linarith) (by linarith))
      obtain ⟨b1, h1⟩ := ih _ _ _ _ _ i1 (hp.sublist l1)
        (max_lt (by linarith) (by linarith))
      obtain ⟨b2, h2⟩ := ih _ _ _ _ _ i2 (hp.sublist l2)
        (max_lt (by linarith) (by linarith))
      obtain ⟨b3, h3⟩ := ih _ _ _ _ _ i3 (hp.sublist l3)
        (max_lt (by linarith) (by linarith))
      refine ⟨.split xmin ymin xmax ymax (xmax - xmin) c0 (-1) b0 b1 b2 b3, ?_⟩
      rw [init_succ_eq_some]
      refine Or.inr (Or.inr ⟨by simp, b0, b1, b2, b3, ?_, rfl⟩)
      rw [buildSubBoxes_eq_some]
      exact ⟨h0, h1, h2, h3⟩

theorem init_some_of_distinct [Archimedean K] (points : Nat → Point K) (c0 : CenterOfMass K)
    (xmin ymin xmax ymax : K) (nums : List Nat)
    (hin : InBox points xmin ymin xmax ymax nums)
    (hd : nums.Pairwise (fun i j => points i ≠ points j)) :
    ∃ fuel t, init points c0 fuel xmin ymin xmax ymax nums = some t := by
  obtain ⟨δ, hδ, hp⟩ := exists_gap points nums hd
  obtain ⟨k, hk⟩ := pow_unbounded_of_one_lt (max (xmax - xmin) (ymax - ymin) / δ)
    (one_lt_two : (1 : K) < 2)
  rw [div_lt_iff₀ hδ, mul_comm] at hk
  obtain ⟨t, ht⟩ := init_some_of_small points c0 δ k xmin ymin xmax ymax nums hin hp hk
  exact ⟨k + 1, t, ht⟩

theorem leaf_indices_length (s : DiagramBox K) (h : s.hasSubBoxes = false) :
    s.indices.length ≤ 1 := by
  cases s with
  | box _ _ _ _ _ _ n => by_cases hn : n = -1 <;> simp [DiagramBox.indices, hn]
  | split => simp [DiagramBox.hasSubBoxes] at h

/-- C3, amended. In exact arithmetic: for every region and every list of indices whose
points have pairwise distinct coordinates and lie in the closed region, the recursion
`init → buildSubBoxes → init` terminates: some amount of fuel, and every larger one, gives
the same tree, in which every box without sub-boxes holds at most one point. -/
theorem init_terminates [Archimedean K] (points : Nat → Point K) (c0 : CenterOfMass K)
    (xmin ymin xmax ymax : K) (nums : List Nat)
    (hin : ∀ n ∈ nums, xmin ≤ (points n).x ∧ (points n).x ≤ xmax ∧
      ymin ≤ (points n).y ∧ (points n).y ≤ ymax)
    (hd : nums.Pairwise (fun i j => points i ≠ points j)) :
    ∃ (fuel : Nat) (t : DiagramBox K),
      (∀ fuel1, fuel ≤ fuel1 → init points c0 fuel1 xmin ymin xmax ymax nums = some t) ∧
      ∀ s ∈ t.subtrees, s.hasSubBoxes = false → s.indices.length ≤ 1 := by
  obtain ⟨fuel, t, ht⟩ := init_some_of_distinct points c0 xmin ymin xmax ymax nums hin hd
  exact ⟨fuel, t, fun fuel1 hle => init_mono_le points c0 fuel fuel1 hle _ _ _ _ _ _ ht,
    fun s _ hs => leaf_indices_length s hs⟩

theorem init_terminates_witness :
    (∀ n ∈ [0, 1], (-10 : ℚ) ≤ (examplePoints n).x ∧ (examplePoints n).x ≤ 10 ∧
      (-10 : ℚ) ≤ (examplePoints n).y ∧ (examplePoints n).y ≤ 10) ∧
    ∃ (fuel : Nat) (t : DiagramBox ℚ),
      (∀ fuel1, fuel ≤ fuel1 →
        init examplePoints ⟨0, 0, 0⟩ fuel1 (-10) (-10) 10 10 [0, 1] = some t) ∧
      ∀ s ∈ t.subtrees, s.hasSubBoxes = false → s.indices.length ≤ 1 :=
  ⟨by simp [examplePoints]; norm_num,
    init_terminates examplePoints ⟨0, 0, 0⟩ (-10) (-10) 10 10 [0, 1]
      (by simp [examplePoints]; norm_num) (by simp [examplePoints])⟩

/-! ## Points on the midpoint of a box -/

theorem mem_indices_of_perm (t : DiagramBox K) (l : List Nat) (h : t.indices.Perm (l.map Int.ofNat))
    (n : Nat) : (n : Int) ∈ t.indices ↔ n ∈ l := by
  rw [h.mem_iff, List.mem_map]
  constructor
  · rintro ⟨a, ha, hn⟩
    have : a = n := Int.ofNat.inj hn
    exact this ▸ ha
  · intro hn
    exact ⟨n, hn, rfl⟩

/-- C4, counterexample. In the box `[-10, 10] × [-10, 10]` the point `0` lies on the midpoint
on both axes; `buildSubBoxes` places it in the bottom-left list, in none of the other three,
and the tree holds it in sub-box `0`. -/
theorem midpoint_tie_not_upper_right :
    (tiePoints 0).x = (-10 + 10) / 2 ∧ (tiePoints 0).y = (-10 + 10) / 2 ∧
    0 ∈ (distribute tiePoints ((-10 + 10) / 2) ((-10 + 10) / 2) [0, 1]).bl ∧
    0 ∉ (distribute tiePoints ((-10 + 10) / 2) ((-10 + 10) / 2) [0, 1]).br ∧
    0 ∉ (distribute tiePoints ((-10 + 10) / 2) ((-10 + 10) / 2) [0, 1]).tl ∧
    0 ∉ (distribute tiePoints ((-10 + 10) / 2) ((-10 + 10) / 2) [0, 1]).tr ∧
    init tiePoints ⟨0, 0, 0⟩ 2 (-10) (-10) 10 10 [0, 1] =
      some (.split (-10) (-10) 10 10 20 ⟨0, 0, 0⟩ (-1)
        (.box (-10) (-10) 0 0 10 ⟨0, 0, 0⟩ 0)
        (.box 0 (-10) 10 0 10 ⟨0, 0, 0⟩ (-1))
        (.box (-10) 0 0 10 10 ⟨0, 0, 0⟩ (-1))
        (.box 0 0 10 10 10 ⟨0, 0, 0⟩ 1)) := by
  refine ⟨?_, ?_, ?_, ?_, ?_, ?_, ?_⟩ <;>
    simp [init, buildSubBoxes, distribute, tiePoints] <;> norm_num

/-- C4, amended. An index of `nums` whose point has `x` equal to `xmid` is placed in a
left-hand sub-box (`0` or `2`) and in no right-hand one; an index whose point has `y` equal to
`ymid` is placed in a lower sub-box (`0` or `1`) and in no upper one. -/
theorem midpoint_tie_lower_left (points : Nat → Point K) (c0 : CenterOfMass K) (fuel : Nat)
    (xmin ymin xmax ymax : K) (nums : List Nat) (b0 b1 b2 b3 : DiagramBox K)
    (h : buildSubBoxes points (init points c0 fuel) xmin ymin xmax ymax nums
      = some (b0, b1, b2, b3))
    (n : Nat) (hn : n ∈ nums) :
    ((points n).x = (xmin + xmax) / 2 →
      ((n : Int) ∈ b0.indices ∨ (n : Int) ∈ b2.indices) ∧
      (n : Int) ∉ b1.indices ∧ (n : Int) ∉ b3.indices) ∧
    ((points n).y = (ymin + ymax) / 2 →
      ((n : Int) ∈ b0.indices ∨ (n : Int) ∈ b1.indices) ∧
      (n : Int) ∉ b2.indices ∧ (n : Int) ∉ b3.indices) := by
  rw [buildSubBoxes_eq_some] at h
  obtain ⟨h0, h1, h2, h3⟩ := h
  rw [mem_indices_of_perm b0 _ (init_indices_perm points c0 _ _ _ _ _ _ _ h0),
    mem_indices_of_perm b1 _ (init_indices_perm points c0 _ _ _ _ _ _ _ h1),
    mem_indices_of_perm b2 _ (init_indices_perm points c0 _ _ _ _ _ _ _ h2),
    mem_indices_of_perm b3 _ (init_indices_perm points c0 _ _ _ _ _ _ _ h3)]
  obtain ⟨m0, m1, m2, m3⟩ := mem_distribute points ((xmin + xmax) / 2) ((ymin + ymax) / 2) nums n
  rw [m0, m1, m2, m3]
  constructor
  · intro hx
    rcases le_or_lt (points n).y ((ymin + ymax) / 2) with hy | hy
    · exact ⟨Or.inl ⟨hn, le_of_eq hx, hy⟩, fun h => absurd h.2.1 (by rw [hx]; exact lt_irrefl _),
        fun h => absurd h.2.1 (by rw [hx]; exact lt_irrefl _)⟩
    · exact ⟨Or.inr ⟨hn, le_of_eq hx, hy⟩, fun h => absurd h.2.1 (by rw [hx]; exact lt_irrefl _),
        fun h => absurd h.2.1 (by rw [hx]; exact lt_irrefl _)⟩
  · intro hy
    rcases le_or_lt (points n).x ((xmin + xmax) / 2) with hx | hx
    · exact ⟨Or.inl ⟨hn, hx, le_of_eq hy⟩, fun h => absurd h.2.2 (by rw [hy]; exact lt_irrefl _),
        fun h => absurd h.2.2 (by rw [hy]; exact lt_irrefl _)⟩
    · exact ⟨Or.inr ⟨hn, hx, le_of_eq hy⟩, fun h => absurd h.2.2 (by rw [hy]; exact lt_irrefl _),
        fun h => absurd h.2.2 (by rw [hy]; exact lt_irrefl _)⟩

theorem tiePoints_subBoxes :
    buildSubBoxes tiePoints (init tiePoints ⟨0, 0, 0⟩ 1) (-10) (-10) 10 10 [0, 1] =
      some (.box (-10) (-10) 0 0 10 ⟨0, 0, 0⟩ 0, .box 0 (-10) 10 0 10 ⟨0, 0, 0⟩ (-1),
        .box (-10) 0 0 10 10 ⟨0, 0, 0⟩ (-1), .box 0 0 10 10 10 ⟨0, 0, 0⟩ 1) := by
  simp [init, buildSubBoxes, distribute, tiePoints]

theorem midpoint_tie_lower_left_witness :
    (tiePoints 0).x = (-10 + 10) / 2 ∧
    (((0 : Nat) : Int) ∈ (DiagramBox.box (-10) (-10) 0 0 10 (⟨0, 0, 0⟩ : CenterOfMass ℚ) 0).indices ∨
      ((0 : Nat) : Int) ∈
        (DiagramBox.box (-10) 0 0 10 10 (⟨0, 0, 0⟩ : CenterOfMass ℚ) (-1)).indices) :=
  ⟨by simp [tiePoints],
    ((midpoint_tie_lower_left tiePoints ⟨0, 0, 0⟩ 1 (-10) (-10) 10 10 [0, 1] _ _ _ _
      tiePoints_subBoxes 0 (by simp)).1 (by simp [tiePoints])).1⟩

/-! ## Self-exclusion in the repulsion traversal -/

theorem isHypot_sqrt : IsHypot (fun a b : ℝ => Real.sqrt (a * a + b * b)) := by
  intro a b
  have h : 0 ≤ a * a + b * b := add_nonneg (mul_self_nonneg a) (mul_self_nonneg b)
  exact ⟨Real.sqrt_nonneg _, Real.mul_self_sqrt h⟩

theorem exampleTreeR_built :
    init examplePointsR ⟨0, 0, 0⟩ 3 (-10) (-10) 10 10 [0, 1] = some exampleTreeR := by
  simp [init, buildSubBoxes, distribute, examplePointsR, exampleTreeR]
  norm_num

theorem exampleTreeR_mass : (getMass examplePointsR exampleTreeR).2 = exampleMassTreeR := by
  simp [getMass, examplePointsR, exampleTreeR, exampleMassTreeR]
  norm_num

theorem sqrt_example : Real.sqrt ((1 - 4) * (1 - 4) + (1 - 5) * (1 - 5)) = 5 := by
  rw [show ((1 : ℝ) - 4) * (1 - 4) + (1 - 5) * (1 - 5) = 5 ^ 2 by norm_num]
  exact Real.sqrt_sq (by norm_num)

/-- C5, counterexample. With `theta = 5`, on the tree built over the points `(1, 1)` and
`(7, 9)`, the traversal for point `0` takes the centre-of-mass branch at the root, whose
sub-tree holds point `0`: the distance to the centre of mass `(4, 5)` is `5` and
`boxSize = 20 < 5 * 5`.  The force returned is that of the mass `2` of both points. -/
theorem self_exclusion_fails_for_large_theta :
    init examplePointsR ⟨0, 0, 0⟩ 3 (-10) (-10) 10 10 [0, 1] = some exampleTreeR ∧
    (0 : Int) ∈ (getMass examplePointsR exampleTreeR).2.indices ∧
    usesOwnMass (fun a b : ℝ => Real.sqrt (a * a + b * b)) 5 0 (examplePointsR 0)
      (getMass examplePointsR exampleTreeR).2 = true ∧
    getRepulsionForce (fun a b : ℝ => Real.sqrt (a * a + b * b)) examplePointsR 5 0
      (examplePointsR 0) (getMass examplePointsR exampleTreeR).2 = ⟨-6 / 125, -8 / 125⟩ := by
  refine ⟨exampleTreeR_built, ?_, ?_, ?_⟩
  · rw [exampleTreeR_mass]; simp [exampleMassTreeR, DiagramBox.indices]
  · rw [exampleTreeR_mass]
    simp [exampleMassTreeR, usesOwnMass, examplePointsR, DiagramBox.indices, sqrt_example]
    norm_num
  · rw [exampleTreeR_mass]
    simp [exampleMassTreeR, getRepulsionForce, examplePointsR, sqrt_example]
    norm_num

theorem init_subtrees_region (points : Nat → Point K) (c0 : CenterOfMass K)
    (P : K → K → K → K → Prop)
    (hP : ∀ xmin ymin xmax ymax, P xmin ymin xmax ymax →
      P xmin ymin ((xmin + xmax) / 2) ((ymin + ymax) / 2) ∧
      P ((xmin + xmax) / 2) ymin xmax ((ymin + ymax) / 2) ∧
      P xmin ((ymin + ymax) / 2) ((xmin + xmax) / 2) ymax ∧
      P ((xmin + xmax) / 2) ((ymin + ymax) / 2) xmax ymax) :
    ∀ (fuel : Nat) (xmin ymin xmax ymax : K) (nums : List Nat) (t : DiagramBox K),
      init points c0 fuel xmin ymin xmax ymax nums = some t → P xmin ymin xmax ymax →
      ∀ s ∈ t.subtrees, P s.xmin s.ymin s.xmax s.ymax := by
  intro fuel
  induction fuel with
  | zero => intro _ _ _ _ _ _ h; simp [init] at h
  | succ fuel ih =>
    intro xmin ymin xmax ymax nums t h hp s hs
    have hself : P t.xmin t.ymin t.xmax t.ymax := by
      obtain ⟨h1, h2, h3, h4, -, -⟩ := init_fields points c0 _ _ _ _ _ _ _ h
      rw [h1, h2, h3, h4]; exact hp
    rw [init_succ_eq_some] at h
    rcases h with ⟨-, rfl⟩ | ⟨n, -, rfl⟩ | ⟨-, b0, b1, b2, b3, hb, rfl⟩
    · simp only [DiagramBox.subtrees, List.mem_singleton] at hs
      subst hs; exact hself
    · simp only [DiagramBox.subtrees, List.mem_singleton] at hs
      subst hs; exact hself
    · rw [buildSubBoxes_eq_some] at hb
      obtain ⟨h0, h1, h2, h3⟩ := hb
      obtain ⟨p0, p1, p2, p3⟩ := hP _ _ _ _ hp
      simp only [DiagramBox.subtrees, List.mem_cons, List.mem_append] at hs
      rcases hs with rfl | ((hs | hs) | hs) | hs
      · exact hself
      · exact ih _ _ _ _ _ _ h0 p0 s hs
      · exact ih _ _ _ _ _ _ h1 p1 s hs
      · exact ih _ _ _ _ _ _ h2 p2 s hs
      · exact ih _ _ _ _ _ _ h3 p3 s hs

theorem init_subtrees_holds (points : Nat → Point K) (c0 : CenterOfMass K) :
    ∀ (fuel : Nat) (xmin ymin xmax ymax : K) (nums : List Nat) (t : DiagramBox K),
      init points c0 fuel xmin ymin xmax ymax nums = some t →
      InBox points xmin ymin xmax ymax nums →
      ∀ s ∈ t.subtrees, s.boxSize = s.xmax - s.xmin ∧ (s.hasSubBoxes = true → s.num = -1) ∧
        ∀ i ∈ s.indices, s.Holds points i := by
  intro fuel
  induction fuel with
  | zero => intro _ _ _ _ _ _ h; simp [init] at h
  | succ fuel ih =>
    intro xmin ymin xmax ymax nums t h hin s hs
    have hself : t.boxSize = t.xmax - t.xmin ∧ (t.hasSubBoxes = true → t.num = -1) ∧
        ∀ i ∈ t.indices, t.Holds points i := by
      obtain ⟨h1, h2, h3, h4, h5, -⟩ := init_fields points c0 _ _ _ _ _ _ _ h
      refine ⟨by rw [h5, h1, h3], ?_, ?_⟩
      · intro hsb
        rw [init_succ_eq_some] at h
        rcases h with ⟨-, rfl⟩ | ⟨n, -, rfl⟩ | ⟨-, b0, b1, b2, b3, -, rfl⟩ <;>
          simp_all [DiagramBox.hasSubBoxes, DiagramBox.num]
      · intro i hi
        rw [(init_indices_perm points c0 _ _ _ _ _ _ _ h).mem_iff, List.mem_map] at hi
        obtain ⟨n, hn, rfl⟩ := hi
        have := hin n hn
        simpa [DiagramBox.Holds, h1, h2, h3, h4] using this
    rw [init_succ_eq_some] at h
    rcases h with ⟨-, rfl⟩ | ⟨n, -, rfl⟩ | ⟨-, b0, b1, b2, b3, hb, rfl⟩
    · simp only [DiagramBox.subtrees, List.mem_singleton] at hs
      subst hs; exact hself
    · simp only [DiagramBox.subtrees, List.mem_singleton] at hs
      subst hs; exact hself
    · rw [buildSubBoxes_eq_some] at hb
      obtain ⟨h0, h1, h2, h3⟩ := hb
      obtain ⟨p0, p1, p2, p3⟩ := inBox_distribute points _ _ _ _ _ hin
      simp only [DiagramBox.subtrees, List.mem_cons, List.mem_append] at hs
      rcases hs with rfl | ((hs | hs) | hs) | hs
      · exact hself
      · exact ih _ _ _ _ _ _ h0 p0 s hs
      · exact ih _ _ _ _ _ _ h1 p1 s hs
      · exact ih _ _ _ _ _ _ h2 p2 s hs
      · exact ih _ _ _ _ _ _ h3 p3 s hs

theorem getMass_weighted (points : Nat → Point K) (a b c d : K) (u : DiagramBox K)
    (h : ∀ i ∈ u.indices, a ≤ (points i.toNat).x ∧ (points i.toNat).x ≤ b ∧
      c ≤ (points i.toNat).y ∧ (points i.toNat).y ≤ d) :
    0 ≤ (getMass points u).1.mass ∧
    a * (getMass points u).1.mass ≤ (getMass points u).1.x * (getMass points u).1.mass ∧
    (getMass points u).1.x * (getMass points u).1.mass ≤ b * (getMass points u).1.mass ∧
    c * (getMass points u).1.mass ≤ (getMass points u).1.y * (getMass points u).1.mass ∧
    (getMass points u).1.y * (getMass points u).1.mass ≤ d * (getMass points u).1.mass := by
  induction u with
  | box _ _ _ _ _ _ n =>
    by_cases hn : n = -1
    · simp [getMass, hn]
    · have := h n (by simp [DiagramBox.indices, hn])
      simpa [getMass, hn] using this
  | split _ _ _ _ _ _ _ s0 s1 s2 s3 ih0 ih1 ih2 ih3 =>
    simp only [DiagramBox.indices, List.mem_append] at h
    obtain ⟨m0, xa0, xb0, yc0, yd0⟩ := ih0 (fun i hi => h i (Or.inl (Or.inl (Or.inl hi))))
    obtain ⟨m1, xa1, xb1, yc1, yd1⟩ := ih1 (fun i hi => h i (Or.inl (Or.inl (Or.inr hi))))
    obtain ⟨m2, xa2, xb2, yc2, yd2⟩ := ih2 (fun i hi => h i (Or.inl (Or.inr hi)))
    obtain ⟨m3, xa3, xb3, yc3, yd3⟩ := ih3 (fun i hi => h i (Or.inr hi))
    simp only [getMass]
    split_ifs with hm
    · simp only
      rw [div_mul_cancel₀ _ (ne_of_gt hm), div_mul_cancel₀ _ (ne_of_gt hm)]
      refine ⟨le_of_lt hm, ?_, ?_, ?_, ?_⟩ <;> linarith
    · simp only
      have hz : 0 + (getMass points s0).1.mass + (getMass points s1).1.mass
          + (getMass points s2).1.mass + (getMass points s3).1.mass = 0 :=
        le_antisymm (not_lt.1 hm) (by linarith)
      rw [hz]
      simp

theorem getMass_in_box (points : Nat → Point K) (a b c d : K) (u : DiagramBox K)
    (h : ∀ i ∈ u.indices, a ≤ (points i.toNat).x ∧ (points i.toNat).x ≤ b ∧
      c ≤ (points i.toNat).y ∧ (points i.toNat).y ≤ d)
    (hm : 0 < (getMass points u).1.mass) :
    a ≤ (getMass points u).1.x ∧ (getMass points u).1.x ≤ b ∧
    c ≤ (getMass points u).1.y ∧ (getMass points u).1.y ≤ d := by
  obtain ⟨-, h1, h2, h3, h4⟩ := getMass_weighted points a b c d u h
  exact ⟨le_of_mul_le_mul_right h1 hm, le_of_mul_le_mul_right h2 hm,
    le_of_mul_le_mul_right h3 hm, le_of_mul_le_mul_right h4 hm⟩

theorem hypot_le_of_abs_le (hypot : K → K → K) (hh : IsHypot hypot) (theta B dx dy : K)
    (hθ : 0 ≤ theta → 2 * theta * theta ≤ 1) (hB : 0 ≤ B) (hx : |dx| ≤ B) (hy : |dy| ≤ B) :
    ¬ (B < theta * hypot dx dy) := by
  obtain ⟨h0, h2⟩ := hh dx dy
  intro hlt
  have hθ0 : 0 < theta := by
    by_contra hn
    have : theta * hypot dx dy ≤ 0 := mul_nonpos_of_nonpos_of_nonneg (not_lt.1 hn) h0
    linarith
  have h1 := hθ (le_of_lt hθ0)
  have hx2 : dx * dx ≤ B * B := by
    have := abs_le.1 hx
    nlinarith [this.1, this.2]
  have hy2 : dy * dy ≤ B * B := by
    have := abs_le.1 hy
    nlinarith [this.1, this.2]
  have hd : hypot dx dy * hypot dx dy ≤ 2 * (B * B) := by rw [h2]; linarith
  have hsq : B * B < (theta * hypot dx dy) * (theta * hypot dx dy) :=
    mul_self_lt_mul_self hB hlt
  have : (theta * hypot dx dy) * (theta * hypot dx dy) ≤ B * B := by
    have e : (theta * hypot dx dy) * (theta * hypot dx dy)
        = theta * theta * (hypot dx dy * hypot dx dy) := by ring
    rw [e]
    have t2 : 0 ≤ theta * theta := mul_self_nonneg _
    calc theta * theta * (hypot dx dy * hypot dx dy)
        ≤ theta * theta * (2 * (B * B)) := mul_le_mul_of_nonneg_left hd t2
      _ = (2 * theta * theta) * (B * B) := by ring
      _ ≤ 1 * (B * B) := mul_le_mul_of_nonneg_right h1 (mul_self_nonneg _)
      _ = B * B := one_mul _
  linarith

theorem usesOwnMass_eq_false (hypot : K → K → K) (theta : K) (num : Int) (pt : Point K) :
    ∀ u : DiagramBox K,
      (∀ s ∈ u.subtrees, s.hasSubBoxes = true → num ∈ s.indices →
        ¬ (s.boxSize < theta * hypot (pt.x - s.cMass.x) (pt.y - s.cMass.y))) →
      usesOwnMass hypot theta num pt u = false := by
  intro u
  induction u with
  | box => intro _; rfl
  | split a b c e boxSize cMass bnum s0 s1 s2 s3 ih0 ih1 ih2 ih3 =>
    intro h
    have hself := h (.split a b c e boxSize cMass bnum s0 s1 s2 s3)
      (by simp [DiagramBox.subtrees]) rfl
    have hsub : ∀ s, (s ∈ s0.subtrees ∨ s ∈ s1.subtrees ∨ s ∈ s2.subtrees ∨ s ∈ s3.subtrees) →
        s ∈ (DiagramBox.split a b c e boxSize cMass bnum s0 s1 s2 s3).subtrees := by
      intro s hs
      simp only [DiagramBox.subtrees, List.mem_cons, List.mem_append]
      rcases hs with h | h | h | h
      · exact Or.inr (Or.inl (Or.inl (Or.inl h)))
      · exact Or.inr (Or.inl (Or.inl (Or.inr h)))
      · exact Or.inr (Or.inl (Or.inr h))
      · exact Or.inr (Or.inr h)
    simp only [usesOwnMass]
    split_ifs with h1 h2 h3
    · rfl
    · rfl
    · simp only [decide_eq_false_iff_not]
      intro hmem
      exact hself hmem (by simpa [DiagramBox.boxSize, DiagramBox.cMass] using h3)
    · rw [ih0 (fun s hs => h s (hsub s (Or.inl hs))),
        ih1 (fun s hs => h s (hsub s (Or.inr (Or.inl hs)))),
        ih2 (fun s hs => h s (hsub s (Or.inr (Or.inr (Or.inl hs))))),
        ih3 (fun s hs => h s (hsub s (Or.inr (Or.inr (Or.inr hs)))))]
      rfl

theorem getMass_fields (points : Nat → Point K) (u : DiagramBox K) :
    (getMass points u).2.xmin = u.xmin ∧ (getMass points u).2.ymin = u.ymin ∧
    (getMass points u).2.xmax = u.xmax ∧ (getMass points u).2.ymax = u.ymax ∧
    (getMass points u).2.boxSize = u.boxSize := by
  cases u <;> simp [getMass, DiagramBox.xmin, DiagramBox.ymin, DiagramBox.xmax,
    DiagramBox.ymax, DiagramBox.boxSize]

theorem getRepulsionForce_own_box (hypot : K → K → K) (points : Nat → Point K) (theta : K)
    (num : Int) (pt : Point K) (s : DiagramBox K) (h : s.num = num) :
    getRepulsionForce hypot points theta num pt s = ⟨0, 0⟩ := by
  cases s <;> simp_all [getRepulsionForce, DiagramBox.num]

/-- C5, amended. In exact arithmetic: for every `theta ≤ 1 / √2` (stated as
`2 * theta * theta ≤ 1` for `theta ≥ 0`), every tree built by `init` over a square region
which contains the points, with `getMass` run, and every index `num`: the traversal
`getRepulsionForce(num, points[num])` never takes the centre-of-mass branch at a box whose
sub-tree holds `num`, and it returns zero at the box whose `num` field is `num`. -/
theorem self_exclusion (hypot : K → K → K) (hh : IsHypot hypot) (points : Nat → Point K)
    (c0 : CenterOfMass K) (fuel : Nat) (xmin ymin xmax ymax : K) (nums : List Nat)
    (t : DiagramBox K) (theta : K) (num : Nat)
    (hsq : xmax - xmin = ymax - ymin)
    (hin : ∀ n ∈ nums, xmin ≤ (points n).x ∧ (points n).x ≤ xmax ∧
      ymin ≤ (points n).y ∧ (points n).y ≤ ymax)
    (h : init points c0 fuel xmin ymin xmax ymax nums = some t)
    (hθ : 0 ≤ theta → 2 * theta * theta ≤ 1) :
    usesOwnMass hypot theta num (points num) (getMass points t).2 = false ∧
    ∀ s ∈ (getMass points t).2.subtrees, s.num = num →
      getRepulsionForce hypot points theta num (points num) s = ⟨0, 0⟩ := by
  refine ⟨?_, fun s _ hs => getRepulsionForce_own_box hypot points theta num _ s hs⟩
  apply usesOwnMass_eq_false
  intro s hs hsb hmem
  rw [getMass_subtrees, List.mem_map] at hs
  obtain ⟨u, hu, rfl⟩ := hs
  have hsquare := init_subtrees_region points c0
    (fun xmin ymin xmax ymax => xmax - xmin = ymax - ymin)
    (fun a b c d hp => by
      have hp' : c - a = d - b := hp
      refine ⟨?_, ?_, ?_, ?_⟩ <;> show _ - _ = _ - _ <;> linarith)
    _ _ _ _ _ _ _ h hsq u hu
  obtain ⟨hbs, -, hholds⟩ := init_subtrees_holds points c0 _ _ _ _ _ _ _ h hin u hu
  obtain ⟨-, -, -, -, f5⟩ := getMass_fields points u
  rw [getMass_indices] at hmem
  rw [f5, getMass_cMass]
  have hpt := hholds _ hmem
  simp only [DiagramBox.Holds, Int.toNat_ofNat] at hpt
  have hmass : 0 < (getMass points u).1.mass := by
    rw [getMass_mass]
    exact Nat.cast_pos.2 (List.length_pos_of_mem hmem)
  obtain ⟨c1, c2, c3, c4⟩ := getMass_in_box points u.xmin u.xmax u.ymin u.ymax u
    (fun i hi => hholds i hi) hmass
  obtain ⟨p1, p2, p3, p4⟩ := hpt
  apply hypot_le_of_abs_le hypot hh theta u.boxSize _ _ hθ
  · rw [hbs]; linarith
  · rw [hbs, abs_le]; constructor <;> linarith
  · rw [hbs, abs_le]; constructor <;> linarith

theorem self_exclusion_witness :
    init examplePointsR ⟨0, 0, 0⟩ 3 (-10) (-10) 10 10 [0, 1] = some exampleTreeR ∧
    usesOwnMass (fun a b : ℝ => Real.sqrt (a * a + b * b)) (1 / 2) 0 (examplePointsR 0)
      (getMass examplePointsR exampleTreeR).2 = false :=
  ⟨exampleTreeR_built,
    (self_exclusion (fun a b : ℝ => Real.sqrt (a * a + b * b)) isHypot_sqrt examplePointsR
      ⟨0, 0, 0⟩ 3 (-10) (-10) 10 10 [0, 1] exampleTreeR (1 / 2) 0 (by norm_num)
      (by simp [examplePointsR]; norm_num) exampleTreeR_built (by intro _; norm_num)).1⟩

/-! ## Exactness of the traversal for small `theta` -/

theorem hypot_unique (hypot : K → K → K) (hh : IsHypot hypot) (a b c d : K)
    (h : a * a + b * b = c * c + d * d) : hypot a b = hypot c d := by
  obtain ⟨h1, h2⟩ := hh a b
  obtain ⟨h3, h4⟩ := hh c d
  have : hypot a b * hypot a b = hypot c d * hypot c d := by rw [h2, h4, h]
  exact (mul_self_inj h1 h3).1 this

theorem pointForce_eq (hypot : K → K → K) (hh : IsHypot hypot) (points : Nat → Point K)
    (j : Nat) (pt : Point K) :
    pointForce hypot points (j : Int) pt =
      ⟨(pt.x - (points j).x) / hypot (pt.x - (points j).x) (pt.y - (points j).y) ^ 3,
       (pt.y - (points j).y) / hypot (pt.x - (points j).x) (pt.y - (points j).y) ^ 3⟩ := by
  have e : hypot ((points j).x - pt.x) ((points j).y - pt.y)
      = hypot (pt.x - (points j).x) (pt.y - (points j).y) :=
    hypot_unique hypot hh _ _ _ _ (by ring)
  simp only [pointForce, Int.toNat_ofNat, e]
  congr 1 <;> ring_nf

theorem getRepulsionForce_eq_sum (hypot : K → K → K) (points : Nat → Point K) (theta : K)
    (num : Nat) (pt : Point K) :
    ∀ u : DiagramBox K,
      (∀ s ∈ u.subtrees, s.hasSubBoxes = true → s.num = -1 ∧
        ¬ (s.boxSize < theta * hypot (pt.x - s.cMass.x) (pt.y - s.cMass.y))) →
      getRepulsionForce hypot points theta num pt u =
        ⟨((u.indices.filter (fun j => decide (j ≠ (num : Int)))).map
            (fun j => (pointForce hypot points j pt).x)).sum,
         ((u.indices.filter (fun j => decide (j ≠ (num : Int)))).map
            (fun j => (pointForce hypot points j pt).y)).sum⟩ := by
  intro u
  induction u with
  | box _ _ _ _ _ _ bnum =>
    intro _
    by_cases h1 : (num : Int) = bnum
    · have h2 : bnum ≠ -1 := by omega
      simp [getRepulsionForce, DiagramBox.indices, h1, h2]
    · by_cases h2 : bnum = -1
      · simp [getRepulsionForce, DiagramBox.indices, h1, h2]
      · have h3 : bnum ≠ (num : Int) := fun h => h1 h.symm
        simp [getRepulsionForce, DiagramBox.indices, h1, h2, List.filter_cons, h3]
  | split a b c e boxSize cMass bnum s0 s1 s2 s3 ih0 ih1 ih2 ih3 =>
    intro h
    obtain ⟨hb, hc⟩ := h (.split a b c e boxSize cMass bnum s0 s1 s2 s3)
      (by simp [DiagramBox.subtrees]) rfl
    simp only [DiagramBox.num] at hb
    simp only [DiagramBox.boxSize, DiagramBox.cMass] at hc
    have hsub : ∀ s, (s ∈ s0.subtrees ∨ s ∈ s1.subtrees ∨ s ∈ s2.subtrees ∨ s ∈ s3.subtrees) →
        s ∈ (DiagramBox.split a b c e boxSize cMass bnum s0 s1 s2 s3).subtrees := by
      intro s hs
      simp only [DiagramBox.subtrees, List.mem_cons, List.mem_append]
      rcases hs with h | h | h | h
      · exact Or.inr (Or.inl (Or.inl (Or.inl h)))
      · exact Or.inr (Or.inl (Or.inl (Or.inr h)))
      · exact Or.inr (Or.inl (Or.inr h))
      · exact Or.inr (Or.inr h)
    subst hb
    have h1 : (num : Int) ≠ -1 := by omega
    simp only [getRepulsionForce, if_neg h1, ne_eq, not_true_eq_false, if_false, if_neg hc,
      ih0 (fun s hs => h s (hsub s (Or.inl hs))),
      ih1 (fun s hs => h s (hsub s (Or.inr (Or.inl hs)))),
      ih2 (fun s hs => h s (hsub s (Or.inr (Or.inr (Or.inl hs))))),
      ih3 (fun s hs => h s (hsub s (Or.inr (Or.inr (Or.inr hs))))),
      DiagramBox.indices, List.filter_append, List.map_append, List.sum_append, zero_add]

theorem indices_sum_eq (hypot : K → K → K) (hh : IsHypot hypot) (points : Nat → Point K)
    (nums : List Nat) (num : Nat) (u : DiagramBox K) (hp : u.indices.Perm (nums.map Int.ofNat)) :
    (⟨((u.indices.filter (fun j => decide (j ≠ (num : Int)))).map
        (fun j => (pointForce hypot points j (points num)).x)).sum,
      ((u.indices.filter (fun j => decide (j ≠ (num : Int)))).map
        (fun j => (pointForce hypot points j (points num)).y)).sum⟩ : ForceVector K)
      = bruteForceRepulsion hypot points nums num := by
  have hf : ((nums.map Int.ofNat).filter (fun j => decide (j ≠ (num : Int))))
      = (nums.filter (fun j => decide (j ≠ num))).map Int.ofNat := by
    rw [List.filter_map]
    congr 1
    apply List.filter_congr
    intro j _
    simp
  have hx := ((hp.filter (fun j => decide (j ≠ (num : Int)))).map
    (fun j => (pointForce hypot points j (points num)).x)).sum_eq
  have hy := ((hp.filter (fun j => decide (j ≠ (num : Int)))).map
    (fun j => (pointForce hypot points j (points num)).y)).sum_eq
  rw [hx, hy, hf]
  simp only [bruteForceRepulsion, List.map_map]
  congr 2
  · apply List.map_congr_left
    intro j _
    show (pointForce hypot points (j : Int) (points num)).x = _
    rw [pointForce_eq hypot hh]
  · apply List.map_congr_left
    intro j _
    show (pointForce hypot points (j : Int) (points num)).y = _
    rw [pointForce_eq hypot hh]

theorem exists_theta0 (hypot : K → K → K) (hh : IsHypot hypot) (u : DiagramBox K)
    (queries : List (Point K))
    (hpos : ∀ s ∈ u.subtrees, s.hasSubBoxes = true → 0 < s.boxSize) :
    ∃ theta0 : K, 0 < theta0 ∧ ∀ theta, theta < theta0 → ∀ pt ∈ queries, ∀ s ∈ u.subtrees,
      s.hasSubBoxes = true →
      ¬ (s.boxSize < theta * hypot (pt.x - s.cMass.x) (pt.y - s.cMass.y)) := by
  obtain ⟨δ, hδ, hb⟩ := exists_lower_bound
    (fun p : DiagramBox K × Point K =>
      if p.1.hasSubBoxes = true then
        p.1.boxSize / (hypot (p.2.x - p.1.cMass.x) (p.2.y - p.1.cMass.y) + 1)
      else 1)
    (List.product u.subtrees queries)
    (by
      rintro ⟨s, pt⟩ hm
      rw [List.pair_mem_product] at hm
      by_cases hs : s.hasSubBoxes = true
      · simp only [hs, if_true]
        exact div_pos (hpos s hm.1 hs) (by linarith [(hh (pt.x - s.cMass.x) (pt.y - s.cMass.y)).1])
      · simp only [hs, if_false]; exact one_pos)
  refine ⟨δ, hδ, ?_⟩
  intro theta hθ pt hpt s hs hsb hlt
  have h1 := hb (s, pt) (List.pair_mem_product.2 ⟨hs, hpt⟩)
  simp only [hsb, if_true] at h1
  have hd := (hh (pt.x - s.cMass.x) (pt.y - s.cMass.y)).1
  have hd1 : 0 < hypot (pt.x - s.cMass.x) (pt.y - s.cMass.y) + 1 := by linarith
  have h2 : theta * (hypot (pt.x - s.cMass.x) (pt.y - s.cMass.y) + 1) < s.boxSize := by
    have := lt_of_lt_of_le hθ h1
    rwa [lt_div_iff₀ hd1] at this
  have hB := hpos s hs hsb
  rcases le_or_lt theta 0 with ht | ht
  · have : theta * hypot (pt.x - s.cMass.x) (pt.y - s.cMass.y) ≤ 0 :=
      mul_nonpos_of_nonpos_of_nonneg ht hd
    linarith
  · linarith [mul_add theta (hypot (pt.x - s.cMass.x) (pt.y - s.cMass.y)) 1]

/-- C6. For points of `nums` with pairwise distinct coordinates inside a root box of positive
width the tree build terminates, and there is a `theta0 > 0` such that for every
`theta < theta0` (in particular `theta = 0`) and every index `num` of `nums` the force
`getRepulsionForce(num, points[num])` on the root, after `getMass`, equals the brute-force
sum over all `j ≠ num` of `((x_num - x_j) / d_j^3, (y_num - y_j) / d_j^3)`. -/
theorem barnes_hut_exact_for_small_theta [Archimedean K] (hypot : K → K → K)
    (hh : IsHypot hypot) (points : Nat → Point K) (c0 : CenterOfMass K)
    (xmin ymin xmax ymax : K) (nums : List Nat)
    (hpos : xmin < xmax)
    (hin : ∀ n ∈ nums, xmin ≤ (points n).x ∧ (points n).x ≤ xmax ∧
      ymin ≤ (points n).y ∧ (points n).y ≤ ymax)
    (hd : nums.Pairwise (fun i j => points i ≠ points j)) :
    ∃ (fuel : Nat) (t : DiagramBox K),
      init points c0 fuel xmin ymin xmax ymax nums = some t ∧
      ∃ theta0 : K, 0 < theta0 ∧ ∀ theta, theta < theta0 → ∀ num ∈ nums,
        getRepulsionForce hypot points theta (num : Int) (points num) (getMass points t).2
          = bruteForceRepulsion hypot points nums num := by
  obtain ⟨fuel, t, ht⟩ := init_some_of_distinct points c0 xmin ymin xmax ymax nums hin hd
  have hwide := init_subtrees_region points c0 (fun xmin _ xmax _ => xmin < xmax)
    (fun a b c d hp => by
      have hp' : a < c := hp
      refine ⟨?_, ?_, ?_, ?_⟩ <;> show _ < _ <;> linarith)
    _ _ _ _ _ _ _ ht hpos
  have hinv := init_subtrees_holds points c0 _ _ _ _ _ _ _ ht hin
  have hsub : ∀ s ∈ (getMass points t).2.subtrees,
      (s.hasSubBoxes = true → 0 < s.boxSize) ∧ (s.hasSubBoxes = true → s.num = -1) := by
    intro s hs
    rw [getMass_subtrees, List.mem_map] at hs
    obtain ⟨u, hu, rfl⟩ := hs
    obtain ⟨hbs, hnum, -⟩ := hinv u hu
    obtain ⟨f1, -, f3, -, f5⟩ := getMass_fields points u
    obtain ⟨g1, g2⟩ := getMass_hasSubBoxes points u
    rw [f5, g1, g2, hbs]
    exact ⟨fun _ => sub_pos.2 (hwide u hu), hnum⟩
  obtain ⟨theta0, h0, hθ⟩ := exists_theta0 hypot hh (getMass points t).2 (nums.map points)
    (fun s hs => (hsub s hs).1)
  refine ⟨fuel, t, ht, theta0, h0, ?_⟩
  intro theta hlt num hnum
  rw [getRepulsionForce_eq_sum hypot points theta num (points num) (getMass points t).2
    (fun s hs hsb => ⟨(hsub s hs).2 hsb,
      hθ theta hlt (points num) (List.mem_map_of_mem _ hnum) s hs hsb⟩)]
  apply indices_sum_eq hypot hh
  rw [getMass_indices]
  exact init_indices_perm points c0 _ _ _ _ _ _ _ ht

theorem barnes_hut_exact_for_small_theta_witness :
    ∃ (fuel : Nat) (t : DiagramBox ℝ),
      init examplePointsR ⟨0, 0, 0⟩ fuel (-10) (-10) 10 10 [0, 1] = some t ∧
      ∃ theta0 : ℝ, 0 < theta0 ∧ ∀ theta, theta < theta0 → ∀ num ∈ ([0, 1] : List Nat),
        getRepulsionForce (fun a b : ℝ => Real.sqrt (a * a + b * b)) examplePointsR theta
            (num : Int) (examplePointsR num) (getMass examplePointsR t).2
          = bruteForceRepulsion (fun a b : ℝ => Real.sqrt (a * a + b * b)) examplePointsR
              [0, 1] num :=
  barnes_hut_exact_for_small_theta (fun a b : ℝ => Real.sqrt (a * a + b * b)) isHypot_sqrt
    examplePointsR ⟨0, 0, 0⟩ (-10) (-10) 10 10 [0, 1] (by norm_num)
    (by simp [examplePointsR]; norm_num) (by simp [examplePointsR])

/-! ## The net force of one step -/

theorem repulsionLoop_apply (hypot : K → K → K) (points : Nat → Point K) (theta REPL_SCALE : K)
    (topBox : DiagramBox K) :
    ∀ (l : List Nat) (pn : Nat → Point K) (i : Nat), l.Nodup →
      repulsionLoop hypot points theta REPL_SCALE topBox l pn i =
        if i ∈ l then
          ⟨(pn i).x + (getRepulsionForce hypot points theta (i : Int) (points i) topBox).x
              * REPL_SCALE,
           (pn i).y + (getRepulsionForce hypot points theta (i : Int) (points i) topBox).y
              * REPL_SCALE⟩
        else pn i := by
  intro l
  induction l with
  | nil => intro pn i _; simp [repulsionLoop]
  | cons a l ih =>
    intro pn i hnd
    rw [List.nodup_cons] at hnd
    simp only [repulsionLoop]
    rw [ih _ _ hnd.2]
    by_cases hia : i = a
    · subst hia
      simp [hnd.1]
    · by_cases hil : i ∈ l
      · simp [hia, hil, Function.update_noteq hia]
      · simp [hia, hil, Function.update_noteq hia]

theorem attractLinks_eq (points : Nat → Point K) (ATTR_SCALE x y : K) :
    ∀ (cNums : List Nat) (forceX forceY : K) (pn : Nat → Point K),
      attractLinks points ATTR_SCALE x y cNums (forceX, forceY, pn) =
        (forceX + ((links cNums).map (fun c => (points c).x - x)).sum,
         forceY + ((links cNums).map (fun c => (points c).y - y)).sum,
         fun k => ⟨(pn k).x + ATTR_SCALE * (((links cNums).count k : K) * (x - (points k).x)),
                   (pn k).y + ATTR_SCALE * (((links cNums).count k : K) * (y - (points k).y))⟩)
    := by
  intro cNums
  induction cNums with
  | nil => intro fx fy pn; simp [attractLinks, links]
  | cons c rest ih =>
    intro fx fy pn
    by_cases hc : c = sentinel
    · simp [attractLinks, links, hc]
    · simp only [attractLinks, links, if_neg hc, ih, List.map_cons, List.sum_cons]
      refine Prod.ext (by simp only; ring) (Prod.ext (by simp only; ring) ?_)
      funext k
      by_cases hk : k = c
      · subst hk
        simp only [Function.update_same, List.count_cons_self, Nat.cast_add, Nat.cast_one]
        congr 1 <;> ring
      · have hck : (c == k) = false := by simpa using fun h => hk h.symm
        simp only [Function.update_noteq hk, List.count_cons, hck]
        simp

theorem attractionLoop_apply (points : Nat → Point K) (connections : Nat → List Nat)
    (ATTR_SCALE : K) :
    ∀ (l : List Nat) (pn : Nat → Point K) (k : Nat), l.Nodup →
      attractionLoop points connections ATTR_SCALE l pn k =
        ⟨(pn k).x
          + ATTR_SCALE * (l.map (fun i =>
              ((links (connections i)).count k : K) * ((points i).x - (points k).x))).sum
          + (if k ∈ l then ATTR_SCALE *
              ((links (connections k)).map (fun j => (points j).x - (points k).x)).sum else 0),
         (pn k).y
          + ATTR_SCALE * (l.map (fun i =>
              ((links (connections i)).count k : K) * ((points i).y - (points k).y))).sum
          + (if k ∈ l then ATTR_SCALE *
              ((links (connections k)).map (fun j => (points j).y - (points k).y)).sum else 0)⟩
    := by
  intro l
  induction l with
  | nil => intro pn k _; simp [attractionLoop]
  | cons a l ih =>
    intro pn k hnd
    rw [List.nodup_cons] at hnd
    simp only [attractionLoop, attractLinks_eq]
    rw [ih _ _ hnd.2]
    by_cases hka : k = a
    · subst hka
      simp only [Function.update_same, hnd.1, if_false, List.mem_cons, true_or, if_true,
        List.map_cons, List.sum_cons, sub_self, mul_zero, add_zero, zero_add]
      congr 1 <;> ring
    · by_cases hkl : k ∈ l
      · simp only [Function.update_noteq hka, List.mem_cons, hka, hkl, or_true, if_true,
          List.map_cons, List.sum_cons]
        congr 1 <;> ring
      · simp only [Function.update_noteq hka, List.mem_cons, hka, hkl, or_false, if_false,
          List.map_cons, List.sum_cons]
        congr 1 <;> ring

theorem sum_range_single (f : Nat → K) (c : Nat → Nat) (n j : Nat) (hj : j < n)
    (hc : ∀ k < n, c k = if k = j then 1 else 0) :
    ((List.range n).map (fun k => (c k : K) * f k)).sum = f j := by
  induction n with
  | zero => omega
  | succ n ih =>
    rw [List.range_succ, List.map_append, List.sum_append]
    simp only [List.map_cons, List.map_nil, List.sum_cons, List.sum_nil, add_zero]
    by_cases hjn : j = n
    · subst hjn
      have h0 : ((List.range j).map (fun k => (c k : K) * f k)).sum = 0 := by
        apply List.sum_eq_zero
        intro x hx
        rw [List.mem_map] at hx
        obtain ⟨k, hk, rfl⟩ := hx
        rw [List.mem_range] at hk
        rw [hc k (by omega), if_neg (by omega)]
        simp
      rw [h0, hc j (by omega)]
      simp
    · rw [ih (by omega) (fun k hk => hc k (by omega)), hc n (by omega), if_neg (fun h => hjn h.symm)]
      simp

/-- C7, amended. For every state whose connection entries are valid indices and on which the
tree build finishes, `movePoints`, run after the copy of `points` into `pointsNew`, returns,
and leaves in `pointsNew[i]`, in exact arithmetic, the position
`points[i] + REPL_SCALE * R_i + ATTR_SCALE * attractionSum i`, where `R_i` is
`topBox.getRepulsionForce(i, points[i])` and every position is read from `points`.  When `j`
is the only entry of `connections[i]` and `i` occurs only in `connections[j]`, once, the
attraction term is `2 * ATTR_SCALE * (points[j] - points[i])`. -/
theorem movePoints_net_force (hypot : K → K → K) (c0 : CenterOfMass K) (fuel : Nat)
    (s : State K) (built : DiagramBox K)
    (hvalid : ∀ k < s.nPoints, ∀ j ∈ links (s.connections k), j < s.nPoints)
    (hbuilt : init s.points c0 fuel (-10) (-10) 10 10 (List.range s.nPoints) = some built) :
    ∃ s1 : State K,
      movePoints hypot c0 fuel
        { s with pointsNew := fun i => if i < s.nPoints then s.points i else s.pointsNew i }
        = some s1 ∧
      (∀ i < s.nPoints, s1.pointsNew i =
        ⟨(s.points i).x
          + s.REPL_SCALE * (getRepulsionForce hypot s.points s.theta (i : Int) (s.points i)
              (getMass s.points built).2).x
          + s.ATTR_SCALE * (attractionSum s.points s.connections s.nPoints i).x,
         (s.points i).y
          + s.REPL_SCALE * (getRepulsionForce hypot s.points s.theta (i : Int) (s.points i)
              (getMass s.points built).2).y
          + s.ATTR_SCALE * (attractionSum s.points s.connections s.nPoints i).y⟩) ∧
      (∀ i j, i < s.nPoints → j < s.nPoints → links (s.connections i) = [j] →
        (∀ k < s.nPoints, (links (s.connections k)).count i = if k = j then 1 else 0) →
        s1.pointsNew i =
          ⟨(s.points i).x
            + s.REPL_SCALE * (getRepulsionForce hypot s.points s.theta (i : Int) (s.points i)
                (getMass s.points built).2).x
            + 2 * s.ATTR_SCALE * ((s.points j).x - (s.points i).x),
           (s.points i).y
            + s.REPL_SCALE * (getRepulsionForce hypot s.points s.theta (i : Int) (s.points i)
                (getMass s.points built).2).y
            + 2 * s.ATTR_SCALE * ((s.points j).y - (s.points i).y)⟩) := by
  have hmain : ∀ i < s.nPoints,
      attractionLoop s.points s.connections s.ATTR_SCALE (List.range s.nPoints)
        (repulsionLoop hypot s.points s.theta s.REPL_SCALE (getMass s.points built).2
          (List.range s.nPoints)
          (fun i => if i < s.nPoints then s.points i else s.pointsNew i)) i =
        ⟨(s.points i).x
          + s.REPL_SCALE * (getRepulsionForce hypot s.points s.theta (i : Int) (s.points i)
              (getMass s.points built).2).x
          + s.ATTR_SCALE * (attractionSum s.points s.connections s.nPoints i).x,
         (s.points i).y
          + s.REPL_SCALE * (getRepulsionForce hypot s.points s.theta (i : Int) (s.points i)
              (getMass s.points built).2).y
          + s.ATTR_SCALE * (attractionSum s.points s.connections s.nPoints i).y⟩ := by
    intro i hi
    have hmem : i ∈ List.range s.nPoints := List.mem_range.2 hi
    rw [attractionLoop_apply _ _ _ _ _ _ (List.nodup_range _),
      repulsionLoop_apply _ _ _ _ _ _ _ _ (List.nodup_range _)]
    simp only [hmem, if_true, hi, attractionSum]
    congr 1 <;> ring
  have hmov : movePoints hypot c0 fuel
      { s with pointsNew := fun i => if i < s.nPoints then s.points i else s.pointsNew i }
      = some { s with
          pointsNew := attractionLoop s.points s.connections s.ATTR_SCALE (List.range s.nPoints)
            (repulsionLoop hypot s.points s.theta s.REPL_SCALE (getMass s.points built).2
              (List.range s.nPoints)
              (fun i => if i < s.nPoints then s.points i else s.pointsNew i)) } := by
    simp only [movePoints, hbuilt]
  refine ⟨_, hmov, hmain, ?_⟩
  intro i j hi hj hl hc
  show attractionLoop _ _ _ _ _ i = _
  rw [hmain i hi]
  simp only [attractionSum, hl, List.map_cons, List.map_nil, List.sum_cons, List.sum_nil,
    add_zero]
  rw [sum_range_single (fun k => (s.points k).x - (s.points i).x) _ _ j hj hc,
    sum_range_single (fun k => (s.points k).y - (s.points i).y) _ _ j hj hc]
  congr 1 <;> ring

theorem movePoints_net_force_witness :
    ∃ s1 : State ℝ,
      movePoints (fun a b : ℝ => Real.sqrt (a * a + b * b)) ⟨0, 0, 0⟩ 3
        { REPL_SCALE := 1 / 50, ATTR_SCALE := 1 / 25, motionLimit := 1 / 5, theta := 1 / 2,
          nPoints := 2, points := examplePointsR,
          pointsNew := fun i => if i < 2 then examplePointsR i else examplePointsR i,
          connections := fun k => if k = 0 then [1, sentinel] else [0, sentinel] } = some s1 :=
  let ⟨s1, h, _⟩ := movePoints_net_force (fun a b : ℝ => Real.sqrt (a * a + b * b)) ⟨0, 0, 0⟩ 3
    { REPL_SCALE := 1 / 50, ATTR_SCALE := 1 / 25, motionLimit := 1 / 5, theta := 1 / 2,
      nPoints := 2, points := examplePointsR, pointsNew := examplePointsR,
      connections := fun k => if k = 0 then [1, sentinel] else [0, sentinel] }
    exampleTreeR
    (by
      intro k hk j hj
      have hk1 : k < 2 := hk
      have hk2 : k = 0 ∨ k = 1 := by omega
      show j < 2
      rcases hk2 with rfl | rfl <;> simp [links, sentinel] at hj <;> omega)
    exampleTreeR_built
  ⟨s1, h⟩

/-- C7, counterexample. Two nodes at the same position `(1, 1)`, both connection lists
empty, so that every connection entry is a valid index: whatever `hypot`, the amount of fuel
and the content of `pointsNew`, `movePoints` returns no state, because the tree build over
the two coincident points does not finish; no tentative position is left in `pointsNew`. -/
theorem movePoints_coincident_points_diverge :
    (∀ k < coincidentState.nPoints, ∀ j ∈ links (coincidentState.connections k),
      j < coincidentState.nPoints) ∧
    ¬ ∃ (hypot : ℚ → ℚ → ℚ) (fuel : Nat) (pointsNew : Nat → Point ℚ) (s1 : State ℚ),
      movePoints hypot ⟨0, 0, 0⟩ fuel { coincidentState with pointsNew := pointsNew }
        = some s1 := by
  constructor
  · intro k _ j hj
    simp [coincidentState, links] at hj
  · rintro ⟨hypot, fuel, pointsNew, s1, h⟩
    have hnone : init (fun _ => (⟨1, 1⟩ : Point ℚ)) ⟨0, 0, 0⟩ fuel (-10) (-10) 10 10
        (List.range 2) = none :=
      init_coincident_none _ _ fuel _ _ _ _ _ (by simp)
    simp only [movePoints, coincidentState, hnone] at h
    exact absurd h (by simp)

/-! ## The clamping loop of `iterate` -/

theorem clampPoint_self (hypot : K → K → K) (motionLimit : K) (points : Nat → Point K)
    (i : Nat) (pn : Nat → Point K) :
    clampPoint hypot motionLimit points i pn i
      = clampedPosition hypot motionLimit (points i) (pn i) := by
  simp only [clampPoint, clampedPosition]
  split_ifs with h1 h2 h2
  · simp
  · simp
  · simp
  · simp only [motionCap] at *
    rw [if_neg h2]

theorem clampPoint_other (hypot : K → K → K) (motionLimit : K) (points : Nat → Point K)
    (i : Nat) (pn : Nat → Point K) (k : Nat) (hk : k ≠ i) :
    clampPoint hypot motionLimit points i pn k = pn k := by
  simp only [clampPoint]
  split_ifs <;> simp [Function.update_noteq hk]

theorem clampLoop_apply (hypot : K → K → K) (motionLimit : K) (points : Nat → Point K) :
    ∀ (l : List Nat) (pn : Nat → Point K) (k : Nat), l.Nodup →
      clampLoop hypot motionLimit points l pn k =
        if k ∈ l then clampedPosition hypot motionLimit (points k) (pn k) else pn k := by
  intro l
  induction l with
  | nil => intro pn k _; simp [clampLoop]
  | cons a l ih =>
    intro pn k hnd
    rw [List.nodup_cons] at hnd
    simp only [clampLoop]
    rw [ih _ _ hnd.2]
    by_cases hka : k = a
    · subst hka
      simp [hnd.1, clampPoint_self]
    · rw [clampPoint_other _ _ _ _ _ _ hka]
      simp [hka]

theorem hypot_eq_of_sq (hypot : K → K → K) (hh : IsHypot hypot) (a b r : K) (hr : 0 ≤ r)
    (h : a * a + b * b = r * r) : hypot a b = r := by
  obtain ⟨h1, h2⟩ := hh a b
  exact (mul_self_inj h1 hr).1 (by rw [h2, h])

theorem hypot_le_of_sq (hypot : K → K → K) (hh : IsHypot hypot) (a b r : K) (hr : 0 ≤ r)
    (h : a * a + b * b ≤ r * r) : hypot a b ≤ r := by
  obtain ⟨h1, h2⟩ := hh a b
  exact (mul_self_le_mul_self_iff h1 hr).2 (by rw [h2]; exact h)

theorem hypot_radial (hypot : K → K → K) (hh : IsHypot hypot) (cx cy : K)
    (hl : 10 < hypot cx cy) :
    hypot (cx / hypot cx cy * 10) (cy / hypot cx cy * 10) = 10 := by
  obtain ⟨h1, h2⟩ := hh cx cy
  have hne : hypot cx cy ≠ 0 := by linarith
  apply hypot_eq_of_sq hypot hh _ _ 10 (by norm_num)
  have e : cx / hypot cx cy * 10 * (cx / hypot cx cy * 10)
        + cy / hypot cx cy * 10 * (cy / hypot cx cy * 10)
      = (cx * cx + cy * cy) / (hypot cx cy * hypot cx cy) * (10 * 10) := by
    field_simp
    ring
  rw [e, ← h2, div_self (mul_ne_zero hne hne), one_mul]

theorem clampedPosition_cases (hypot : K → K → K) (hh : IsHypot hypot) (motionLimit : K)
    (old tentative : Point K) :
    hypot (clampedPosition hypot motionLimit old tentative).x
      (clampedPosition hypot motionLimit old tentative).y ≤ 10 ∧
    (10 < hypot (motionCap hypot motionLimit old tentative).x
        (motionCap hypot motionLimit old tentative).y →
      clampedPosition hypot motionLimit old tentative =
        ⟨(motionCap hypot motionLimit old tentative).x
            / hypot (motionCap hypot motionLimit old tentative).x
                (motionCap hypot motionLimit old tentative).y * 10,
         (motionCap hypot motionLimit old tentative).y
            / hypot (motionCap hypot motionLimit old tentative).x
                (motionCap hypot motionLimit old tentative).y * 10⟩ ∧
      hypot (clampedPosition hypot motionLimit old tentative).x
        (clampedPosition hypot motionLimit old tentative).y = 10) ∧
    (hypot (motionCap hypot motionLimit old tentative).x
        (motionCap hypot motionLimit old tentative).y ≤ 10 →
      clampedPosition hypot motionLimit old tentative =
        motionCap hypot motionLimit old tentative) := by
  unfold clampedPosition
  by_cases hl : 10 < hypot (motionCap hypot motionLimit old tentative).x
      (motionCap hypot motionLimit old tentative).y
  · rw [if_pos hl]
    have h10 := hypot_radial hypot hh _ _ hl
    exact ⟨le_of_eq h10, fun _ => ⟨rfl, h10⟩, fun h => absurd hl (not_lt.2 h)⟩
  · rw [if_neg hl]
    exact ⟨not_lt.1 hl, fun h => absurd h hl, fun _ => rfl⟩

theorem movePoints_fields (hypot : K → K → K) (c0 : CenterOfMass K) (fuel : Nat)
    (s s1 : State K) (h : movePoints hypot c0 fuel s = some s1) :
    s1.points = s.points ∧ s1.nPoints = s.nPoints ∧ s1.motionLimit = s.motionLimit := by
  unfold movePoints at h
  split at h
  · exact absurd h (by simp)
  · simp only [Option.some.injEq] at h
    subst h
    exact ⟨rfl, rfl, rfl⟩

theorem iterate_points (hypot : K → K → K) (c0 : CenterOfMass K) (fuel : Nat)
    (s s1 : State K) (h : iterate hypot c0 fuel s = some s1) :
    ∃ tentative : Nat → Point K,
      s1.points = clampLoop hypot s.motionLimit s.points (List.range s.nPoints) tentative := by
  unfold iterate at h
  split at h
  · exact absurd h (by simp)
  · rename_i s2 hs2
    obtain ⟨h1, h2, h3⟩ := movePoints_fields hypot c0 fuel _ _ hs2
    simp only [Option.some.injEq] at h
    subst h
    exact ⟨s2.pointsNew, by rw [h1, h2, h3]⟩

/-- C9. After the clamping loop of `iterate` the new position of every point `i < nPoints`
has distance at most `10` from the origin, whatever the prior and the tentative position;
when the motion-capped position has distance `l > 10` from the origin the stored position is
that position scaled by `10 / l`, at distance exactly `10`, and otherwise the motion-capped
position is stored unchanged.  Hence every point of a state which `iterate` returns is
within distance `10` of the origin. -/
theorem domain_containment (hypot : K → K → K) (hh : IsHypot hypot) (motionLimit : K)
    (points pointsNew : Nat → Point K) (nPoints i : Nat) (hi : i < nPoints) :
    hypot (clampLoop hypot motionLimit points (List.range nPoints) pointsNew i).x
      (clampLoop hypot motionLimit points (List.range nPoints) pointsNew i).y ≤ 10 ∧
    (10 < hypot (motionCap hypot motionLimit (points i) (pointsNew i)).x
        (motionCap hypot motionLimit (points i) (pointsNew i)).y →
      clampLoop hypot motionLimit points (List.range nPoints) pointsNew i =
        ⟨(motionCap hypot motionLimit (points i) (pointsNew i)).x
            / hypot (motionCap hypot motionLimit (points i) (pointsNew i)).x
                (motionCap hypot motionLimit (points i) (pointsNew i)).y * 10,
         (motionCap hypot motionLimit (points i) (pointsNew i)).y
            / hypot (motionCap hypot motionLimit (points i) (pointsNew i)).x
                (motionCap hypot motionLimit (points i) (pointsNew i)).y * 10⟩ ∧
      hypot (clampLoop hypot motionLimit points (List.range nPoints) pointsNew i).x
        (clampLoop hypot motionLimit points (List.range nPoints) pointsNew i).y = 10) ∧
    (hypot (motionCap hypot motionLimit (points i) (pointsNew i)).x
        (motionCap hypot motionLimit (points i) (pointsNew i)).y ≤ 10 →
      clampLoop hypot motionLimit points (List.range nPoints) pointsNew i =
        motionCap hypot motionLimit (points i) (pointsNew i)) ∧
    (∀ (c0 : CenterOfMass K) (fuel : Nat) (s s1 : State K),
      iterate hypot c0 fuel s = some s1 →
      ∀ j < s.nPoints, hypot (s1.points j).x (s1.points j).y ≤ 10) := by
  have hmem : i ∈ List.range nPoints := List.mem_range.2 hi
  rw [clampLoop_apply _ _ _ _ _ _ (List.nodup_range _), if_pos hmem]
  obtain ⟨h1, h2, h3⟩ := clampedPosition_cases hypot hh motionLimit (points i) (pointsNew i)
  refine ⟨h1, h2, h3, ?_⟩
  intro c0 fuel s s1 hs j hj
  obtain ⟨tentative, ht⟩ := iterate_points hypot c0 fuel s s1 hs
  rw [ht, clampLoop_apply _ _ _ _ _ _ (List.nodup_range _), if_pos (List.mem_range.2 hj)]
  exact (clampedPosition_cases hypot hh _ _ _).1

theorem motionCap_dist (hypot : K → K → K) (hh : IsHypot hypot) (motionLimit : K)
    (old tentative : Point K) (hm : 0 < motionLimit) :
    ((motionCap hypot motionLimit old tentative).x - old.x)
        * ((motionCap hypot motionLimit old tentative).x - old.x)
      + ((motionCap hypot motionLimit old tentative).y - old.y)
        * ((motionCap hypot motionLimit old tentative).y - old.y)
      ≤ motionLimit * motionLimit := by
  obtain ⟨h1, h2⟩ := hh (tentative.x - old.x) (tentative.y - old.y)
  simp only [motionCap]
  split_ifs with hd
  · have hne : hypot (tentative.x - old.x) (tentative.y - old.y) ≠ 0 := by
      have : 0 < hypot (tentative.x - old.x) (tentative.y - old.y) := lt_trans hm hd
      exact ne_of_gt this
    have e : (old.x + (tentative.x - old.x) / hypot (tentative.x - old.x) (tentative.y - old.y)
            * motionLimit - old.x)
          * (old.x + (tentative.x - old.x) / hypot (tentative.x - old.x) (tentative.y - old.y)
            * motionLimit - old.x)
        + (old.y + (tentative.y - old.y) / hypot (tentative.x - old.x) (tentative.y - old.y)
            * motionLimit - old.y)
          * (old.y + (tentative.y - old.y) / hypot (tentative.x - old.x) (tentative.y - old.y)
            * motionLimit - old.y)
        = ((tentative.x - old.x) * (tentative.x - old.x)
            + (tentative.y - old.y) * (tentative.y - old.y))
          / (hypot (tentative.x - old.x) (tentative.y - old.y)
            * hypot (tentative.x - old.x) (tentative.y - old.y))
          * (motionLimit * motionLimit) := by
      field_simp
      ring
    rw [e, ← h2, div_self (mul_ne_zero hne hne), one_mul]
  · simp only
    rw [← h2]
    exact mul_self_le_mul_self h1 (not_lt.1 hd)

theorem radial_clamp_closer (ox oy cx cy l : K) (ho : ox * ox + oy * oy ≤ 10 * 10)
    (hl2 : l * l = cx * cx + cy * cy) (hl : 10 < l) :
    (cx / l * 10 - ox) * (cx / l * 10 - ox) + (cy / l * 10 - oy) * (cy / l * 10 - oy)
      ≤ (cx - ox) * (cx - ox) + (cy - oy) * (cy - oy) := by
  have hl0 : 0 < l := by linarith
  have hne : l ≠ 0 := ne_of_gt hl0
  -- Cauchy–Schwarz: the inner product of `c` and `o` is at most `10 * l`
  have hcs : cx * ox + cy * oy ≤ 10 * l := by
    have h1 : (cx * ox + cy * oy) * (cx * ox + cy * oy) ≤ (10 * l) * (10 * l) := by
      have : (cx * ox + cy * oy) * (cx * ox + cy * oy)
          ≤ (cx * cx + cy * cy) * (ox * ox + oy * oy) := by
        nlinarith [mul_self_nonneg (cx * oy - cy * ox)]
      calc (cx * ox + cy * oy) * (cx * ox + cy * oy)
          ≤ (cx * cx + cy * cy) * (ox * ox + oy * oy) := this
        _ ≤ (l * l) * (10 * 10) := by
            rw [← hl2]
            exact mul_le_mul_of_nonneg_left ho (mul_self_nonneg l)
        _ = (10 * l) * (10 * l) := by ring
    have h2 : 0 ≤ 10 * l := by linarith
    by_contra hn
    have := mul_self_lt_mul_self h2 (not_le.1 hn)
    linarith
  have key : (cx - ox) * (cx - ox) + (cy - oy) * (cy - oy)
      - ((cx / l * 10 - ox) * (cx / l * 10 - ox) + (cy / l * 10 - oy) * (cy / l * 10 - oy))
      = (1 - 10 / l) * ((1 + 10 / l) * (cx * cx + cy * cy) - 2 * (cx * ox + cy * oy)) := by
    field_simp
    ring
  have ha : 0 ≤ 1 - 10 / l := by
    rw [sub_nonneg, div_le_one hl0]; exact le_of_lt hl
  have hb : 0 ≤ (1 + 10 / l) * (cx * cx + cy * cy) - 2 * (cx * ox + cy * oy) := by
    have e : (1 + 10 / l) * (cx * cx + cy * cy) = l * l + 10 * l := by
      rw [← hl2]; field_simp; ring
    rw [e]
    nlinarith
  have := mul_nonneg ha hb
  linarith

theorem clampedPosition_dist (hypot : K → K → K) (hh : IsHypot hypot) (motionLimit : K)
    (old tentative : Point K) (hm : 0 < motionLimit) (hprior : hypot old.x old.y ≤ 10) :
    hypot ((clampedPosition hypot motionLimit old tentative).x - old.x)
      ((clampedPosition hypot motionLimit old tentative).y - old.y) ≤ motionLimit := by
  apply hypot_le_of_sq hypot hh _ _ _ (le_of_lt hm)
  have hcap := motionCap_dist hypot hh motionLimit old tentative hm
  unfold clampedPosition
  split_ifs with hl
  · obtain ⟨o1, o2⟩ := hh old.x old.y
    have ho : old.x * old.x + old.y * old.y ≤ 10 * 10 := by
      rw [← o2]
      exact mul_self_le_mul_self o1 hprior
    exact le_trans (radial_clamp_closer _ _ _ _ _ ho (hh _ _).2 hl) hcap
  · exact hcap

/-- C8, amended. In exact arithmetic: for every point whose prior position is within
distance `10` of the origin, every tentative position and every `motionLimit > 0`, after the
clamping loop of `iterate` the distance between the new position and the prior position is
at most `motionLimit`.  Hence in a state which `iterate` returns every point which was
within distance `10` of the origin has moved by at most `motionLimit`. -/
theorem bounded_motion (hypot : K → K → K) (hh : IsHypot hypot) (motionLimit : K)
    (points pointsNew : Nat → Point K) (nPoints i : Nat) (hi : i < nPoints)
    (hm : 0 < motionLimit) (hprior : hypot (points i).x (points i).y ≤ 10) :
    hypot
      ((clampLoop hypot motionLimit points (List.range nPoints) pointsNew i).x - (points i).x)
      ((clampLoop hypot motionLimit points (List.range nPoints) pointsNew i).y - (points i).y)
      ≤ motionLimit ∧
    (∀ (c0 : CenterOfMass K) (fuel : Nat) (s s1 : State K),
      iterate hypot c0 fuel s = some s1 → 0 < s.motionLimit →
      ∀ j < s.nPoints, hypot (s.points j).x (s.points j).y ≤ 10 →
        hypot ((s1.points j).x - (s.points j).x) ((s1.points j).y - (s.points j).y)
          ≤ s.motionLimit) := by
  have hmem : i ∈ List.range nPoints := List.mem_range.2 hi
  rw [clampLoop_apply _ _ _ _ _ _ (List.nodup_range _), if_pos hmem]
  refine ⟨clampedPosition_dist hypot hh motionLimit _ _ hm hprior, ?_⟩
  intro c0 fuel s s1 hs hpos j hj hp
  obtain ⟨tentative, ht⟩ := iterate_points hypot c0 fuel s s1 hs
  rw [ht, clampLoop_apply _ _ _ _ _ _ (List.nodup_range _), if_pos (List.mem_range.2 hj)]
  exact clampedPosition_dist hypot hh _ _ _ hpos hp

theorem sqrt_sq_example (r : ℝ) (hr : 0 ≤ r) : Real.sqrt (r * r + 0 * 0) = r := by
  rw [mul_zero, add_zero]
  exact Real.sqrt_mul_self hr

/-- C8, counterexample. Prior and tentative position `(20, 0)`, `motionLimit = 1 / 5`: the
motion cap does not bind, the clamp to the circle of radius `10` stores `(10, 0)`, at
distance `10` from the prior position. -/
theorem bounded_motion_fails_outside_disc :
    (1 / 5 : ℝ) <
      (fun a b : ℝ => Real.sqrt (a * a + b * b))
        ((clampLoop (fun a b : ℝ => Real.sqrt (a * a + b * b)) (1 / 5) (fun _ => ⟨20, 0⟩)
          (List.range 1) (fun _ => ⟨20, 0⟩) 0).x - 20)
        ((clampLoop (fun a b : ℝ => Real.sqrt (a * a + b * b)) (1 / 5) (fun _ => ⟨20, 0⟩)
          (List.range 1) (fun _ => ⟨20, 0⟩) 0).y - 0) := by
  have h0 : Real.sqrt ((20 - 20) * (20 - 20) + (0 - 0) * (0 - 0)) = (0 : ℝ) := by
    rw [show ((20 : ℝ) - 20) * (20 - 20) + (0 - 0) * (0 - 0) = 0 by norm_num]
    exact Real.sqrt_zero
  have h20 : Real.sqrt 400 = (20 : ℝ) := by
    rw [show (400 : ℝ) = 20 * 20 by norm_num]
    exact Real.sqrt_mul_self (by norm_num)
  have hres : clampLoop (fun a b : ℝ => Real.sqrt (a * a + b * b)) (1 / 5) (fun _ => ⟨20, 0⟩)
      (List.range 1) (fun _ => ⟨20, 0⟩) 0 = ⟨10, 0⟩ := by
    rw [show List.range 1 = [0] from rfl]
    simp only [clampLoop, clampPoint, motionCap, h0]
    norm_num [h20]
  rw [hres]
  have h10 : Real.sqrt ((10 - 20) * (10 - 20) + (0 - 0) * (0 - 0)) = (10 : ℝ) := by
    rw [show ((10 : ℝ) - 20) * (10 - 20) + (0 - 0) * (0 - 0) = 10 * 10 + 0 * 0 by norm_num]
    exact sqrt_sq_example 10 (by norm_num)
  show (1 / 5 : ℝ) < Real.sqrt ((10 - 20) * (10 - 20) + (0 - 0) * (0 - 0))
  rw [h10]
  norm_num

theorem bounded_motion_witness :
    (fun a b : ℝ => Real.sqrt (a * a + b * b))
      ((clampLoop (fun a b : ℝ => Real.sqrt (a * a + b * b)) (1 / 5) (fun _ => ⟨0, 0⟩)
        (List.range 1) (fun _ => ⟨3, 4⟩) 0).x - 0)
      ((clampLoop (fun a b : ℝ => Real.sqrt (a * a + b * b)) (1 / 5) (fun _ => ⟨0, 0⟩)
        (List.range 1) (fun _ => ⟨3, 4⟩) 0).y - 0) ≤ 1 / 5 :=
  (bounded_motion (fun a b : ℝ => Real.sqrt (a * a + b * b)) isHypot_sqrt (1 / 5)
    (fun _ => ⟨0, 0⟩) (fun _ => ⟨3, 4⟩) 1 0 (by norm_num) (by norm_num) (by simp)).1

theorem domain_containment_witness :
    (fun a b : ℝ => Real.sqrt (a * a + b * b))
      (clampLoop (fun a b : ℝ => Real.sqrt (a * a + b * b)) (1 / 5) (fun _ => ⟨20, 0⟩)
        (List.range 1) (fun _ => ⟨20, 0⟩) 0).x
      (clampLoop (fun a b : ℝ => Real.sqrt (a * a + b * b)) (1 / 5) (fun _ => ⟨20, 0⟩)
        (List.range 1) (fun _ => ⟨20, 0⟩) 0).y ≤ 10 :=
  (domain_containment (fun a b : ℝ => Real.sqrt (a * a + b * b)) isHypot_sqrt (1 / 5)
    (fun _ => ⟨20, 0⟩) (fun _ => ⟨20, 0⟩) 1 0 (by norm_num)).1

/-! ## The rounding of binary64 -/

theorem roundHalfEven_error (q : ℚ) : |(roundHalfEven q : ℚ) - q| ≤ 1 / 2 := by
  have h1 := Int.floor_le q
  have h2 := Int.lt_floor_add_one q
  unfold roundHalfEven
  rw [abs_le]
  split_ifs with a b c
  · constructor <;> linarith
  · push_cast; constructor <;> linarith
  · constructor <;> linarith
  · push_cast; constructor <;> linarith

theorem int_log_two_eq (r : ℚ) (e : Int) (h1 : (2 : ℚ) ^ e ≤ r) (h2 : r < 2 ^ (e + 1)) :
    Int.log 2 r = e := by
  have hr : 0 < r := lt_of_lt_of_le (by positivity) h1
  have a : e ≤ Int.log 2 r := (Int.zpow_le_iff_le_log (by norm_num) hr).mp (by exact_mod_cast h1)
  have b : Int.log 2 r < e + 1 :=
    (Int.lt_zpow_iff_log_lt (by norm_num) hr).mp (by exact_mod_cast h2)
  omega

theorem searchExp_spec : ∀ (fuel : Nat) (r : ℚ) (e : Int) (p : ℚ) (e1 : Int) (p1 : ℚ),
    p = 2 ^ e → searchExp fuel r e p = some (e1, p1) →
      p1 = 2 ^ e1 ∧ (2 : ℚ) ^ e1 ≤ r ∧ r < 2 ^ (e1 + 1) := by
  intro fuel
  induction fuel with
  | zero => intro r e p e1 p1 _ h; simp [searchExp] at h
  | succ fuel ih =>
    intro r e p e1 p1 hp h
    rw [searchExp] at h
    split_ifs at h with h1 h2
    · exact ih r (e - 1) (p / 2) e1 p1 (by rw [hp, zpow_sub_one₀ (by norm_num)]; ring) h
    · exact ih r (e + 1) (2 * p) e1 p1 (by rw [hp, zpow_add_one₀ (by norm_num)]; ring) h
    · simp only [Option.some.injEq, Prod.mk.injEq] at h
      obtain ⟨rfl, rfl⟩ := h
      refine ⟨hp, by rw [← hp]; exact not_lt.mp h1, ?_⟩
      rw [zpow_add_one₀ (by norm_num), ← hp]
      linarith [not_le.mp h2]

theorem round64_zero : round64 0 = 0 := by
  simp [round64, roundHalfEven]

theorem round64Fast_eq (q : ℚ) : round64Fast q = round64 q := by
  unfold round64Fast
  by_cases hq : q = 0
  · rw [if_pos hq, hq, round64_zero]
  rw [if_neg hq]
  cases h : searchExp 1200 |q| 0 1 with
  | none => rfl
  | some r =>
    obtain ⟨e, p⟩ := r
    obtain ⟨hp, h1, h2⟩ := searchExp_spec 1200 |q| 0 1 e p (by norm_num) h
    have hlog := int_log_two_eq |q| e h1 h2
    simp only
    unfold round64
    rw [hlog]
    by_cases he : -1022 ≤ e
    · rw [if_pos he, max_eq_left he, hp, zpow_sub₀ (by norm_num)]
      norm_num
    · rw [if_neg he, max_eq_right (by omega)]
      norm_num

theorem round64_funext : round64 = round64Fast := by
  funext q; exact (round64Fast_eq q).symm

theorem round64_error (x : ℚ) (E : Int) (hE : -1022 ≤ E) (hx : |x| < 2 ^ (E + 1)) :
    |round64 x - x| ≤ 2 ^ (E - 53) := by
  by_cases h0 : x = 0
  · rw [h0, round64_zero]
    simp only [sub_zero, abs_zero]
    positivity
  have hlog : Int.log 2 |x| < E + 1 :=
    (Int.lt_zpow_iff_log_lt (by norm_num) (abs_pos.2 h0)).mp (by exact_mod_cast hx)
  have he : max (Int.log 2 |x|) (-1022) ≤ E := max_le (by omega) hE
  unfold round64
  generalize max (Int.log 2 |x|) (-1022) = e at he
  have hu : (0 : ℚ) < 2 ^ (e - 52) := by positivity
  have hr := roundHalfEven_error (x / 2 ^ (e - 52))
  have e1 : (roundHalfEven (x / 2 ^ (e - 52)) : ℚ) * 2 ^ (e - 52) - x
      = ((roundHalfEven (x / 2 ^ (e - 52)) : ℚ) - x / 2 ^ (e - 52)) * 2 ^ (e - 52) := by
    field_simp
  rw [e1, abs_mul, abs_of_pos hu]
  have hle : (2 : ℚ) ^ (e - 52) ≤ 2 ^ (E - 52) := zpow_le_zpow_right₀ (by norm_num) (by omega)
  have e2 : (2 : ℚ) ^ (E - 53) = 1 / 2 * 2 ^ (E - 52) := by
    rw [show E - 53 = E - 52 - 1 by ring, zpow_sub_one₀ (by norm_num)]
    ring
  rw [e2]
  calc |(roundHalfEven (x / 2 ^ (e - 52)) : ℚ) - x / 2 ^ (e - 52)| * 2 ^ (e - 52)
      ≤ 1 / 2 * 2 ^ (e - 52) := mul_le_mul_of_nonneg_right hr hu.le
    _ ≤ 1 / 2 * 2 ^ (E - 52) := by linarith

theorem roundHalfEven_floor_le (q : ℚ) : ⌊q⌋ ≤ roundHalfEven q := by
  unfold roundHalfEven
  split_ifs <;> omega

theorem roundHalfEven_le_floor_add_one (q : ℚ) : roundHalfEven q ≤ ⌊q⌋ + 1 := by
  unfold roundHalfEven
  split_ifs <;> omega

theorem roundHalfEven_intCast (n : Int) : roundHalfEven (n : ℚ) = n := by
  unfold roundHalfEven
  rw [Int.floor_intCast, if_pos (by norm_num)]

theorem roundHalfEven_mono (q1 q2 : ℚ) (h : q1 ≤ q2) : roundHalfEven q1 ≤ roundHalfEven q2 := by
  have hf : ⌊q1⌋ ≤ ⌊q2⌋ := Int.floor_mono h
  rcases lt_or_eq_of_le hf with hlt | heq
  · have a := roundHalfEven_le_floor_add_one q1
    have b := roundHalfEven_floor_le q2
    omega
  · unfold roundHalfEven
    rw [← heq]
    split_ifs with a1 a2 a3 a4 a5 a6 a7 a8 <;>
      first
        | omega
        | (exfalso; linarith)

theorem roundHalfEven_le_of_le_intCast (q : ℚ) (n : Int) (h : q ≤ n) : roundHalfEven q ≤ n := by
  have := roundHalfEven_mono q n h
  rwa [roundHalfEven_intCast] at this

theorem roundHalfEven_ge_of_intCast_le (q : ℚ) (n : Int) (h : (n : ℚ) ≤ q) :
    n ≤ roundHalfEven q := by
  have := roundHalfEven_mono n q h
  rwa [roundHalfEven_intCast] at this

theorem round64_nonneg (x : ℚ) (h : 0 ≤ x) : 0 ≤ round64 x := by
  unfold round64
  apply mul_nonneg _ (by positivity)
  have : (0 : Int) ≤ roundHalfEven (x / 2 ^ (max (Int.log 2 |x|) (-1022) - 52)) :=
    roundHalfEven_ge_of_intCast_le _ 0 (by push_cast; positivity)
  exact_mod_cast this

theorem round64_nonpos (x : ℚ) (h : x ≤ 0) : round64 x ≤ 0 := by
  unfold round64
  apply mul_nonpos_of_nonpos_of_nonneg _ (by positivity)
  have : roundHalfEven (x / 2 ^ (max (Int.log 2 |x|) (-1022) - 52)) ≤ (0 : Int) :=
    roundHalfEven_le_of_le_intCast _ 0
      (by push_cast; exact div_nonpos_of_nonpos_of_nonneg h (by positivity))
  exact_mod_cast this

theorem round64_le_pow (x : ℚ) (hx : 0 < x) :
    round64 x ≤ 2 ^ (max (Int.log 2 |x|) (-1022) + 1) := by
  have hlt : x < 2 ^ (Int.log 2 x + 1) := by
    have := Int.lt_zpow_succ_log_self (b := 2) (by norm_num) x
    exact_mod_cast this
  unfold round64
  rw [abs_of_pos hx]
  generalize he : max (Int.log 2 x) (-1022) = e
  have hle : Int.log 2 x ≤ e := by rw [← he]; exact le_max_left _ _
  have hu : (0 : ℚ) < 2 ^ (e - 52) := by positivity
  have hx2 : x ≤ 2 ^ (e + 1) :=
    le_trans hlt.le (zpow_le_zpow_right₀ (by norm_num) (by omega))
  have hq : x / 2 ^ (e - 52) ≤ ((2 ^ 53 : Int) : ℚ) := by
    rw [div_le_iff₀ hu]
    have e1 : (((2 : Int) ^ 53 : Int) : ℚ) * 2 ^ (e - 52) = 2 ^ (e + 1) := by
      push_cast
      rw [show e + 1 = 53 + (e - 52) by ring, zpow_add₀ (by norm_num)]
      norm_num
    rw [e1]
    exact hx2
  have hr := roundHalfEven_le_of_le_intCast _ _ hq
  have hr2 : (roundHalfEven (x / 2 ^ (e - 52)) : ℚ) ≤ ((2 ^ 53 : Int) : ℚ) := by exact_mod_cast hr
  calc (roundHalfEven (x / 2 ^ (e - 52)) : ℚ) * 2 ^ (e - 52)
      ≤ ((2 ^ 53 : Int) : ℚ) * 2 ^ (e - 52) := mul_le_mul_of_nonneg_right hr2 hu.le
    _ = 2 ^ (e + 1) := by
      push_cast
      rw [show e + 1 = 53 + (e - 52) by ring, zpow_add₀ (by norm_num)]
      norm_num

theorem pow_le_round64 (x : ℚ) (hx : 0 < x) (hlog : -1022 ≤ Int.log 2 x) :
    (2 : ℚ) ^ (Int.log 2 x) ≤ round64 x := by
  have hge : (2 : ℚ) ^ (Int.log 2 x) ≤ x := by
    have := Int.zpow_log_le_self (b := 2) (by norm_num) hx
    exact_mod_cast this
  unfold round64
  rw [abs_of_pos hx, max_eq_left hlog]
  generalize Int.log 2 x = e at hge
  have hu : (0 : ℚ) < 2 ^ (e - 52) := by positivity
  have e1 : (((2 : Int) ^ 52 : Int) : ℚ) * 2 ^ (e - 52) = 2 ^ e := by
    push_cast
    rw [show e = 52 + (e - 52) by ring, zpow_add₀ (by norm_num)]
    norm_num
  have hq : ((2 ^ 52 : Int) : ℚ) ≤ x / 2 ^ (e - 52) := by
    rw [le_div_iff₀ hu, e1]
    exact hge
  have hr := roundHalfEven_ge_of_intCast_le _ _ hq
  have hr2 : ((2 ^ 52 : Int) : ℚ) ≤ (roundHalfEven (x / 2 ^ (e - 52)) : ℚ) := by exact_mod_cast hr
  calc (2 : ℚ) ^ e = ((2 ^ 52 : Int) : ℚ) * 2 ^ (e - 52) := e1.symm
    _ ≤ (roundHalfEven (x / 2 ^ (e - 52)) : ℚ) * 2 ^ (e - 52) :=
      mul_le_mul_of_nonneg_right hr2 hu.le

theorem round64_mono_of_nonneg (x y : ℚ) (hx : 0 ≤ x) (h : x ≤ y) : round64 x ≤ round64 y := by
  rcases eq_or_lt_of_le hx with h0 | hpos
  · rw [← h0, round64_zero]
    exact round64_nonneg y (le_trans hx h)
  have hy : 0 < y := lt_of_lt_of_le hpos h
  have hlog : Int.log 2 x ≤ Int.log 2 y := Int.log_mono_right hpos h
  rcases lt_or_eq_of_le (max_le_max hlog (le_refl (-1022 : Int))) with hlt | heq
  · have hy2 : -1022 ≤ Int.log 2 y := by
      by_contra hn
      rw [max_eq_right (by omega : Int.log 2 y ≤ -1022)] at hlt
      exact absurd hlt (not_lt.2 (le_max_right _ _))
    have a := round64_le_pow x hpos
    have b := pow_le_round64 y hy hy2
    rw [abs_of_pos hpos] at a
    rw [max_eq_left hy2] at hlt
    exact le_trans a (le_trans (zpow_le_zpow_right₀ (by norm_num) (by omega)) b)
  · unfold round64
    rw [abs_of_pos hpos, abs_of_pos hy, ← heq]
    generalize max (Int.log 2 x) (-1022) = e
    have hu : (0 : ℚ) < 2 ^ (e - 52) := by positivity
    have hq : x / 2 ^ (e - 52) ≤ y / 2 ^ (e - 52) := div_le_div_of_nonneg_right h hu.le
    have hr := roundHalfEven_mono _ _ hq
    have hr2 : (roundHalfEven (x / 2 ^ (e - 52)) : ℚ) ≤ (roundHalfEven (y / 2 ^ (e - 52)) : ℚ) := by
      exact_mod_cast hr
    exact mul_le_mul_of_nonneg_right hr2 hu.le

theorem roundHalfEven_neg (q : ℚ) : roundHalfEven (-q) = -roundHalfEven q := by
  have h1 := Int.floor_le q
  have h2 := Int.lt_floor_add_one q
  rcases eq_or_lt_of_le h1 with heq | hlt
  · rw [← heq, ← Int.cast_neg, roundHalfEven_intCast, roundHalfEven_intCast]
  · have hf : ⌊-q⌋ = -⌊q⌋ - 1 :=
      Int.floor_eq_iff.2 ⟨by push_cast; linarith, by push_cast; linarith⟩
    unfold roundHalfEven
    rw [hf]
    push_cast
    split_ifs <;> first | omega | (exfalso; linarith)

theorem round64_neg (x : ℚ) : round64 (-x) = -round64 x := by
  unfold round64
  rw [abs_neg, neg_div, roundHalfEven_neg]
  push_cast
  ring

theorem round64_mono (x y : ℚ) (h : x ≤ y) : round64 x ≤ round64 y := by
  rcases le_or_lt 0 x with hx | hx
  · exact round64_mono_of_nonneg x y hx h
  · rcases le_or_lt y 0 with hy | hy
    · have := round64_mono_of_nonneg (-y) (-x) (by linarith) (by linarith)
      rw [round64_neg, round64_neg] at this
      linarith
    · exact le_trans (round64_nonpos x hx.le) (round64_nonneg y hy.le)

theorem round64_of_intCast_mul (m : Int) (k : Int) (hm : |m| < 2 ^ 53) (hk : -1074 ≤ k) :
    round64 ((m : ℚ) * 2 ^ k) = (m : ℚ) * 2 ^ k := by
  by_cases h0 : m = 0
  · rw [h0]; simp [round64_zero]
  have hq0 : (m : ℚ) * 2 ^ k ≠ 0 := mul_ne_zero (by exact_mod_cast h0) (by positivity)
  have habs : |(m : ℚ) * 2 ^ k| < 2 ^ (53 + k) := by
    rw [abs_mul, abs_of_pos (by positivity : (0 : ℚ) < 2 ^ k), zpow_add₀ (by norm_num)]
    apply mul_lt_mul_of_pos_right _ (by positivity)
    have : ((|m| : Int) : ℚ) < ((2 ^ 53 : Int) : ℚ) := by exact_mod_cast hm
    rw [Int.cast_abs] at this
    have h53 : ((2 ^ 53 : Int) : ℚ) = (2 : ℚ) ^ (53 : Int) := by norm_num
    rw [h53] at this
    exact this
  have hlog : Int.log 2 |(m : ℚ) * 2 ^ k| < 53 + k :=
    (Int.lt_zpow_iff_log_lt (by norm_num) (abs_pos.2 hq0)).mp (by exact_mod_cast habs)
  unfold round64
  generalize he : max (Int.log 2 |(m : ℚ) * 2 ^ k|) (-1022) = e
  have hek : e - 52 ≤ k := by
    rw [← he]
    rcases max_cases (Int.log 2 |(m : ℚ) * 2 ^ k|) (-1022) with ⟨h, -⟩ | ⟨h, -⟩ <;> rw [h] <;> omega
  obtain ⟨j, hj⟩ : ∃ j : Nat, k = e - 52 + j := ⟨(k - (e - 52)).toNat, by omega⟩
  have hdiv : (m : ℚ) * 2 ^ k / 2 ^ (e - 52) = ((m * 2 ^ j : Int) : ℚ) := by
    rw [hj, zpow_add₀ (by norm_num), zpow_natCast]
    push_cast
    field_simp
    ring
  rw [hdiv, roundHalfEven_intCast, hj, zpow_add₀ (by norm_num), zpow_natCast]
  push_cast
  ring

theorem round64_structure (x : ℚ) :
    ∃ (m k : Int), round64 x = (m : ℚ) * 2 ^ k ∧ |m| ≤ 2 ^ 53 ∧ -1074 ≤ k := by
  refine ⟨roundHalfEven (x / 2 ^ (max (Int.log 2 |x|) (-1022) - 52)),
    max (Int.log 2 |x|) (-1022) - 52, rfl, ?_, ?_⟩
  · have hlt : |x| < 2 ^ (Int.log 2 |x| + 1) := by
      have := Int.lt_zpow_succ_log_self (b := 2) (by norm_num) |x|
      exact_mod_cast this
    generalize he : max (Int.log 2 |x|) (-1022) = e
    have hle : Int.log 2 |x| ≤ e := by rw [← he]; exact le_max_left _ _
    have hu : (0 : ℚ) < 2 ^ (e - 52) := by positivity
    have hx2 : |x| ≤ 2 ^ (e + 1) :=
      le_trans hlt.le (zpow_le_zpow_right₀ (by norm_num) (by omega))
    have e1 : (((2 : Int) ^ 53 : Int) : ℚ) * 2 ^ (e - 52) = 2 ^ (e + 1) := by
      push_cast
      rw [show e + 1 = 53 + (e - 52) by ring, zpow_add₀ (by norm_num)]
      norm_num
    rw [abs_le] at hx2 ⊢
    constructor
    · have hq : ((-(2 ^ 53) : Int) : ℚ) ≤ x / 2 ^ (e - 52) := by
        rw [le_div_iff₀ hu]
        push_cast at e1 ⊢
        linarith [hx2.1]
      exact roundHalfEven_ge_of_intCast_le _ _ hq
    · have hq : x / 2 ^ (e - 52) ≤ ((2 ^ 53 : Int) : ℚ) := by
        rw [div_le_iff₀ hu, e1]
        exact hx2.2
      exact roundHalfEven_le_of_le_intCast _ _ hq
  · have := le_max_right (Int.log 2 |x|) (-1022)
    omega

theorem round64_idem (x : ℚ) : round64 (round64 x) = round64 x := by
  obtain ⟨m, k, h, hm, hk⟩ := round64_structure x
  rw [h]
  rcases lt_or_eq_of_le hm with hlt | heq
  · exact round64_of_intCast_mul m k hlt hk
  · rcases abs_eq (by positivity : (0 : Int) ≤ 2 ^ 53) |>.1 heq with h1 | h1
    · have e1 : (m : ℚ) * 2 ^ k = ((1 : Int) : ℚ) * 2 ^ (53 + k) := by
        rw [h1, zpow_add₀ (by norm_num)]; push_cast; norm_num
      rw [e1]
      exact round64_of_intCast_mul 1 (53 + k) (by norm_num) (by omega)
    · have e1 : (m : ℚ) * 2 ^ k = ((-1 : Int) : ℚ) * 2 ^ (53 + k) := by
        rw [h1, zpow_add₀ (by norm_num)]; push_cast; norm_num
      rw [e1]
      exact round64_of_intCast_mul (-1) (53 + k) (by norm_num) (by omega)

theorem double_eq_intCast_mul (q : ℚ) (h : round64 q = q) :
    ∃ n : Int, q = (n : ℚ) * 2 ^ (-1074 : Int) := by
  obtain ⟨m, k, hr, -, hk⟩ := round64_structure q
  obtain ⟨j, hj⟩ : ∃ j : Nat, k = -1074 + j := ⟨(k + 1074).toNat, by omega⟩
  refine ⟨m * 2 ^ j, ?_⟩
  rw [← h, hr, hj, zpow_add₀ (by norm_num), zpow_natCast]
  push_cast
  ring

theorem round64_sub_ne_zero (a b : ℚ) (ha : round64 a = a) (hb : round64 b = b) (h : a ≠ b) :
    round64 (a - b) ≠ 0 := by
  obtain ⟨n, hn⟩ := double_eq_intCast_mul a ha
  obtain ⟨p, hp⟩ := double_eq_intCast_mul b hb
  have hu : (0 : ℚ) < 2 ^ (-1074 : Int) := by positivity
  have hnp : n ≠ p := by
    intro e; apply h; rw [hn, hp, e]
  have hfix : round64 (2 ^ (-1074 : Int)) = 2 ^ (-1074 : Int) := by
    have := round64_of_intCast_mul 1 (-1074) (by norm_num) (by norm_num)
    simpa using this
  have key : ∀ u v : Int, u < v →
      0 < round64 ((v : ℚ) * 2 ^ (-1074 : Int) - (u : ℚ) * 2 ^ (-1074 : Int)) := by
    intro u v huv
    have h1 : (1 : ℚ) ≤ (v : ℚ) - u := by
      have : u + 1 ≤ v := huv
      have : ((u + 1 : Int) : ℚ) ≤ (v : ℚ) := by exact_mod_cast this
      push_cast at this
      linarith
    have h2 : (2 : ℚ) ^ (-1074 : Int)
        ≤ (v : ℚ) * 2 ^ (-1074 : Int) - (u : ℚ) * 2 ^ (-1074 : Int) := by
      have : (v : ℚ) * 2 ^ (-1074 : Int) - (u : ℚ) * 2 ^ (-1074 : Int)
          = ((v : ℚ) - u) * 2 ^ (-1074 : Int) := by ring
      rw [this]
      nlinarith
    have := round64_mono _ _ h2
    rw [hfix] at this
    linarith
  rcases lt_or_gt_of_ne hnp with hlt | hgt
  · have := key n p hlt
    have e : a - b = -((p : ℚ) * 2 ^ (-1074 : Int) - (n : ℚ) * 2 ^ (-1074 : Int)) := by
      rw [hn, hp]; ring
    rw [e, round64_neg]
    linarith
  · have := key p n hgt
    rw [hn, hp]
    linarith

theorem round64_two_mul (x : ℚ) (h : round64 x = x) : round64 (2 * x) = 2 * x := by
  obtain ⟨m, k, hr, hm, hk⟩ := round64_structure x
  rw [h] at hr
  rcases lt_or_eq_of_le hm with hlt | heq
  · have e1 : 2 * x = (m : ℚ) * 2 ^ (k + 1) := by
      rw [hr, zpow_add_one₀ (by norm_num)]; ring
    rw [e1]
    exact round64_of_intCast_mul m (k + 1) hlt (by omega)
  · rcases abs_eq (by positivity : (0 : Int) ≤ 2 ^ 53) |>.1 heq with h1 | h1
    · have e1 : 2 * x = ((1 : Int) : ℚ) * 2 ^ (54 + k) := by
        rw [hr, h1, zpow_add₀ (by norm_num)]; push_cast; norm_num; ring
      rw [e1]
      exact round64_of_intCast_mul 1 (54 + k) (by norm_num) (by omega)
    · have e1 : 2 * x = ((-1 : Int) : ℚ) * 2 ^ (54 + k) := by
        rw [hr, h1, zpow_add₀ (by norm_num)]; push_cast; norm_num; ring
      rw [e1]
      exact round64_of_intCast_mul (-1) (54 + k) (by norm_num) (by omega)

/-! ## The coordinate encoding of `writePoints` -/

theorem encodeCoord_range [FloorRing K] (c : K) (h1 : -10 ≤ c) (h2 : c ≤ 10) :
    0 ≤ encodeCoord c ∧ encodeCoord c ≤ 20000000000000000 := by
  have hx : ¬ (c + 10 < 0) := by linarith
  have hv : (0 : K) ≤ (c + 10) * 1000000000000000 := by
    apply mul_nonneg <;> linarith
  simp only [encodeCoord, toLong, if_neg hx, if_pos hv]
  constructor
  · exact Int.floor_nonneg.2 hv
  · have : (c + 10) * 1000000000000000 ≤ ((20000000000000000 : ℤ) : K) := by
      push_cast
      linarith
    exact Int.cast_le.1 (le_trans (Int.floor_le _) this)

theorem encodeCoord_below [FloorRing K] (c : K) (h : c ≤ -10) : encodeCoord c = 0 := by
  rcases lt_or_eq_of_le h with h | h
  · have hx : c + 10 < 0 := by linarith
    simp [encodeCoord, toLong, hx]
  · subst h
    simp [encodeCoord, toLong]

/-- C10. The integer which `writePoints` computes for the coordinate `10` is `2 * 10^16`,
and for the coordinate `5` it is `1.5 * 10^16`: both exceed `10^16`. -/
theorem encodeCoord_at_ten :
    encodeCoord (10 : ℚ) = 20000000000000000 ∧ (10 : Int) ^ 16 < encodeCoord (10 : ℚ) ∧
      encodeCoord (5 : ℚ) = 15000000000000000 ∧ (10 : Int) ^ 16 < encodeCoord (5 : ℚ) := by
  have h10 : encodeCoord (10 : ℚ) = 20000000000000000 := by
    simp [encodeCoord, toLong]
    norm_num
  have h5 : encodeCoord (5 : ℚ) = 15000000000000000 := by
    simp [encodeCoord, toLong]
    norm_num
  rw [h10, h5]
  norm_num

theorem encodeCoord_eq_floor [FloorRing K] (c : K) (h : -10 ≤ c) :
    encodeCoord c = ⌊(c + 10) * 1000000000000000⌋ := by
  have hx : ¬ (c + 10 < 0) := by linarith
  have hv : (0 : K) ≤ (c + 10) * 1000000000000000 := by
    apply mul_nonneg <;> linarith
  simp only [encodeCoord, toLong, if_neg hx, if_pos hv]

theorem encodeCoord_nonneg [FloorRing K] (c : K) : 0 ≤ encodeCoord c := by
  rcases le_or_lt (-10) c with h | h
  · rw [encodeCoord_eq_floor c h]
    exact Int.floor_nonneg.2 (by apply mul_nonneg <;> linarith)
  · rw [encodeCoord_below c (le_of_lt h)]

theorem encodeCoord_mono [FloorRing K] (c1 c2 : K) (h : c1 ≤ c2) :
    encodeCoord c1 ≤ encodeCoord c2 := by
  rcases le_or_lt (-10) c1 with h1 | h1
  · rw [encodeCoord_eq_floor c1 h1, encodeCoord_eq_floor c2 (le_trans h1 h)]
    apply Int.floor_mono
    apply mul_le_mul_of_nonneg_right (by linarith) (by norm_num)
  · rw [encodeCoord_below c1 (le_of_lt h1)]
    exact encodeCoord_nonneg c2

theorem toLong_error (v : ℚ) : |((toLong v : Int) : ℚ) - v| < 1 := by
  unfold toLong
  rw [abs_lt]
  split_ifs with h
  · have h1 := Int.floor_le v
    have h2 := Int.lt_floor_add_one v
    constructor <;> linarith
  · have h1 := Int.le_ceil v
    have h2 := Int.ceil_lt_add_one v
    constructor <;> linarith

theorem encodeCoordFl_round64_error (c : ℚ) (h1 : -10 ≤ c) (h2 : c ≤ 10) :
    |c - decodeCoord (encodeCoordFl round64 c)| < 5 / 10 ^ 15 := by
  have ha := round64_error (c + 10) 4 (by norm_num)
    (by rw [abs_of_nonneg (by linarith)]; norm_num; linarith)
  have hp : (2 : ℚ) ^ ((4 : Int) - 53) = 1 / 562949953421312 := by norm_num
  rw [hp] at ha
  -- the shifted coordinate after the clamp at `0`
  obtain ⟨x, hx, hxa⟩ : ∃ x : ℚ,
      x = (if round64 (c + 10) < 0 then 0 else round64 (c + 10)) ∧
        |x - (c + 10)| ≤ 1 / 562949953421312 := by
    refine ⟨_, rfl, ?_⟩
    split_ifs with hneg
    · rw [abs_le] at ha ⊢
      constructor <;> linarith [ha.1, ha.2]
    · exact ha
  have hx0 : 0 ≤ x := by
    rw [hx]; split_ifs with hneg
    · exact le_refl _
    · exact not_lt.1 hneg
  rw [abs_le] at hxa
  have hb := round64_error (x * 1000000000000000) 54 (by norm_num)
    (by
      rw [abs_of_nonneg (by positivity)]
      norm_num
      nlinarith [hxa.2])
  have hq : (2 : ℚ) ^ ((54 : Int) - 53) = 2 := by norm_num
  rw [hq, abs_le] at hb
  have ht := toLong_error (round64 (x * 1000000000000000))
  rw [abs_lt] at ht
  have hE : encodeCoordFl round64 c = toLong (round64 (x * 1000000000000000)) := by
    simp only [encodeCoordFl, hx]
  rw [hE]
  simp only [decodeCoord]
  generalize ((toLong (round64 (x * 1000000000000000)) : Int) : ℚ) = X at ht
  generalize round64 (x * 1000000000000000) = v at hb ht
  rw [abs_lt]
  constructor
  · rw [show c - (X / 1000000000000000 - 10) = (c + 10) - X / 1000000000000000 by ring]
    have : X / 1000000000000000 < (c + 10) + 5 / 10 ^ 15 := by
      rw [div_lt_iff₀ (by norm_num)]
      nlinarith [hxa.1, hxa.2, hb.1, hb.2, ht.1, ht.2]
    linarith
  · rw [show c - (X / 1000000000000000 - 10) = (c + 10) - X / 1000000000000000 by ring]
    have : (c + 10) - 5 / 10 ^ 15 < X / 1000000000000000 := by
      rw [lt_div_iff₀ (by norm_num)]
      nlinarith [hxa.1, hxa.2, hb.1, hb.2, ht.1, ht.2]
    linarith

theorem encodeCoordFl_round64_mono (c1 c2 : ℚ) (h : c1 ≤ c2) :
    encodeCoordFl round64 c1 ≤ encodeCoordFl round64 c2 := by
  have key : ∀ c : ℚ, 0 ≤ (if round64 (c + 10) < 0 then 0 else round64 (c + 10)) := by
    intro c; split_ifs with hc
    · exact le_refl _
    · exact not_lt.1 hc
  have hclamp : (if round64 (c1 + 10) < 0 then 0 else round64 (c1 + 10))
      ≤ (if round64 (c2 + 10) < 0 then 0 else round64 (c2 + 10)) := by
    rcases le_or_lt 0 (c1 + 10) with h1 | h1
    · have a1 := round64_nonneg _ h1
      have a2 := round64_nonneg (c2 + 10) (by linarith)
      rw [if_neg (not_lt.2 a1), if_neg (not_lt.2 a2)]
      exact round64_mono_of_nonneg _ _ h1 (by linarith)
    · have a1 := round64_nonpos _ h1.le
      have e1 : (if round64 (c1 + 10) < 0 then 0 else round64 (c1 + 10)) = 0 := by
        split_ifs with hc
        · rfl
        · exact le_antisymm a1 (not_lt.1 hc)
      rw [e1]
      exact key c2
  have hv := round64_mono_of_nonneg _ _
    (mul_nonneg (key c1) (by norm_num : (0 : ℚ) ≤ 1000000000000000))
    (mul_le_mul_of_nonneg_right hclamp (by norm_num : (0 : ℚ) ≤ 1000000000000000))
  have hv1 := round64_nonneg _
    (mul_nonneg (key c1) (by norm_num : (0 : ℚ) ≤ 1000000000000000))
  have hv2 := round64_nonneg _
    (mul_nonneg (key c2) (by norm_num : (0 : ℚ) ≤ 1000000000000000))
  simp only [encodeCoordFl, toLong]
  rw [if_pos hv1, if_pos hv2]
  exact Int.floor_mono hv

/-- C11, amended. In exact arithmetic, for every coordinate `c` in `[-10, 10]` the value
decoded from the integer which `writePoints` computes for `c` lies below `c` by less than
`20 / 10^16`: `0 ≤ c - D(E(c)) < 20 / 10^16`; and the encoding is monotone non-decreasing.
In binary64 arithmetic, in which the sum of line 536 and the product of line 544 are rounded
before the conversion to `long`, the decoded value lies within `5 / 10^15` of `c`, on either
side: `|c - D(E(c))| < 5 / 10^15` for every `c` in `[-10, 10]`; and the encoding is monotone
non-decreasing there as well. -/
theorem encode_decode_round_trip [FloorRing K] (c : K) (h1 : -10 ≤ c) (h2 : c ≤ 10) :
    0 ≤ c - decodeCoord (encodeCoord c) ∧
    c - decodeCoord (encodeCoord c) < 20 / 10 ^ 16 ∧
    (∀ c1 c2 : K, c1 ≤ c2 → encodeCoord c1 ≤ encodeCoord c2) ∧
    (∀ q : ℚ, -10 ≤ q → q ≤ 10 →
      |q - decodeCoord (encodeCoordFl round64 q)| < 5 / 10 ^ 15) ∧
    (∀ q1 q2 : ℚ, q1 ≤ q2 → encodeCoordFl round64 q1 ≤ encodeCoordFl round64 q2) := by
  refine ⟨?_, ?_, encodeCoord_mono, encodeCoordFl_round64_error, encodeCoordFl_round64_mono⟩
  · rw [encodeCoord_eq_floor c h1]
    have hf := Int.floor_le ((c + 10) * 1000000000000000)
    have : ((⌊(c + 10) * 1000000000000000⌋ : Int) : K) / 1000000000000000 ≤ c + 10 := by
      rw [div_le_iff₀ (by norm_num)]
      exact hf
    simp only [decodeCoord]
    linarith
  · rw [encodeCoord_eq_floor c h1]
    have hf := Int.lt_floor_add_one ((c + 10) * 1000000000000000)
    have : c + 10 - 1 / 1000000000000000
        < ((⌊(c + 10) * 1000000000000000⌋ : Int) : K) / 1000000000000000 := by
      rw [lt_div_iff₀ (by norm_num)]
      have e : (c + 10 - 1 / 1000000000000000) * 1000000000000000
          = (c + 10) * 1000000000000000 - 1 := by
        field_simp
      rw [e]
      linarith
    simp only [decodeCoord]
    have e2 : (20 : K) / 10 ^ 16 = 2 * (1 / 1000000000000000) := by norm_num
    rw [e2]
    have hpos : (0 : K) < 1 / 1000000000000000 := by norm_num
    linarith

theorem encode_decode_round_trip_witness :
    (-10 : ℚ) ≤ 5 ∧ (5 : ℚ) ≤ 10 ∧ 0 ≤ (5 : ℚ) - decodeCoord (encodeCoord (5 : ℚ)) :=
  ⟨by norm_num, by norm_num, (encode_decode_round_trip (5 : ℚ) (by norm_num) (by norm_num)).1⟩

/-- C11, counterexample. In binary64 arithmetic, for the coordinate
`c = 5404319552844595 / 2^54`, the `double` nearest to `0.3`: the sum `c + 10.0` is rounded up
to the `double` nearest to `10.3`, its product with `10^15` is rounded to
`10300000000000000`, and this is the integer written.  It decodes to `0.3`, which is larger
than `c`: `c - D(E(c)) < 0`. -/
theorem encode_decode_negative_in_binary64 :
    round64 (5404319552844595 / 2 ^ 54) = 5404319552844595 / 2 ^ 54 ∧
    (-10 : ℚ) ≤ 5404319552844595 / 2 ^ 54 ∧ (5404319552844595 / 2 ^ 54 : ℚ) ≤ 10 ∧
    encodeCoordFl round64 (5404319552844595 / 2 ^ 54) = 10300000000000000 ∧
    (5404319552844595 / 2 ^ 54 : ℚ)
      - decodeCoord (encodeCoordFl round64 (5404319552844595 / 2 ^ 54)) < 0 := by
  rw [round64_funext]; decide!

/-! ## Binary input and output -/

theorem readBytes_four (b0 b1 b2 b3 : Nat) (rest : List Nat)
    (h0 : b0 < 256) (h1 : b1 < 256) (h2 : b2 < 256) (h3 : b3 < 256) :
    readUint32LittleEndian (b0 :: b1 :: b2 :: b3 :: rest)
      = some (b0 * 2 ^ 24 + b1 * 2 ^ 16 + b2 * 2 ^ 8 + b3, rest) := by
  simp only [readUint32LittleEndian, readBytes, Nat.shiftLeft_eq]
  congr 2
  omega

/-- C12. On the four bytes `1, 0, 0, 0`, read in this order, `readUint32LittleEndian` returns
`2^24 = 16777216`: the first byte of the file is the most significant one. -/
theorem readUint32_first_byte_most_significant :
    readUint32LittleEndian [1, 0, 0, 0] = some (16777216, []) ∧
      1 + 2 ^ 8 * 0 + 2 ^ 16 * 0 + 2 ^ 24 * 0 ≠ 16777216 := by
  constructor
  · exact readBytes_four 1 0 0 0 [] (by norm_num) (by norm_num) (by norm_num) (by norm_num)
  · norm_num

theorem writeBytes_eq (n : Nat) : ∀ value : Nat,
    writeBytes n value = (List.range n).map (fun i => value / 256 ^ i % 256) := by
  induction n with
  | zero => intro value; rfl
  | succ n ih =>
    intro value
    have hand : value &&& 0xFF = value % 256 := Nat.and_pow_two_sub_one_eq_mod value 8
    rw [List.range_succ_eq_map, List.map_cons, List.map_map]
    simp only [writeBytes, ih, hand, Nat.shiftRight_eq_div_pow, pow_zero, Nat.div_one,
      Nat.mod_mod]
    congr 1
    apply List.map_congr_left
    intro i _
    simp only [Function.comp, pow_succ, Nat.div_div_eq_div_mul]
    congr 2
    ring

theorem writeUint64_length (value : Nat) : (writeUint64LittleEndian value).length = 8 := by
  simp [writeUint64LittleEndian, writeBytes_eq]

theorem writePoints_length [FloorRing K] (points : Nat → Point K) (l : List Nat) :
    (writePoints points l).length = 16 * l.length := by
  induction l with
  | nil => rfl
  | cons i rest ih =>
    simp only [writePoints, List.length_append, writeUint64_length, ih, List.length_cons]
    ring

theorem writePoints_append [FloorRing K] (points : Nat → Point K) (l1 l2 : List Nat) :
    writePoints points (l1 ++ l2) = writePoints points l1 ++ writePoints points l2 := by
  induction l1 with
  | nil => rfl
  | cons i rest ih => simp [writePoints, ih]

theorem writePoints_range [FloorRing K] (points : Nat → Point K) (n i : Nat) (hi : i < n) :
    ((writePoints points (List.range n)).drop (16 * i)).take 16 =
      writeUint64LittleEndian (toUint64 (encodeCoord (points i).x))
        ++ writeUint64LittleEndian (toUint64 (encodeCoord (points i).y)) := by
  obtain ⟨m, rfl⟩ : ∃ m, n = i + (m + 1) := ⟨n - i - 1, by omega⟩
  have hsplit : List.range (i + (m + 1))
      = List.range i ++ (i :: (List.map (fun x => i + x) (List.map Nat.succ (List.range m)))) := by
    rw [List.range_add, List.range_succ_eq_map, List.map_cons]
    rfl
  rw [hsplit, writePoints_append]
  have hlen : (writePoints points (List.range i)).length = 16 * i := by
    rw [writePoints_length, List.length_range]
  rw [List.drop_append_of_le_length (le_of_eq hlen.symm), ← hlen, List.drop_length,
    List.nil_append]
  simp only [writePoints]
  rw [List.take_append_of_le_length (by simp [writeUint64_length])]
  apply List.take_of_length_le
  simp [writeUint64_length]

/-- C13. For every 64-bit value `v`, `writeUint64LittleEndian` writes exactly 8 bytes, the
`k`-th being `⌊v / 256^k⌋ mod 256`, so that the sum of `byte_k * 256^k` is `v`; `writePoints`
writes 16 bytes for every node, in the order of the node indices: for node `i` the 8 bytes
of the `x` integer at offset `16 * i`, followed by the 8 bytes of the `y` integer. -/
theorem writeUint64_little_endian [FloorRing K] (v : Nat) (hv : v < 2 ^ 64)
    (points : Nat → Point K) (nPoints i : Nat) (hi : i < nPoints) :
    (writeUint64LittleEndian v).length = 8 ∧
    (∀ k < 8, (writeUint64LittleEndian v).getD k 0 = v / 256 ^ k % 256) ∧
    ((List.range 8).map (fun k => (writeUint64LittleEndian v).getD k 0 * 256 ^ k)).sum = v ∧
    (writePoints points (List.range nPoints)).length = 16 * nPoints ∧
    ((writePoints points (List.range nPoints)).drop (16 * i)).take 8
      = writeUint64LittleEndian (toUint64 (encodeCoord (points i).x)) ∧
    ((writePoints points (List.range nPoints)).drop (16 * i + 8)).take 8
      = writeUint64LittleEndian (toUint64 (encodeCoord (points i).y)) := by
  have hb : ∀ k < 8, (writeUint64LittleEndian v).getD k 0 = v / 256 ^ k % 256 := by
    intro k hk
    simp only [writeUint64LittleEndian, writeBytes_eq]
    rw [List.getD_eq_getElem?_getD, List.getElem?_map, List.getElem?_range hk]
    rfl
  have h16 := writePoints_range points nPoints i hi
  refine ⟨writeUint64_length v, hb, ?_, ?_, ?_, ?_⟩
  · simp only [List.range_succ, List.range_zero, List.nil_append, List.map_append,
      List.map_cons, List.map_nil, List.sum_append, List.sum_cons, List.sum_nil,
      List.cons_append]
    rw [hb 0 (by norm_num), hb 1 (by norm_num), hb 2 (by norm_num), hb 3 (by norm_num),
      hb 4 (by norm_num), hb 5 (by norm_num), hb 6 (by norm_num), hb 7 (by norm_num)]
    norm_num
    omega
  · rw [writePoints_length, List.length_range]
  · have := congrArg (List.take 8) h16
    rw [List.take_take, List.take_append_of_le_length (by simp [writeUint64_length])] at this
    simpa [writeUint64_length, List.take_of_length_le] using this
  · have := congrArg (List.drop 8) h16
    rw [List.drop_take, List.drop_drop] at this
    have e : List.drop 8 (writeUint64LittleEndian (toUint64 (encodeCoord (points i).x))
        ++ writeUint64LittleEndian (toUint64 (encodeCoord (points i).y)))
        = writeUint64LittleEndian (toUint64 (encodeCoord (points i).y)) := by
      rw [List.drop_append_of_le_length (by simp [writeUint64_length])]
      simp [List.drop_of_length_le, writeUint64_length]
    rw [e] at this
    simpa using this

theorem writeUint64_little_endian_witness :
    (72623859790382856 : Nat) < 2 ^ 64 ∧
      (writeUint64LittleEndian 72623859790382856).length = 8 ∧
      writeUint64LittleEndian 72623859790382856 = [8, 7, 6, 5, 4, 3, 2, 1] :=
  ⟨by norm_num,
    (writeUint64_little_endian (K := ℚ) 72623859790382856 (by norm_num) examplePoints 2 0
      (by norm_num)).1,
    by simp [writeUint64LittleEndian, writeBytes_eq, List.range_succ]⟩

/-! ## The centre of mass is the centroid -/

theorem getMass_moment (points : Nat → Point K) (u : DiagramBox K) :
    (getMass points u).1.x * (getMass points u).1.mass
        = (u.indices.map (fun i => (points i.toNat).x)).sum ∧
    (getMass points u).1.y * (getMass points u).1.mass
        = (u.indices.map (fun i => (points i.toNat).y)).sum := by
  induction u with
  | box _ _ _ _ _ _ n =>
    by_cases hn : n = -1 <;> simp [getMass, DiagramBox.indices, hn]
  | split a b c e bs cm n s0 s1 s2 s3 ih0 ih1 ih2 ih3 =>
    have hm := getMass_mass points (.split a b c e bs cm n s0 s1 s2 s3)
    simp only [DiagramBox.indices, List.map_append, List.sum_append, ← ih0.1, ← ih1.1, ← ih2.1,
      ← ih3.1, ← ih0.2, ← ih1.2, ← ih2.2, ← ih3.2]
    simp only [getMass] at hm ⊢
    split_ifs with hpos
    · simp only
      rw [div_mul_cancel₀ _ (ne_of_gt hpos), div_mul_cancel₀ _ (ne_of_gt hpos)]
      constructor <;> ring
    · rw [if_neg hpos] at hm
      simp only at hm ⊢
      have hz : 0 + (getMass points s0).1.mass + (getMass points s1).1.mass
          + (getMass points s2).1.mass + (getMass points s3).1.mass = 0 :=
        le_antisymm (not_lt.1 hpos) (by rw [hm]; exact Nat.cast_nonneg _)
      have m0 := getMass_mass points s0
      have m1 := getMass_mass points s1
      have m2 := getMass_mass points s2
      have m3 := getMass_mass points s3
      have n0 : (0 : K) ≤ (getMass points s0).1.mass := by rw [m0]; exact Nat.cast_nonneg _
      have n1 : (0 : K) ≤ (getMass points s1).1.mass := by rw [m1]; exact Nat.cast_nonneg _
      have n2 : (0 : K) ≤ (getMass points s2).1.mass := by rw [m2]; exact Nat.cast_nonneg _
      have n3 : (0 : K) ≤ (getMass points s3).1.mass := by rw [m3]; exact Nat.cast_nonneg _
      have z0 : (getMass points s0).1.mass = 0 := by linarith
      have z1 : (getMass points s1).1.mass = 0 := by linarith
      have z2 : (getMass points s2).1.mass = 0 := by linarith
      have z3 : (getMass points s3).1.mass = 0 := by linarith
      rw [hz, z0, z1, z2, z3]
      simp

theorem getMass_empty (points : Nat → Point K) (u : DiagramBox K) (h : u.indices = []) :
    (getMass points u).1 = ⟨0, 0, 0⟩ := by
  induction u with
  | box _ _ _ _ _ _ n =>
    by_cases hn : n = -1
    · simp [getMass, hn]
    · simp [DiagramBox.indices, hn] at h
  | split a b c e bs cm n s0 s1 s2 s3 ih0 ih1 ih2 ih3 =>
    simp only [DiagramBox.indices, List.append_eq_nil] at h
    obtain ⟨⟨⟨h0, h1⟩, h2⟩, h3⟩ := h
    simp [getMass, ih0 h0, ih1 h1, ih2 h2, ih3 h3]

theorem getMass_centroid (points : Nat → Point K) (u : DiagramBox K)
    (h : 1 ≤ u.indices.length) :
    (getMass points u).1.x
        = (u.indices.map (fun i => (points i.toNat).x)).sum / (u.indices.length : K) ∧
    (getMass points u).1.y
        = (u.indices.map (fun i => (points i.toNat).y)).sum / (u.indices.length : K) := by
  have hne : (u.indices.length : K) ≠ 0 := by
    have : (0 : K) < (u.indices.length : K) := Nat.cast_pos.2 h
    exact ne_of_gt this
  obtain ⟨hx, hy⟩ := getMass_moment points u
  rw [getMass_mass] at hx hy
  constructor
  · rw [eq_div_iff hne]; exact hx
  · rw [eq_div_iff hne]; exact hy

/-- C15. On a tree built by `init`, after `getMass`, every box whose sub-tree holds `m ≥ 1`
indices (the root with the indices of `nums` in particular) has `cMass.x` and `cMass.y` equal to the arithmetic mean of the `x` and `y`
coordinates of the points of those indices and `cMass.mass = m`; the centre of a box holding
a single point is the point; the `cMass` of a box whose sub-tree holds no index is
`(0, 0, 0)`. -/
theorem centre_of_mass_is_centroid (points : Nat → Point K) (c0 : CenterOfMass K) (fuel : Nat)
    (xmin ymin xmax ymax : K) (nums : List Nat) (t : DiagramBox K)
    (h : init points c0 fuel xmin ymin xmax ymax nums = some t) :
    (1 ≤ nums.length →
      (getMass points t).1.x = (nums.map (fun n => (points n).x)).sum / (nums.length : K) ∧
      (getMass points t).1.y = (nums.map (fun n => (points n).y)).sum / (nums.length : K)) ∧
    ∀ s ∈ (getMass points t).2.subtrees,
      (1 ≤ s.indices.length →
        s.cMass.x = (s.indices.map (fun i => (points i.toNat).x)).sum / (s.indices.length : K) ∧
        s.cMass.y = (s.indices.map (fun i => (points i.toNat).y)).sum / (s.indices.length : K) ∧
        s.cMass.mass = (s.indices.length : K)) ∧
      (s.hasSubBoxes = false → s.num ≠ -1 →
        s.cMass = ⟨(points s.num.toNat).x, (points s.num.toNat).y, 1⟩) ∧
      (s.indices = [] → s.cMass = ⟨0, 0, 0⟩) := by
  have hperm := init_indices_perm points c0 _ _ _ _ _ _ _ h
  refine ⟨?_, ?_⟩
  · intro hl
    have hlen : t.indices.length = nums.length := by rw [hperm.length_eq, List.length_map]
    obtain ⟨hx, hy⟩ := getMass_centroid points t (by rw [hlen]; exact hl)
    have ex := (hperm.map (fun i => (points i.toNat).x)).sum_eq
    have ey := (hperm.map (fun i => (points i.toNat).y)).sum_eq
    rw [List.map_map] at ex ey
    rw [hx, hy, hlen, ex, ey]
    exact ⟨rfl, rfl⟩
  intro s hs
  rw [getMass_subtrees, List.mem_map] at hs
  obtain ⟨u, -, rfl⟩ := hs
  rw [getMass_cMass, getMass_indices]
  refine ⟨fun h1 => ⟨(getMass_centroid points u h1).1, (getMass_centroid points u h1).2,
    getMass_mass points u⟩, ?_, getMass_empty points u⟩
  intro h1 h2
  cases u with
  | box _ _ _ _ _ _ n =>
    simp only [getMass, DiagramBox.num] at h2 ⊢
    rw [if_pos h2]
  | split => simp [getMass, DiagramBox.hasSubBoxes] at h1

theorem centre_of_mass_is_centroid_witness :
    init examplePoints ⟨0, 0, 0⟩ 3 (-10) (-10) 10 10 [0, 1] = some exampleTree ∧
      ∀ s ∈ (getMass examplePoints exampleTree).2.subtrees,
        s.indices = [] → s.cMass = ⟨0, 0, 0⟩ :=
  ⟨exampleTree_built, fun s hs =>
    ((centre_of_mass_is_centroid examplePoints ⟨0, 0, 0⟩ 3 (-10) (-10) 10 10 [0, 1]
      exampleTree exampleTree_built).2 s hs).2.2⟩

/-! ## Bounded motion from a position inside the disc -/

theorem radial_rescale_le (hypot : K → K → K) (hh : IsHypot hypot) (o c : Point K)
    (ho : hypot o.x o.y ≤ 10) (hl : 10 < hypot c.x c.y) :
    hypot (c.x / hypot c.x c.y * 10 - o.x) (c.y / hypot c.x c.y * 10 - o.y)
      ≤ hypot (c.x - o.x) (c.y - o.y) := by
  obtain ⟨o1, o2⟩ := hh o.x o.y
  obtain ⟨r1, r2⟩ := hh (c.x - o.x) (c.y - o.y)
  have hsq : o.x * o.x + o.y * o.y ≤ 10 * 10 := by
    rw [← o2]
    exact mul_self_le_mul_self o1 ho
  apply hypot_le_of_sq hypot hh _ _ _ r1
  rw [r2]
  exact radial_clamp_closer _ _ _ _ _ hsq (hh _ _).2 hl

/-- C19, amended. In exact arithmetic: for every point whose prior position is within
distance `10` of the origin, every tentative position and every `motionLimit > 0`: the
position stored by the clamping loop of `iterate` is no farther from the prior position than
the motion-capped position, which is within `motionLimit` of it; so the stored position is
within `motionLimit` of the prior position, also when the clamp to the circle of radius `10`
rescales the motion-capped position.  The radial rescale of a position outside the disc
never increases the distance to a point inside the disc. -/
theorem bounded_motion_in_disc (hypot : K → K → K) (hh : IsHypot hypot) (motionLimit : K)
    (points pointsNew : Nat → Point K) (nPoints i : Nat) (hi : i < nPoints)
    (hm : 0 < motionLimit) (hprior : hypot (points i).x (points i).y ≤ 10) :
    hypot
      ((clampLoop hypot motionLimit points (List.range nPoints) pointsNew i).x - (points i).x)
      ((clampLoop hypot motionLimit points (List.range nPoints) pointsNew i).y - (points i).y)
      ≤ hypot
        ((motionCap hypot motionLimit (points i) (pointsNew i)).x - (points i).x)
        ((motionCap hypot motionLimit (points i) (pointsNew i)).y - (points i).y) ∧
    hypot
      ((motionCap hypot motionLimit (points i) (pointsNew i)).x - (points i).x)
      ((motionCap hypot motionLimit (points i) (pointsNew i)).y - (points i).y)
      ≤ motionLimit ∧
    hypot
      ((clampLoop hypot motionLimit points (List.range nPoints) pointsNew i).x - (points i).x)
      ((clampLoop hypot motionLimit points (List.range nPoints) pointsNew i).y - (points i).y)
      ≤ motionLimit ∧
    (∀ o c : Point K, hypot o.x o.y ≤ 10 → 10 < hypot c.x c.y →
      hypot (c.x / hypot c.x c.y * 10 - o.x) (c.y / hypot c.x c.y * 10 - o.y)
        ≤ hypot (c.x - o.x) (c.y - o.y)) := by
  have hmem : i ∈ List.range nPoints := List.mem_range.2 hi
  have hcap : hypot
      ((motionCap hypot motionLimit (points i) (pointsNew i)).x - (points i).x)
      ((motionCap hypot motionLimit (points i) (pointsNew i)).y - (points i).y)
      ≤ motionLimit :=
    hypot_le_of_sq hypot hh _ _ _ (le_of_lt hm)
      (motionCap_dist hypot hh motionLimit (points i) (pointsNew i) hm)
  have hfirst : hypot
      ((clampLoop hypot motionLimit points (List.range nPoints) pointsNew i).x - (points i).x)
      ((clampLoop hypot motionLimit points (List.range nPoints) pointsNew i).y - (points i).y)
      ≤ hypot
        ((motionCap hypot motionLimit (points i) (pointsNew i)).x - (points i).x)
        ((motionCap hypot motionLimit (points i) (pointsNew i)).y - (points i).y) := by
    rw [clampLoop_apply _ _ _ _ _ _ (List.nodup_range _), if_pos hmem]
    unfold clampedPosition
    split_ifs with hl
    · exact radial_rescale_le hypot hh (points i) _ hprior hl
    · exact le_refl _
  exact ⟨hfirst, hcap, le_trans hfirst hcap,
    fun o c ho hl => radial_rescale_le hypot hh o c ho hl⟩

theorem bounded_motion_in_disc_witness :
    (fun a b : ℝ => Real.sqrt (a * a + b * b))
      ((clampLoop (fun a b : ℝ => Real.sqrt (a * a + b * b)) (1 / 5) (fun _ => ⟨6, 8⟩)
        (List.range 1) (fun _ => ⟨9, 12⟩) 0).x - 6)
      ((clampLoop (fun a b : ℝ => Real.sqrt (a * a + b * b)) (1 / 5) (fun _ => ⟨6, 8⟩)
        (List.range 1) (fun _ => ⟨9, 12⟩) 0).y - 8) ≤ 1 / 5 :=
  (bounded_motion_in_disc (fun a b : ℝ => Real.sqrt (a * a + b * b)) isHypot_sqrt (1 / 5)
    (fun _ => ⟨6, 8⟩) (fun _ => ⟨9, 12⟩) 1 0 (by norm_num) (by norm_num)
    (by
      show Real.sqrt (6 * 6 + 8 * 8) ≤ 10
      rw [show (6 : ℝ) * 6 + 8 * 8 = 10 * 10 by norm_num, Real.sqrt_mul_self (by norm_num)])).2.2.1

/-! ## Connection entries out of range -/

theorem attractLinksBounded_cases (nPoints : Nat) (points : Nat → Point K)
    (ATTR_SCALE x y : K) :
    ∀ (l : List Nat) (acc : K × K × (Nat → Point K)), sentinel ∈ l →
      ((∀ j ∈ links l, j < nPoints) ∧
        attractLinksBounded nPoints points ATTR_SCALE x y l acc
          = .ok (attractLinks points ATTR_SCALE x y l acc)) ∨
      ∃ c ∈ links l, nPoints ≤ c ∧
        attractLinksBounded nPoints points ATTR_SCALE x y l acc = .error (.pointIndex c) := by
  intro l
  induction l with
  | nil => intro acc h; simp at h
  | cons cNum rest ih =>
    intro acc hs
    obtain ⟨forceX, forceY, pointsNew⟩ := acc
    by_cases h1 : cNum = sentinel
    · left
      simp [links, attractLinksBounded, attractLinks, h1]
    · have hrest : sentinel ∈ rest := by
        rcases List.mem_cons.1 hs with h | h
        · exact absurd h.symm h1
        · exact h
      by_cases h2 : nPoints ≤ cNum
      · right
        exact ⟨cNum, by simp [links, h1], h2, by simp [attractLinksBounded, h1, h2]⟩
      · rcases ih (forceX + ((points cNum).x - x), forceY + ((points cNum).y - y),
            Function.update pointsNew cNum
              ⟨(pointsNew cNum).x - ((points cNum).x - x) * ATTR_SCALE,
               (pointsNew cNum).y - ((points cNum).y - y) * ATTR_SCALE⟩) hrest with
          ⟨hv, he⟩ | ⟨c, hc, hout, he⟩
        · left
          refine ⟨?_, by simp only [attractLinksBounded, attractLinks, h1, h2, if_false, he]⟩
          intro j hj
          simp only [links, h1, if_false, List.mem_cons] at hj
          rcases hj with rfl | hj
          · exact not_le.1 h2
          · exact hv j hj
        · right
          exact ⟨c, by simp [links, h1, hc], hout,
            by simp only [attractLinksBounded, h1, h2, if_false, he]⟩

theorem attractionLoopBounded_cases (nPoints : Nat) (points : Nat → Point K)
    (connections : Nat → List Nat) (ATTR_SCALE : K) :
    ∀ (l : List Nat) (pointsNew : Nat → Point K), (∀ k ∈ l, sentinel ∈ connections k) →
      ((∀ k ∈ l, ∀ j ∈ links (connections k), j < nPoints) ∧
        attractionLoopBounded nPoints points connections ATTR_SCALE l pointsNew
          = .ok (attractionLoop points connections ATTR_SCALE l pointsNew)) ∨
      ∃ k ∈ l, ∃ c ∈ links (connections k), nPoints ≤ c ∧
        attractionLoopBounded nPoints points connections ATTR_SCALE l pointsNew
          = .error (.pointIndex c) := by
  intro l
  induction l with
  | nil => intro pointsNew _; left; exact ⟨by simp, rfl⟩
  | cons i rest ih =>
    intro pointsNew hs
    rcases attractLinksBounded_cases nPoints points ATTR_SCALE (points i).x (points i).y
        (connections i) (0, 0, pointsNew) (hs i (by simp)) with ⟨hv, he⟩ | ⟨c, hc, hout, he⟩
    · rcases ih (Function.update
          (attractLinks points ATTR_SCALE (points i).x (points i).y (connections i)
            (0, 0, pointsNew)).2.2 i
          ⟨((attractLinks points ATTR_SCALE (points i).x (points i).y (connections i)
              (0, 0, pointsNew)).2.2 i).x
            + (attractLinks points ATTR_SCALE (points i).x (points i).y (connections i)
              (0, 0, pointsNew)).1 * ATTR_SCALE,
           ((attractLinks points ATTR_SCALE (points i).x (points i).y (connections i)
              (0, 0, pointsNew)).2.2 i).y
            + (attractLinks points ATTR_SCALE (points i).x (points i).y (connections i)
              (0, 0, pointsNew)).2.1 * ATTR_SCALE⟩)
          (fun k hk => hs k (by simp [hk])) with ⟨hv2, he2⟩ | ⟨k, hk, c, hc, hout, he2⟩
      · left
        refine ⟨?_, by simp only [attractionLoopBounded, attractionLoop, he, he2]⟩
        intro k hk
        rcases List.mem_cons.1 hk with rfl | hk
        · exact hv
        · exact hv2 k hk
      · right
        exact ⟨k, by simp [hk], c, hc, hout, by simp only [attractionLoopBounded, he, he2]⟩
    · right
      exact ⟨i, by simp, c, hc, hout, by simp only [attractionLoopBounded, he]⟩

theorem movePointsBounded_valid (hypot : K → K → K) (c0 : CenterOfMass K) (fuel : Nat)
    (s : State K) (hend : ∀ k < s.nPoints, sentinel ∈ s.connections k)
    (hvalid : ∀ k < s.nPoints, ∀ j ∈ links (s.connections k), j < s.nPoints) :
    movePointsBounded hypot c0 fuel s = (movePoints hypot c0 fuel s).map Except.ok := by
  unfold movePointsBounded movePoints
  cases init s.points c0 fuel (-10) (-10) 10 10 (List.range s.nPoints) with
  | none => rfl
  | some built =>
    simp only [Option.map_some']
    rcases attractionLoopBounded_cases s.nPoints s.points s.connections s.ATTR_SCALE
        (List.range s.nPoints)
        (repulsionLoop hypot s.points s.theta s.REPL_SCALE (getMass s.points built).2
          (List.range s.nPoints) s.pointsNew)
        (fun k hk => hend k (List.mem_range.1 hk)) with ⟨-, he⟩ | ⟨k, hk, c, hc, hout, -⟩
    · rw [he]
    · exact absurd (hvalid k (List.mem_range.1 hk) c hc) (not_lt.2 hout)

theorem levels_subtrees (t : DiagramBox K) : ∀ p ∈ t.levels, p.2 ∈ t.subtrees := by
  induction t with
  | box => intro p hp; simp_all [DiagramBox.levels, DiagramBox.subtrees]
  | split a b c d e f g s0 s1 s2 s3 ih0 ih1 ih2 ih3 =>
    intro p hp
    simp only [DiagramBox.levels, List.mem_cons, List.mem_map, List.mem_append] at hp
    simp only [DiagramBox.subtrees, List.mem_cons, List.mem_append]
    rcases hp with rfl | ⟨q, ((hq | hq) | hq) | hq, rfl⟩
    · exact Or.inl rfl
    · exact Or.inr (Or.inl (Or.inl (Or.inl (ih0 q hq))))
    · exact Or.inr (Or.inl (Or.inl (Or.inr (ih1 q hq))))
    · exact Or.inr (Or.inl (Or.inr (ih2 q hq)))
    · exact Or.inr (Or.inr (ih3 q hq))

theorem exists_internal_at_depth (t : DiagramBox K) (h : 1 ≤ t.depth) :
    ∃ s, (t.depth - 1, s) ∈ t.levels ∧ s.hasSubBoxes = true := by
  induction t with
  | box => simp [DiagramBox.depth] at h
  | split a b c d e f g s0 s1 s2 s3 ih0 ih1 ih2 ih3 =>
    simp only [DiagramBox.depth, Nat.add_sub_cancel_left]
    by_cases hm : max (max s0.depth s1.depth) (max s2.depth s3.depth) = 0
    · rw [hm]
      exact ⟨.split a b c d e f g s0 s1 s2 s3, by simp [DiagramBox.levels], rfl⟩
    · have hpos : 1 ≤ max (max s0.depth s1.depth) (max s2.depth s3.depth) := by omega
      have key : ∀ (ch : DiagramBox K), ch.depth = max (max s0.depth s1.depth) (max s2.depth s3.depth) →
          (∀ q ∈ ch.levels, q ∈ s0.levels ++ s1.levels ++ s2.levels ++ s3.levels) →
          (1 ≤ ch.depth → ∃ s, (ch.depth - 1, s) ∈ ch.levels ∧ s.hasSubBoxes = true) →
          ∃ s, (max (max s0.depth s1.depth) (max s2.depth s3.depth), s)
            ∈ (DiagramBox.split a b c d e f g s0 s1 s2 s3).levels ∧ s.hasSubBoxes = true := by
        intro ch hc hsub ih
        obtain ⟨s, hs, hi⟩ := ih (by omega)
        refine ⟨s, ?_, hi⟩
        simp only [DiagramBox.levels, List.mem_cons, List.mem_map]
        refine Or.inr ⟨(ch.depth - 1, s), hsub _ hs, ?_⟩
        simp only [Prod.mk.injEq, and_true]
        omega
      have hcases : s0.depth = max (max s0.depth s1.depth) (max s2.depth s3.depth) ∨
          s1.depth = max (max s0.depth s1.depth) (max s2.depth s3.depth) ∨
          s2.depth = max (max s0.depth s1.depth) (max s2.depth s3.depth) ∨
          s3.depth = max (max s0.depth s1.depth) (max s2.depth s3.depth) := by
        omega
      rcases hcases with h0 | h1 | h2 | h3
      · exact key s0 h0 (fun q hq => by simp only [List.mem_append]; exact Or.inl (Or.inl (Or.inl hq))) ih0
      · exact key s1 h1 (fun q hq => by simp only [List.mem_append]; exact Or.inl (Or.inl (Or.inr hq))) ih1
      · exact key s2 h2 (fun q hq => by simp only [List.mem_append]; exact Or.inl (Or.inr hq)) ih2
      · exact key s3 h3 (fun q hq => by simp only [List.mem_append]; exact Or.inr hq) ih3

theorem init_levels_side (points : Nat → Point K) (c0 : CenterOfMass K) :
    ∀ (fuel : Nat) (xmin ymin xmax ymax : K) (nums : List Nat) (t : DiagramBox K) (W : K),
      init points c0 fuel xmin ymin xmax ymax nums = some t →
      xmax - xmin = W → ymax - ymin = W →
      ∀ p ∈ t.levels, p.2.xmax - p.2.xmin = W / 2 ^ p.1 ∧ p.2.ymax - p.2.ymin = W / 2 ^ p.1 := by
  intro fuel
  induction fuel with
  | zero => intro _ _ _ _ _ _ _ h; simp [init] at h
  | succ fuel ih =>
    intro xmin ymin xmax ymax nums t W h hx hy p hp
    have hself : t.xmax - t.xmin = W / 2 ^ 0 ∧ t.ymax - t.ymin = W / 2 ^ 0 := by
      obtain ⟨h1, h2, h3, h4, -, -⟩ := init_fields points c0 _ _ _ _ _ _ _ h
      rw [h1, h2, h3, h4, pow_zero, div_one]
      exact ⟨hx, hy⟩
    rw [init_succ_eq_some] at h
    rcases h with ⟨-, rfl⟩ | ⟨n, -, rfl⟩ | ⟨-, b0, b1, b2, b3, hb, rfl⟩
    · simp only [DiagramBox.levels, List.mem_singleton] at hp
      subst hp; exact hself
    · simp only [DiagramBox.levels, List.mem_singleton] at hp
      subst hp; exact hself
    · rw [buildSubBoxes_eq_some] at hb
      obtain ⟨h0, h1, h2, h3⟩ := hb
      simp only [DiagramBox.levels, List.mem_cons, List.mem_map, List.mem_append] at hp
      have half : ∀ q : Nat × DiagramBox K,
          (q.2.xmax - q.2.xmin = W / 2 / 2 ^ q.1 ∧ q.2.ymax - q.2.ymin = W / 2 / 2 ^ q.1) →
          q.2.xmax - q.2.xmin = W / 2 ^ (q.1 + 1) ∧ q.2.ymax - q.2.ymin = W / 2 ^ (q.1 + 1) := by
        intro q hq
        have e : W / 2 ^ (q.1 + 1) = W / 2 / 2 ^ q.1 := by
          rw [pow_succ, div_div, mul_comm]
        rw [e]; exact hq
      rcases hp with rfl | ⟨q, ((hq | hq) | hq) | hq, rfl⟩
      · exact hself
      · exact half q (ih _ _ _ _ _ _ (W / 2) h0 (by linarith) (by linarith) q hq)
      · exact half q (ih _ _ _ _ _ _ (W / 2) h1 (by linarith) (by linarith) q hq)
      · exact half q (ih _ _ _ _ _ _ (W / 2) h2 (by linarith) (by linarith) q hq)
      · exact half q (ih _ _ _ _ _ _ (W / 2) h3 (by linarith) (by linarith) q hq)

theorem init_subtrees_built (points : Nat → Point K) (c0 : CenterOfMass K) (fuel : Nat)
    (xmin ymin xmax ymax : K) (nums : List Nat) (t : DiagramBox K)
    (h : init points c0 fuel xmin ymin xmax ymax nums = some t) (s : DiagramBox K)
    (hs : s ∈ t.subtrees) :
    ∃ (fuel1 : Nat) (x0 y0 x1 y1 : K) (nums1 : List Nat), nums1.Sublist nums ∧
      init points c0 (fuel1 + 1) x0 y0 x1 y1 nums1 = some s := by
  obtain ⟨fuel1, nums1, hl, hi⟩ := init_subtrees points c0 _ _ _ _ _ _ _ h s hs
  cases fuel1 with
  | zero => simp [init] at hi
  | succ fuel1 => exact ⟨fuel1, _, _, _, _, nums1, hl, hi⟩

theorem init_internal_gap (points : Nat → Point K) (c0 : CenterOfMass K) (fuel : Nat)
    (xmin ymin xmax ymax : K) (nums : List Nat) (t : DiagramBox K) (δ : K)
    (h : init points c0 fuel xmin ymin xmax ymax nums = some t)
    (hin : InBox points xmin ymin xmax ymax nums)
    (hp : nums.Pairwise (fun i j => δ ≤ gap points i j)) (s : DiagramBox K)
    (hs : s ∈ t.subtrees) (hsb : s.hasSubBoxes = true) :
    δ ≤ max (s.xmax - s.xmin) (s.ymax - s.ymin) := by
  obtain ⟨fuel1, x0, y0, x1, y1, nums1, hl, hi⟩ :=
    init_subtrees_built points c0 _ _ _ _ _ _ _ h s hs
  obtain ⟨-, -, hholds⟩ := init_subtrees_holds points c0 _ _ _ _ _ _ _ h hin s hs
  have hperm := init_indices_perm points c0 _ _ _ _ _ _ _ hi
  rw [init_succ_eq_some] at hi
  rcases hi with ⟨-, rfl⟩ | ⟨n, -, rfl⟩ | ⟨hlen, -⟩
  · simp [DiagramBox.hasSubBoxes] at hsb
  · simp [DiagramBox.hasSubBoxes] at hsb
  · match nums1, hlen, hl, hperm with
    | a :: b :: rest, _, hl, hperm =>
      have hab : δ ≤ gap points a b :=
        (List.pairwise_cons.1 (hp.sublist hl)).1 b (List.mem_cons_self _ _)
      have ha := hholds a ((mem_indices_of_perm s _ hperm a).2 (List.mem_cons_self _ _))
      have hb := hholds b ((mem_indices_of_perm s _ hperm b).2
        (List.mem_cons_of_mem _ (List.mem_cons_self _ _)))
      simp only [DiagramBox.Holds, Int.toNat_ofNat] at ha hb
      exact le_trans hab (gap_le_of_inBox points _ _ _ _ a b ha hb)

theorem init_children_half (points : Nat → Point K) (c0 : CenterOfMass K) (fuel : Nat)
    (xmin ymin xmax ymax : K) (nums : List Nat) (t : DiagramBox K)
    (h : init points c0 fuel xmin ymin xmax ymax nums = some t) (s : DiagramBox K)
    (hs : s ∈ t.subtrees) :
    ∀ ch ∈ s.children, ch.xmax - ch.xmin = (s.xmax - s.xmin) / 2 ∧
      ch.ymax - ch.ymin = (s.ymax - s.ymin) / 2 ∧ ch.boxSize = s.boxSize / 2 := by
  obtain ⟨fuel1, x0, y0, x1, y1, nums1, -, hi⟩ :=
    init_subtrees_built points c0 _ _ _ _ _ _ _ h s hs
  rw [init_succ_eq_some] at hi
  rcases hi with ⟨-, rfl⟩ | ⟨n, -, rfl⟩ | ⟨-, b0, b1, b2, b3, hb, rfl⟩
  · intro ch hch; simp [DiagramBox.children] at hch
  · intro ch hch; simp [DiagramBox.children] at hch
  · rw [buildSubBoxes_eq_some] at hb
    obtain ⟨h0, h1, h2, h3⟩ := hb
    intro ch hch
    simp only [DiagramBox.children, List.mem_cons, List.mem_singleton, List.not_mem_nil,
      or_false] at hch
    show ch.xmax - ch.xmin = (x1 - x0) / 2 ∧ ch.ymax - ch.ymin = (y1 - y0) / 2 ∧
      ch.boxSize = (x1 - x0) / 2
    rcases hch with rfl | rfl | rfl | rfl
    · obtain ⟨f1, f2, f3, f4, f5, -⟩ := init_fields points c0 _ _ _ _ _ _ _ h0
      rw [f1, f2, f3, f4, f5]
      refine ⟨?_, ?_, ?_⟩ <;> ring
    · obtain ⟨f1, f2, f3, f4, f5, -⟩ := init_fields points c0 _ _ _ _ _ _ _ h1
      rw [f1, f2, f3, f4, f5]
      refine ⟨?_, ?_, ?_⟩ <;> ring
    · obtain ⟨f1, f2, f3, f4, f5, -⟩ := init_fields points c0 _ _ _ _ _ _ _ h2
      rw [f1, f2, f3, f4, f5]
      refine ⟨?_, ?_, ?_⟩ <;> ring
    · obtain ⟨f1, f2, f3, f4, f5, -⟩ := init_fields points c0 _ _ _ _ _ _ _ h3
      rw [f1, f2, f3, f4, f5]
      refine ⟨?_, ?_, ?_⟩ <;> ring

/-- C17, amended. In exact arithmetic: for every square root region of side `S` and every
list of indices whose points have pairwise distinct coordinates and lie in the closed root
region, `init` terminates; every point of the sub-tree of a box lies in the closed box; every
sub-box has half the side of its parent; a box at depth `k` has side `S / 2^k`; and for every
`δ > 0` which is at most `max(|x_i - x_j|, |y_i - y_j|)` for all pairs of points (the
smallest such value in particular) every box with sub-boxes at depth `k` satisfies
`δ ≤ S / 2^k`, so that the depth of the tree is at most `⌊log2 (S / δ)⌋ + 1`. -/
theorem init_terminates_with_depth_bound [Archimedean K] [FloorRing K]
    (points : Nat → Point K) (c0 : CenterOfMass K) (xmin ymin xmax ymax S : K)
    (nums : List Nat)
    (hx : xmax - xmin = S) (hy : ymax - ymin = S)
    (hin : ∀ n ∈ nums, xmin ≤ (points n).x ∧ (points n).x ≤ xmax ∧
      ymin ≤ (points n).y ∧ (points n).y ≤ ymax)
    (hd : nums.Pairwise (fun i j => points i ≠ points j)) :
    ∃ (fuel : Nat) (t : DiagramBox K),
      init points c0 fuel xmin ymin xmax ymax nums = some t ∧
      (∀ s ∈ t.subtrees, ∀ i ∈ s.indices, s.Holds points i) ∧
      (∀ s ∈ t.subtrees, ∀ ch ∈ s.children,
        ch.xmax - ch.xmin = (s.xmax - s.xmin) / 2 ∧
        ch.ymax - ch.ymin = (s.ymax - s.ymin) / 2 ∧ ch.boxSize = s.boxSize / 2) ∧
      (∀ p ∈ t.levels, p.2.xmax - p.2.xmin = S / 2 ^ p.1 ∧ p.2.ymax - p.2.ymin = S / 2 ^ p.1) ∧
      ∀ δ : K, 0 < δ → nums.Pairwise (fun i j => δ ≤ gap points i j) →
        (∀ p ∈ t.levels, p.2.hasSubBoxes = true → δ ≤ S / 2 ^ p.1) ∧
        t.depth ≤ Nat.log 2 ⌊S / δ⌋₊ + 1 := by
  obtain ⟨fuel, t, ht⟩ := init_some_of_distinct points c0 xmin ymin xmax ymax nums hin hd
  have hside := init_levels_side points c0 _ _ _ _ _ _ _ S ht hx hy
  refine ⟨fuel, t, ht,
    fun s hs => (init_subtrees_holds points c0 _ _ _ _ _ _ _ ht hin s hs).2.2,
    fun s hs => init_children_half points c0 _ _ _ _ _ _ _ ht s hs, hside, ?_⟩
  intro δ hδ hp
  have hint : ∀ p ∈ t.levels, p.2.hasSubBoxes = true → δ ≤ S / 2 ^ p.1 := by
    intro p hpl hsb
    have := init_internal_gap points c0 _ _ _ _ _ _ _ δ ht hin hp p.2
      (levels_subtrees t p hpl) hsb
    rw [(hside p hpl).1, (hside p hpl).2, max_self] at this
    exact this
  refine ⟨hint, ?_⟩
  by_cases hdep : t.depth = 0
  · omega
  · obtain ⟨s, hs, hsb⟩ := exists_internal_at_depth t (by omega)
    have h1 := hint _ hs hsb
    simp only at h1
    have h2 : ((2 ^ (t.depth - 1) : Nat) : K) ≤ S / δ := by
      rw [le_div_iff₀ hδ]
      rw [le_div_iff₀ (by positivity)] at h1
      push_cast
      linarith [mul_comm δ ((2 : K) ^ (t.depth - 1))]
    have h3 : 2 ^ (t.depth - 1) ≤ ⌊S / δ⌋₊ := Nat.le_floor h2
    have h4 : t.depth - 1 ≤ Nat.log 2 ⌊S / δ⌋₊ :=
      Nat.le_log_of_pow_le (by norm_num) h3
    omega

theorem init_terminates_with_depth_bound_witness :
    ∃ (fuel : Nat) (t : DiagramBox ℚ),
      init examplePoints ⟨0, 0, 0⟩ fuel (-10) (-10) 10 10 [0, 1] = some t ∧
      t.depth ≤ Nat.log 2 ⌊(20 : ℚ) / 8⌋₊ + 1 :=
  let ⟨fuel, t, h, _, _, _, hδ⟩ := init_terminates_with_depth_bound examplePoints ⟨0, 0, 0⟩
    (-10) (-10) 10 10 20 [0, 1] (by norm_num) (by norm_num)
    (by simp [examplePoints]; norm_num) (by simp [examplePoints])
  ⟨fuel, t, h, (hδ 8 (by norm_num) (by simp [gap, examplePoints]; norm_num)).2⟩

/-! ## No division by zero in the repulsion traversal -/

theorem hypot_pos_of_ne (hypot : K → K → K) (hh : IsHypot hypot) (p q : Point K)
    (h : p ≠ q) : 0 < hypot (p.x - q.x) (p.y - q.y) := by
  obtain ⟨h0, h2⟩ := hh (p.x - q.x) (p.y - q.y)
  rcases lt_or_eq_of_le h0 with hlt | heq
  · exact hlt
  · exfalso
    apply h
    rw [← heq, mul_zero] at h2
    have hx : (p.x - q.x) * (p.x - q.x) = 0 := by
      nlinarith [mul_self_nonneg (p.x - q.x), mul_self_nonneg (p.y - q.y)]
    have hy : (p.y - q.y) * (p.y - q.y) = 0 := by
      nlinarith [mul_self_nonneg (p.x - q.x), mul_self_nonneg (p.y - q.y)]
    have ex : p.x = q.x := sub_eq_zero.1 (mul_self_eq_zero.1 hx)
    have ey : p.y = q.y := sub_eq_zero.1 (mul_self_eq_zero.1 hy)
    obtain ⟨px, py⟩ := p
    obtain ⟨qx, qy⟩ := q
    simp only at ex ey
    rw [ex, ey]

theorem divisors_pos (hypot : K → K → K) (points : Nat → Point K) (theta : K) (num : Int)
    (pt : Point K) (hθ : 0 < theta) (hh : IsHypot hypot) :
    ∀ u : DiagramBox K,
      (∀ s ∈ u.subtrees, 0 ≤ s.boxSize ∧ (s.hasSubBoxes = true → s.num = -1)) →
      (∀ i ∈ u.indices, i ≠ num →
        0 < hypot ((points i.toNat).x - pt.x) ((points i.toNat).y - pt.y)) →
      ∀ d ∈ divisors hypot points theta num pt u, 0 < d := by
  intro u
  induction u with
  | box _ _ _ _ _ _ bnum =>
    intro _ hi d hd
    simp only [divisors] at hd
    split_ifs at hd with h1 h2
    · simp at hd
    · simp only [List.mem_singleton] at hd
      subst hd
      exact hi bnum (by simp [DiagramBox.indices, h2]) (fun h => h1 h.symm)
    · simp at hd
  | split a b c e boxSize cMass bnum s0 s1 s2 s3 ih0 ih1 ih2 ih3 =>
    intro hs hi d hd
    obtain ⟨hB, hnum⟩ := hs (.split a b c e boxSize cMass bnum s0 s1 s2 s3)
      (by simp [DiagramBox.subtrees])
    have hb : bnum = -1 := hnum rfl
    have hB' : 0 ≤ boxSize := hB
    have hsub : ∀ s, (s ∈ s0.subtrees ∨ s ∈ s1.subtrees ∨ s ∈ s2.subtrees ∨ s ∈ s3.subtrees) →
        s ∈ (DiagramBox.split a b c e boxSize cMass bnum s0 s1 s2 s3).subtrees := by
      intro s hs
      simp only [DiagramBox.subtrees, List.mem_cons, List.mem_append]
      rcases hs with h | h | h | h
      · exact Or.inr (Or.inl (Or.inl (Or.inl h)))
      · exact Or.inr (Or.inl (Or.inl (Or.inr h)))
      · exact Or.inr (Or.inl (Or.inr h))
      · exact Or.inr (Or.inr h)
    simp only [DiagramBox.indices, List.mem_append] at hi
    simp only [divisors] at hd
    split_ifs at hd with h1 h2 h3
    · simp at hd
    · exact absurd hb h2
    · simp only [List.mem_singleton] at hd
      subst hd
      by_contra hn
      have h0 := (hh (pt.x - cMass.x) (pt.y - cMass.y)).1
      have hz : hypot (pt.x - cMass.x) (pt.y - cMass.y) = 0 := le_antisymm (not_lt.1 hn) h0
      rw [hz, mul_zero] at h3
      exact absurd h3 (not_lt.2 hB')
    · simp only [List.mem_append] at hd
      rcases hd with ((hd | hd) | hd) | hd
      · exact ih0 (fun s h => hs s (hsub s (Or.inl h)))
          (fun i h => hi i (Or.inl (Or.inl (Or.inl h)))) d hd
      · exact ih1 (fun s h => hs s (hsub s (Or.inr (Or.inl h))))
          (fun i h => hi i (Or.inl (Or.inl (Or.inr h)))) d hd
      · exact ih2 (fun s h => hs s (hsub s (Or.inr (Or.inr (Or.inl h)))))
          (fun i h => hi i (Or.inl (Or.inr h))) d hd
      · exact ih3 (fun s h => hs s (hsub s (Or.inr (Or.inr (Or.inr h)))))
          (fun i h => hi i (Or.inr h)) d hd

theorem init_subtrees_size (points : Nat → Point K) (c0 : CenterOfMass K) (fuel : Nat)
    (xmin ymin xmax ymax : K) (nums : List Nat) (t : DiagramBox K)
    (h : init points c0 fuel xmin ymin xmax ymax nums = some t) (hbox : xmin ≤ xmax)
    (s : DiagramBox K) (hs : s ∈ t.subtrees) :
    0 ≤ s.boxSize ∧ (s.hasSubBoxes = true → s.num = -1) := by
  have hle := init_subtrees_region points c0 (fun xmin _ xmax _ => xmin ≤ xmax)
    (fun a b c d hp => by
      have hp' : a ≤ c := hp
      refine ⟨?_, ?_, ?_, ?_⟩ <;> show _ ≤ _ <;> linarith)
    _ _ _ _ _ _ _ h hbox s hs
  obtain ⟨fuel1, x0, y0, x1, y1, nums1, -, hi⟩ :=
    init_subtrees_built points c0 _ _ _ _ _ _ _ h s hs
  obtain ⟨f1, -, f3, -, f5, -⟩ := init_fields points c0 _ _ _ _ _ _ _ hi
  refine ⟨by rw [f5, ← f1, ← f3]; exact sub_nonneg.2 hle, ?_⟩
  rw [init_succ_eq_some] at hi
  rcases hi with ⟨-, rfl⟩ | ⟨n, -, rfl⟩ | ⟨-, b0, b1, b2, b3, -, rfl⟩ <;>
    simp [DiagramBox.hasSubBoxes, DiagramBox.num]

theorem midpointFl_mem (fl : K → K) (hmono : ∀ x y, x ≤ y → fl x ≤ fl y)
    (h2 : ∀ x, fl x = x → fl (2 * x) = 2 * x) (xmin xmax : K) (h : xmin ≤ xmax)
    (hmin : fl xmin = xmin) (hmax : fl xmax = xmax) :
    xmin ≤ fl (fl (xmin + xmax) / 2) ∧ fl (fl (xmin + xmax) / 2) ≤ xmax := by
  have a := hmono (2 * xmin) (xmin + xmax) (by linarith)
  have b := hmono (xmin + xmax) (2 * xmax) (by linarith)
  rw [h2 xmin hmin] at a
  rw [h2 xmax hmax] at b
  have a2 := hmono xmin (fl (xmin + xmax) / 2) (by linarith)
  have b2 := hmono (fl (xmin + xmax) / 2) xmax (by linarith)
  rw [hmin] at a2
  rw [hmax] at b2
  exact ⟨a2, b2⟩

theorem initFl_succ_eq_some (fl : K → K) (points : Nat → Point K) (c0 : CenterOfMass K)
    (fuel : Nat) (xmin ymin xmax ymax : K) (a b : Nat) (rest : List Nat) (t : DiagramBox K)
    (h : initFl fl points c0 (fuel + 1) xmin ymin xmax ymax (a :: b :: rest) = some t) :
    ∃ b0 b1 b2 b3,
      initFl fl points c0 fuel xmin ymin (fl (fl (xmin + xmax) / 2)) (fl (fl (ymin + ymax) / 2))
        (distribute points (fl (fl (xmin + xmax) / 2)) (fl (fl (ymin + ymax) / 2))
          (a :: b :: rest)).bl = some b0 ∧
      initFl fl points c0 fuel (fl (fl (xmin + xmax) / 2)) ymin xmax (fl (fl (ymin + ymax) / 2))
        (distribute points (fl (fl (xmin + xmax) / 2)) (fl (fl (ymin + ymax) / 2))
          (a :: b :: rest)).br = some b1 ∧
      initFl fl points c0 fuel xmin (fl (fl (ymin + ymax) / 2)) (fl (fl (xmin + xmax) / 2)) ymax
        (distribute points (fl (fl (xmin + xmax) / 2)) (fl (fl (ymin + ymax) / 2))
          (a :: b :: rest)).tl = some b2 ∧
      initFl fl points c0 fuel (fl (fl (xmin + xmax) / 2)) (fl (fl (ymin + ymax) / 2)) xmax ymax
        (distribute points (fl (fl (xmin + xmax) / 2)) (fl (fl (ymin + ymax) / 2))
          (a :: b :: rest)).tr = some b3 ∧
      t = .split xmin ymin xmax ymax (fl (xmax - xmin)) c0 (-1) b0 b1 b2 b3 := by
  simp only [initFl, buildSubBoxesFl] at h
  cases h0 : initFl fl points c0 fuel xmin ymin (fl (fl (xmin + xmax) / 2))
      (fl (fl (ymin + ymax) / 2))
      (distribute points (fl (fl (xmin + xmax) / 2)) (fl (fl (ymin + ymax) / 2))
        (a :: b :: rest)).bl with
  | none => simp [h0] at h
  | some b0 =>
    cases h1 : initFl fl points c0 fuel (fl (fl (xmin + xmax) / 2)) ymin xmax
        (fl (fl (ymin + ymax) / 2))
        (distribute points (fl (fl (xmin + xmax) / 2)) (fl (fl (ymin + ymax) / 2))
          (a :: b :: rest)).br with
    | none => simp [h0, h1] at h
    | some b1 =>
      cases h2 : initFl fl points c0 fuel xmin (fl (fl (ymin + ymax) / 2))
          (fl (fl (xmin + xmax) / 2)) ymax
          (distribute points (fl (fl (xmin + xmax) / 2)) (fl (fl (ymin + ymax) / 2))
            (a :: b :: rest)).tl with
      | none => simp [h0, h1, h2] at h
      | some b2 =>
        cases h3 : initFl fl points c0 fuel (fl (fl (xmin + xmax) / 2))
            (fl (fl (ymin + ymax) / 2)) xmax ymax
            (distribute points (fl (fl (xmin + xmax) / 2)) (fl (fl (ymin + ymax) / 2))
              (a :: b :: rest)).tr with
        | none => simp [h0, h1, h2, h3] at h
        | some b3 =>
          simp only [h0, h1, h2, h3, Option.some.injEq] at h
          exact ⟨b0, b1, b2, b3, rfl, rfl, rfl, rfl, h.symm⟩

theorem initFl_inv (fl : K → K) (hmono : ∀ x y, x ≤ y → fl x ≤ fl y)
    (hidem : ∀ x, fl (fl x) = fl x) (h0 : fl 0 = 0)
    (h2 : ∀ x, fl x = x → fl (2 * x) = 2 * x) (points : Nat → Point K) (c0 : CenterOfMass K) :
    ∀ (fuel : Nat) (xmin ymin xmax ymax : K) (nums : List Nat) (t : DiagramBox K),
      initFl fl points c0 fuel xmin ymin xmax ymax nums = some t →
      xmin ≤ xmax → fl xmin = xmin → fl xmax = xmax →
      (∀ s ∈ t.subtrees, 0 ≤ s.boxSize ∧ (s.hasSubBoxes = true → s.num = -1)) ∧
      (∀ i ∈ t.indices, ∃ n ∈ nums, i = (n : Int)) := by
  intro fuel
  induction fuel with
  | zero => intro _ _ _ _ _ _ h; simp [initFl] at h
  | succ fuel ih =>
    intro xmin ymin xmax ymax nums t h hle hmin hmax
    have hsize : 0 ≤ fl (xmax - xmin) := by
      have := hmono 0 (xmax - xmin) (by linarith)
      rwa [h0] at this
    match nums, h with
    | [], h =>
      simp only [initFl, Option.some.injEq] at h
      subst h
      simp [DiagramBox.subtrees, DiagramBox.indices, DiagramBox.boxSize, DiagramBox.hasSubBoxes,
        hsize]
    | [n], h =>
      simp only [initFl, Option.some.injEq] at h
      subst h
      have hn : (n : Int) ≠ -1 := by omega
      simp [DiagramBox.subtrees, DiagramBox.indices, DiagramBox.boxSize, DiagramBox.hasSubBoxes,
        hsize, hn]
    | a :: b :: rest, h =>
      obtain ⟨b0, b1, b2, b3, e0, e1, e2, e3, rfl⟩ :=
        initFl_succ_eq_some fl points c0 fuel xmin ymin xmax ymax a b rest t h
      obtain ⟨m1, m2⟩ := midpointFl_mem fl hmono h2 xmin xmax hle hmin hmax
      have hmid := hidem (fl (xmin + xmax) / 2)
      obtain ⟨sl0, sl1, sl2, sl3⟩ := distribute_sublist points (fl (fl (xmin + xmax) / 2))
        (fl (fl (ymin + ymax) / 2)) (a :: b :: rest)
      obtain ⟨p0, q0⟩ := ih _ _ _ _ _ _ e0 m1 hmin hmid
      obtain ⟨p1, q1⟩ := ih _ _ _ _ _ _ e1 m2 hmid hmax
      obtain ⟨p2, q2⟩ := ih _ _ _ _ _ _ e2 m1 hmin hmid
      obtain ⟨p3, q3⟩ := ih _ _ _ _ _ _ e3 m2 hmid hmax
      constructor
      · intro s hs
        simp only [DiagramBox.subtrees, List.mem_cons, List.mem_append] at hs
        rcases hs with rfl | ((hs | hs) | hs) | hs
        · exact ⟨hsize, fun _ => rfl⟩
        · exact p0 s hs
        · exact p1 s hs
        · exact p2 s hs
        · exact p3 s hs
      · intro i hi
        simp only [DiagramBox.indices, List.mem_append] at hi
        rcases hi with ((hi | hi) | hi) | hi
        · obtain ⟨n, hn, e⟩ := q0 i hi; exact ⟨n, sl0.subset hn, e⟩
        · obtain ⟨n, hn, e⟩ := q1 i hi; exact ⟨n, sl1.subset hn, e⟩
        · obtain ⟨n, hn, e⟩ := q2 i hi; exact ⟨n, sl2.subset hn, e⟩
        · obtain ⟨n, hn, e⟩ := q3 i hi; exact ⟨n, sl3.subset hn, e⟩

theorem getMassFl_indices (fl : K → K) (points : Nat → Point K) (t : DiagramBox K) :
    (getMassFl fl points t).2.indices = t.indices := by
  induction t with
  | box => simp [getMassFl, DiagramBox.indices]
  | split _ _ _ _ _ _ _ s0 s1 s2 s3 ih0 ih1 ih2 ih3 =>
    simp [getMassFl, DiagramBox.indices, ih0, ih1, ih2, ih3]

theorem getMassFl_subtrees (fl : K → K) (points : Nat → Point K) (t : DiagramBox K) :
    (getMassFl fl points t).2.subtrees = t.subtrees.map (fun s => (getMassFl fl points s).2) := by
  induction t with
  | box => simp [getMassFl, DiagramBox.subtrees]
  | split _ _ _ _ _ _ _ s0 s1 s2 s3 ih0 ih1 ih2 ih3 =>
    simp [getMassFl, DiagramBox.subtrees, ih0, ih1, ih2, ih3]

theorem getMassFl_fields (fl : K → K) (points : Nat → Point K) (t : DiagramBox K) :
    (getMassFl fl points t).2.hasSubBoxes = t.hasSubBoxes ∧
    (getMassFl fl points t).2.num = t.num ∧ (getMassFl fl points t).2.boxSize = t.boxSize := by
  cases t <;> simp [getMassFl, DiagramBox.hasSubBoxes, DiagramBox.num, DiagramBox.boxSize]

theorem divisorsFl_pos (fl : K → K) (hnonpos : ∀ x, x ≤ 0 → fl x ≤ 0) (hypot : K → K → K)
    (points : Nat → Point K) (theta : K) (num : Int) (pt : Point K) (hθ : 0 < theta) :
    ∀ u : DiagramBox K,
      (∀ s ∈ u.subtrees, 0 ≤ s.boxSize ∧ (s.hasSubBoxes = true → s.num = -1)) →
      (∀ i ∈ u.indices, i ≠ num →
        0 < hypot (fl ((points i.toNat).x - pt.x)) (fl ((points i.toNat).y - pt.y))) →
      ∀ d ∈ divisorsFl fl hypot points theta num pt u, 0 < d := by
  intro u
  induction u with
  | box _ _ _ _ _ _ bnum =>
    intro _ hi d hd
    simp only [divisorsFl] at hd
    split_ifs at hd with h1 h2
    · simp at hd
    · simp only [List.mem_singleton] at hd
      subst hd
      exact hi bnum (by simp [DiagramBox.indices, h2]) (fun h => h1 h.symm)
    · simp at hd
  | split a b c e boxSize cMass bnum s0 s1 s2 s3 ih0 ih1 ih2 ih3 =>
    intro hs hi d hd
    obtain ⟨hB, hnum⟩ := hs (.split a b c e boxSize cMass bnum s0 s1 s2 s3)
      (by simp [DiagramBox.subtrees])
    have hb : bnum = -1 := hnum rfl
    have hB' : 0 ≤ boxSize := hB
    have hsub : ∀ s, (s ∈ s0.subtrees ∨ s ∈ s1.subtrees ∨ s ∈ s2.subtrees ∨ s ∈ s3.subtrees) →
        s ∈ (DiagramBox.split a b c e boxSize cMass bnum s0 s1 s2 s3).subtrees := by
      intro s hs
      simp only [DiagramBox.subtrees, List.mem_cons, List.mem_append]
      rcases hs with h | h | h | h
      · exact Or.inr (Or.inl (Or.inl (Or.inl h)))
      · exact Or.inr (Or.inl (Or.inl (Or.inr h)))
      · exact Or.inr (Or.inl (Or.inr h))
      · exact Or.inr (Or.inr h)
    simp only [DiagramBox.indices, List.mem_append] at hi
    simp only [divisorsFl] at hd
    split_ifs at hd with h1 h2 h3
    · simp at hd
    · exact absurd hb h2
    · simp only [List.mem_singleton] at hd
      subst hd
      by_contra hn
      have hz : theta * hypot (fl (pt.x - cMass.x)) (fl (pt.y - cMass.y)) ≤ 0 :=
        mul_nonpos_of_nonneg_of_nonpos hθ.le (not_lt.1 hn)
      have := hnonpos _ hz
      linarith
    · simp only [List.mem_append] at hd
      rcases hd with ((hd | hd) | hd) | hd
      · exact ih0 (fun s h => hs s (hsub s (Or.inl h)))
          (fun i h => hi i (Or.inl (Or.inl (Or.inl h)))) d hd
      · exact ih1 (fun s h => hs s (hsub s (Or.inr (Or.inl h))))
          (fun i h => hi i (Or.inl (Or.inl (Or.inr h)))) d hd
      · exact ih2 (fun s h => hs s (hsub s (Or.inr (Or.inr (Or.inl h)))))
          (fun i h => hi i (Or.inl (Or.inr h))) d hd
      · exact ih3 (fun s h => hs s (hsub s (Or.inr (Or.inr (Or.inr h)))))
          (fun i h => hi i (Or.inr h)) d hd

theorem divisorsFl_round64_pos (hypot : ℚ → ℚ → ℚ) (points : Nat → Point ℚ)
    (c0 : CenterOfMass ℚ) (fuel : Nat) (xmin ymin xmax ymax : ℚ) (nums : List Nat)
    (t : DiagramBox ℚ) (theta : ℚ) (num : Nat)
    (hh : ∀ a b : ℚ, a ≠ 0 ∨ b ≠ 0 → 0 < hypot a b) (hθ : 0 < theta) (hbox : xmin ≤ xmax)
    (hmin : round64 xmin = xmin) (hmax : round64 xmax = xmax)
    (hdbl : ∀ n ∈ nums, round64 (points n).x = (points n).x ∧
      round64 (points n).y = (points n).y)
    (hd : nums.Pairwise (fun i j => points i ≠ points j))
    (h : initFl round64 points c0 fuel xmin ymin xmax ymax nums = some t) (hnum : num ∈ nums) :
    ∀ d ∈ divisorsFl round64 hypot points theta (num : Int) (points num)
      (getMassFl round64 points t).2, 0 < d := by
  obtain ⟨hsz, hidx⟩ := initFl_inv round64 round64_mono round64_idem round64_zero
    round64_two_mul points c0 fuel xmin ymin xmax ymax nums t h hbox hmin hmax
  have hall := hd.forall (fun _ _ hab => Ne.symm hab)
  apply divisorsFl_pos round64 round64_nonpos hypot points theta (num : Int) (points num) hθ
  · intro s hs
    rw [getMassFl_subtrees, List.mem_map] at hs
    obtain ⟨u, hu, rfl⟩ := hs
    obtain ⟨g1, g2, g3⟩ := getMassFl_fields round64 points u
    rw [g1, g2, g3]
    exact hsz u hu
  · intro i hi hne
    rw [getMassFl_indices] at hi
    obtain ⟨j, hj, rfl⟩ := hidx i hi
    have hjn : j ≠ num := fun e => hne (by rw [e])
    have hpt : points j ≠ points num := hall hj hnum hjn
    apply hh
    simp only [Int.toNat_ofNat]
    by_contra hcon
    push_neg at hcon
    obtain ⟨cx, cy⟩ := hcon
    apply hpt
    have ex : (points j).x = (points num).x := by
      by_contra hx
      exact round64_sub_ne_zero _ _ (hdbl j hj).1 (hdbl num hnum).1 hx cx
    have ey : (points j).y = (points num).y := by
      by_contra hy
      exact round64_sub_ne_zero _ _ (hdbl j hj).2 (hdbl num hnum).2 hy cy
    cases hp : points j
    cases hq : points num
    rw [hp, hq] at ex ey
    simp only at ex ey
    rw [ex, ey]

/-- C18, amended. In exact arithmetic: for every `theta > 0`, every tree built by `init`
over a root box with `xmin ≤ xmax` and points with pairwise distinct coordinates, with
`getMass` run, and every index `num` of `nums`: every `d` by whose cube
`getRepulsionForce(num, points[num])` divides is positive, and the divisor `d * d * d` is
not zero.  In binary64 arithmetic, for a root box and points whose coordinates are `double`
values (`round64 q = q`) and a `hypot` which is positive except at `(0, 0)`: every such `d`
is positive as well; nothing is stated there of the product `d * d * d`. -/
theorem repulsion_divisors_positive (hypot : K → K → K) (hh : IsHypot hypot)
    (points : Nat → Point K) (c0 : CenterOfMass K) (fuel : Nat) (xmin ymin xmax ymax : K)
    (nums : List Nat) (t : DiagramBox K) (theta : K) (num : Nat)
    (hθ : 0 < theta) (hbox : xmin ≤ xmax)
    (hd : nums.Pairwise (fun i j => points i ≠ points j))
    (h : init points c0 fuel xmin ymin xmax ymax nums = some t) (hnum : num ∈ nums) :
    (∀ d ∈ divisors hypot points theta (num : Int) (points num) (getMass points t).2,
      0 < d ∧ d * d * d ≠ 0) ∧
    (∀ (hypot64 : ℚ → ℚ → ℚ) (points64 : Nat → Point ℚ) (c64 : CenterOfMass ℚ) (fuel64 : Nat)
        (xmin64 ymin64 xmax64 ymax64 : ℚ) (nums64 : List Nat) (t64 : DiagramBox ℚ)
        (theta64 : ℚ) (num64 : Nat),
      (∀ a b : ℚ, a ≠ 0 ∨ b ≠ 0 → 0 < hypot64 a b) → 0 < theta64 → xmin64 ≤ xmax64 →
      round64 xmin64 = xmin64 → round64 xmax64 = xmax64 →
      (∀ n ∈ nums64, round64 (points64 n).x = (points64 n).x ∧
        round64 (points64 n).y = (points64 n).y) →
      nums64.Pairwise (fun i j => points64 i ≠ points64 j) →
      initFl round64 points64 c64 fuel64 xmin64 ymin64 xmax64 ymax64 nums64 = some t64 →
      num64 ∈ nums64 →
      ∀ d ∈ divisorsFl round64 hypot64 points64 theta64 (num64 : Int) (points64 num64)
        (getMassFl round64 points64 t64).2, 0 < d) := by
  refine ⟨?_, fun hypot64 points64 c64 fuel64 xmin64 ymin64 xmax64 ymax64 nums64 t64 theta64
    num64 hh64 hθ64 hbox64 hmin64 hmax64 hdbl64 hd64 h64 hnum64 =>
    divisorsFl_round64_pos hypot64 points64 c64 fuel64 xmin64 ymin64 xmax64 ymax64 nums64 t64
      theta64 num64 hh64 hθ64 hbox64 hmin64 hmax64 hdbl64 hd64 h64 hnum64⟩
  have hperm := init_indices_perm points c0 _ _ _ _ _ _ _ h
  have hall := hd.forall (fun _ _ hab => Ne.symm hab)
  intro d hdm
  have hpos : 0 < d := by
    apply divisors_pos hypot points theta (num : Int) (points num) hθ hh (getMass points t).2
      ?_ ?_ d hdm
    · intro s hs
      rw [getMass_subtrees, List.mem_map] at hs
      obtain ⟨u, hu, rfl⟩ := hs
      obtain ⟨g1, g2⟩ := getMass_hasSubBoxes points u
      rw [(getMass_fields points u).2.2.2.2, g1, g2]
      exact init_subtrees_size points c0 _ _ _ _ _ _ _ h hbox u hu
    · intro i hi hne
      rw [getMass_indices, hperm.mem_iff, List.mem_map] at hi
      obtain ⟨j, hj, rfl⟩ := hi
      have hjn : j ≠ num := fun e => hne (by rw [e]; rfl)
      exact hypot_pos_of_ne hypot hh _ _ (hall hj hnum hjn)
  exact ⟨hpos, ne_of_gt (mul_pos (mul_pos hpos hpos) hpos)⟩

theorem exampleTreeR_divisors :
    divisors (fun a b : ℝ => Real.sqrt (a * a + b * b)) examplePointsR (1 / 2)
        ((0 : Nat) : Int) (examplePointsR 0) (getMass examplePointsR exampleTreeR).2
      = [Real.sqrt ((7 - 1) * (7 - 1) + (9 - 1) * (9 - 1))] := by
  rw [exampleTreeR_mass]
  simp [exampleMassTreeR, divisors, examplePointsR, sqrt_example]
  norm_num

theorem repulsion_divisors_positive_witness :
    (0 : ℝ) < Real.sqrt ((7 - 1) * (7 - 1) + (9 - 1) * (9 - 1)) :=
  ((repulsion_divisors_positive (fun a b : ℝ => Real.sqrt (a * a + b * b)) isHypot_sqrt
    examplePointsR ⟨0, 0, 0⟩ 3 (-10) (-10) 10 10 [0, 1] exampleTreeR (1 / 2) 0 (by norm_num)
    (by norm_num) (by simp [examplePointsR]) exampleTreeR_built (by simp)).1
    (Real.sqrt ((7 - 1) * (7 - 1) + (9 - 1) * (9 - 1)))
    (by rw [exampleTreeR_divisors]; exact List.mem_singleton.2 rfl)).1

/-! ## Self-exclusion at the default accuracy -/

theorem pairwise_of_distribute (points : Nat → Point K) (xmid ymid : K) :
    ∀ nums : List Nat,
      (distribute points xmid ymid nums).bl.Pairwise (fun i j => points i ≠ points j) →
      (distribute points xmid ymid nums).br.Pairwise (fun i j => points i ≠ points j) →
      (distribute points xmid ymid nums).tl.Pairwise (fun i j => points i ≠ points j) →
      (distribute points xmid ymid nums).tr.Pairwise (fun i j => points i ≠ points j) →
      nums.Pairwise (fun i j => points i ≠ points j) := by
  intro nums
  induction nums with
  | nil => intro _ _ _ _; exact List.Pairwise.nil
  | cons n rest ih =>
    obtain ⟨l0, l1, l2, l3⟩ := distribute_sublist points xmid ymid rest
    have hmem := fun b => mem_distribute points xmid ymid rest b
    simp only [distribute]
    by_cases hx : (points n).x > xmid <;> by_cases hy : (points n).y > ymid <;>
      simp only [hx, hy, if_true, if_false] <;> intro h0 h1 h2 h3 <;>
      rw [List.pairwise_cons]
    · rw [List.pairwise_cons] at h3
      refine ⟨fun b hb e => ?_, ih h0 h1 h2 h3.2⟩
      exact h3.1 b ((hmem b).2.2.2.2 ⟨hb, by rw [← e]; exact hx, by rw [← e]; exact hy⟩) e
    · rw [List.pairwise_cons] at h1
      refine ⟨fun b hb e => ?_, ih h0 h1.2 h2 h3⟩
      exact h1.1 b ((hmem b).2.1.2 ⟨hb, by rw [← e]; exact hx,
        by rw [← e]; exact not_lt.1 hy⟩) e
    · rw [List.pairwise_cons] at h2
      refine ⟨fun b hb e => ?_, ih h0 h1 h2.2 h3⟩
      exact h2.1 b ((hmem b).2.2.1.2 ⟨hb, by rw [← e]; exact not_lt.1 hx,
        by rw [← e]; exact hy⟩) e
    · rw [List.pairwise_cons] at h0
      refine ⟨fun b hb e => ?_, ih h0.2 h1 h2 h3⟩
      exact h0.1 b ((hmem b).1.2 ⟨hb, by rw [← e]; exact not_lt.1 hx,
        by rw [← e]; exact not_lt.1 hy⟩) e

theorem init_some_pairwise (points : Nat → Point K) (c0 : CenterOfMass K) :
    ∀ (fuel : Nat) (xmin ymin xmax ymax : K) (nums : List Nat) (t : DiagramBox K),
      init points c0 fuel xmin ymin xmax ymax nums = some t →
      nums.Pairwise (fun i j => points i ≠ points j) := by
  intro fuel
  induction fuel with
  | zero => intro _ _ _ _ _ _ h; simp [init] at h
  | succ fuel ih =>
    intro xmin ymin xmax ymax nums t h
    rw [init_succ_eq_some] at h
    rcases h with ⟨rfl, -⟩ | ⟨n, rfl, -⟩ | ⟨-, b0, b1, b2, b3, hb, -⟩
    · exact List.Pairwise.nil
    · exact List.pairwise_singleton _ _
    · rw [buildSubBoxes_eq_some] at hb
      obtain ⟨h0, h1, h2, h3⟩ := hb
      exact pairwise_of_distribute points _ _ nums (ih _ _ _ _ _ _ h0) (ih _ _ _ _ _ _ h1)
        (ih _ _ _ _ _ _ h2) (ih _ _ _ _ _ _ h3)

theorem sum_le_length_mul (l : List Int) (f : Int → K) (s : K) (hle : ∀ i ∈ l, f i ≤ s) :
    (l.map f).sum ≤ (l.length : K) * s := by
  induction l with
  | nil => simp
  | cons a l ih =>
    have h1 := hle a (List.mem_cons_self _ _)
    have h2 := ih (fun i hi => hle i (List.mem_cons_of_mem _ hi))
    simp only [List.map_cons, List.sum_cons, List.length_cons, Nat.cast_add, Nat.cast_one]
    linarith

theorem sum_le_of_zero_term (l : List Int) (f : Int → K) (s : K) (num : Int)
    (hnum : num ∈ l) (h0 : f num = 0) (hs : 0 ≤ s) (hle : ∀ i ∈ l, f i ≤ s) :
    (l.map f).sum ≤ ((l.length : K) - 1) * s := by
  induction l with
  | nil => simp at hnum
  | cons a l ih =>
    simp only [List.map_cons, List.sum_cons, List.length_cons, Nat.cast_add, Nat.cast_one]
    by_cases ha : a = num
    · have h2 := sum_le_length_mul l f s (fun i hi => hle i (List.mem_cons_of_mem _ hi))
      rw [ha, h0]
      linarith
    · have hmem : num ∈ l := by
        rcases List.mem_cons.1 hnum with h | h
        · exact absurd h.symm ha
        · exact h
      have h1 := hle a (List.mem_cons_self _ _)
      have h2 := ih hmem (fun i hi => hle i (List.mem_cons_of_mem _ hi))
      linarith

theorem sum_map_sub_const (l : List Int) (g : Int → K) (k : K) :
    (l.map (fun i => g i - k)).sum = (l.map g).sum - (l.length : K) * k ∧
    (l.map (fun i => k - g i)).sum = (l.length : K) * k - (l.map g).sum := by
  induction l with
  | nil => simp
  | cons a l ih =>
    simp only [List.map_cons, List.sum_cons, List.length_cons, Nat.cast_add, Nat.cast_one,
      ih.1, ih.2]
    constructor <;> ring

theorem centroid_offset_lt (l : List Int) (g : Int → K) (num : Int) (c lo hi : K)
    (hnum : num ∈ l) (hside : lo < hi)
    (hg : ∀ i ∈ l, lo ≤ g i ∧ g i ≤ hi)
    (hc : c * (l.length : K) = (l.map g).sum) :
    |g num - c| < hi - lo := by
  have hlen : (0 : K) < (l.length : K) := Nat.cast_pos.2 (List.length_pos_of_mem hnum)
  have hs : (0 : K) ≤ hi - lo := by linarith
  have hup : (l.map (fun i => g i - g num)).sum ≤ ((l.length : K) - 1) * (hi - lo) :=
    sum_le_of_zero_term l (fun i => g i - g num) (hi - lo) num hnum (sub_self _) hs
      (fun i hi' => by
        show g i - g num ≤ hi - lo
        linarith [(hg i hi').2, (hg num hnum).1])
  have hdn : (l.map (fun i => g num - g i)).sum ≤ ((l.length : K) - 1) * (hi - lo) :=
    sum_le_of_zero_term l (fun i => g num - g i) (hi - lo) num hnum (sub_self _) hs
      (fun i hi' => by
        show g num - g i ≤ hi - lo
        linarith [(hg i hi').1, (hg num hnum).2])
  rw [(sum_map_sub_const l g (g num)).1, ← hc] at hup
  rw [(sum_map_sub_const l g (g num)).2, ← hc] at hdn
  rw [abs_lt]
  constructor
  · by_contra hn
    have h1 : g num - c ≤ -(hi - lo) := not_lt.1 hn
    nlinarith
  · by_contra hn
    have h1 : hi - lo ≤ g num - c := not_lt.1 hn
    nlinarith

theorem centre_of_mass_close (hypot : K → K → K) (hh : IsHypot hypot)
    (points : Nat → Point K) (c0 : CenterOfMass K) (fuel : Nat) (xmin ymin xmax ymax : K)
    (nums : List Nat) (t : DiagramBox K) (num : Nat)
    (hsq : xmax - xmin = ymax - ymin)
    (hin : InBox points xmin ymin xmax ymax nums)
    (h : init points c0 fuel xmin ymin xmax ymax nums = some t)
    (s : DiagramBox K) (hs : s ∈ (getMass points t).2.subtrees)
    (hsb : s.hasSubBoxes = true) (hmem : (num : Int) ∈ s.indices) :
    0 < s.boxSize ∧
    |(points num).x - s.cMass.x| < s.boxSize ∧ |(points num).y - s.cMass.y| < s.boxSize ∧
    hypot ((points num).x - s.cMass.x) ((points num).y - s.cMass.y)
        * hypot ((points num).x - s.cMass.x) ((points num).y - s.cMass.y)
      < 2 * (s.boxSize * s.boxSize) := by
  rw [getMass_subtrees, List.mem_map] at hs
  obtain ⟨u, hu, rfl⟩ := hs
  have hsquare := init_subtrees_region points c0
    (fun xmin ymin xmax ymax => xmax - xmin = ymax - ymin)
    (fun a b c d hp => by
      have hp' : c - a = d - b := hp
      refine ⟨?_, ?_, ?_, ?_⟩ <;> show _ - _ = _ - _ <;> linarith)
    _ _ _ _ _ _ _ h hsq u hu
  have hsquare' : u.xmax - u.xmin = u.ymax - u.ymin := hsquare
  obtain ⟨hbs, -, hholds⟩ := init_subtrees_holds points c0 _ _ _ _ _ _ _ h hin u hu
  obtain ⟨δ, hδ, hgap⟩ := exists_gap points nums (init_some_pairwise points c0 _ _ _ _ _ _ _ h)
  rw [(getMass_hasSubBoxes points u).1] at hsb
  have hwide := init_internal_gap points c0 _ _ _ _ _ _ _ δ h hin hgap u hu hsb
  rw [← hsquare', max_self] at hwide
  have hpos : u.xmin < u.xmax := by linarith
  rw [getMass_indices] at hmem
  rw [(getMass_fields points u).2.2.2.2, getMass_cMass, hbs]
  obtain ⟨mx, my⟩ := getMass_moment points u
  rw [getMass_mass] at mx my
  have hx := centroid_offset_lt u.indices (fun i => (points i.toNat).x) (num : Int)
    (getMass points u).1.x u.xmin u.xmax hmem hpos
    (fun i hi => ⟨(hholds i hi).1, (hholds i hi).2.1⟩) mx
  have hy := centroid_offset_lt u.indices (fun i => (points i.toNat).y) (num : Int)
    (getMass points u).1.y u.ymin u.ymax hmem (by linarith)
    (fun i hi => ⟨(hholds i hi).2.2.1, (hholds i hi).2.2.2⟩) my
  simp only [Int.toNat_ofNat] at hx hy
  rw [← hsquare'] at hy
  refine ⟨by linarith, hx, hy, ?_⟩
  rw [(hh _ _).2]
  have hx2 := abs_lt.1 hx
  have hy2 := abs_lt.1 hy
  nlinarith [hx2.1, hx2.2, hy2.1, hy2.2]

/-- C20, amended. In exact arithmetic: for every `theta ≤ 1 / √2` (stated as
`2 * theta * theta ≤ 1` for `theta ≥ 0`), every tree built by `init` over a square root box
which contains the points, with `getMass` run, and every index `num`: at every box with
sub-boxes whose sub-tree holds `num` the distance `d` from `points[num]` to the centre of
mass of the box satisfies `d^2 < 2 * boxSize^2`, that is `d < √2 * boxSize`, so that
`boxSize < theta * d` fails there; the traversal `getRepulsionForce(num, points[num])` never
takes the centre-of-mass branch at such a box. -/
theorem self_exclusion_at_default_accuracy (hypot : K → K → K) (hh : IsHypot hypot)
    (points : Nat → Point K) (c0 : CenterOfMass K) (fuel : Nat) (xmin ymin xmax ymax : K)
    (nums : List Nat) (t : DiagramBox K) (theta : K) (num : Nat)
    (hsq : xmax - xmin = ymax - ymin)
    (hin : ∀ n ∈ nums, xmin ≤ (points n).x ∧ (points n).x ≤ xmax ∧
      ymin ≤ (points n).y ∧ (points n).y ≤ ymax)
    (h : init points c0 fuel xmin ymin xmax ymax nums = some t)
    (hθ : 0 ≤ theta → 2 * theta * theta ≤ 1) :
    (∀ s ∈ (getMass points t).2.subtrees, s.hasSubBoxes = true → (num : Int) ∈ s.indices →
      hypot ((points num).x - s.cMass.x) ((points num).y - s.cMass.y)
          * hypot ((points num).x - s.cMass.x) ((points num).y - s.cMass.y)
        < 2 * (s.boxSize * s.boxSize) ∧
      ¬ (s.boxSize
        < theta * hypot ((points num).x - s.cMass.x) ((points num).y - s.cMass.y))) ∧
    usesOwnMass hypot theta num (points num) (getMass points t).2 = false := by
  have key : ∀ s ∈ (getMass points t).2.subtrees, s.hasSubBoxes = true →
      (num : Int) ∈ s.indices →
      hypot ((points num).x - s.cMass.x) ((points num).y - s.cMass.y)
          * hypot ((points num).x - s.cMass.x) ((points num).y - s.cMass.y)
        < 2 * (s.boxSize * s.boxSize) ∧
      ¬ (s.boxSize
        < theta * hypot ((points num).x - s.cMass.x) ((points num).y - s.cMass.y)) := by
    intro s hs hsb hmem
    obtain ⟨hB, hx, hy, hd⟩ := centre_of_mass_close hypot hh points c0 fuel xmin ymin xmax ymax
      nums t num hsq hin h s hs hsb hmem
    exact ⟨hd, hypot_le_of_abs_le hypot hh theta s.boxSize _ _ hθ (le_of_lt hB) (le_of_lt hx)
      (le_of_lt hy)⟩
  exact ⟨key, usesOwnMass_eq_false hypot theta num (points num) (getMass points t).2
    (fun s hs hsb hmem => (key s hs hsb hmem).2)⟩

theorem self_exclusion_at_default_accuracy_witness :
    init examplePointsR ⟨0, 0, 0⟩ 3 (-10) (-10) 10 10 [0, 1] = some exampleTreeR ∧
    usesOwnMass (fun a b : ℝ => Real.sqrt (a * a + b * b)) (1 / 2) ((1 : Nat) : Int)
      (examplePointsR 1) (getMass examplePointsR exampleTreeR).2 = false :=
  ⟨exampleTreeR_built,
    (self_exclusion_at_default_accuracy (fun a b : ℝ => Real.sqrt (a * a + b * b))
      isHypot_sqrt examplePointsR ⟨0, 0, 0⟩ 3 (-10) (-10) 10 10 [0, 1] exampleTreeR (1 / 2) 1
      (by norm_num) (by simp [examplePointsR]; norm_num) exampleTreeR_built
      (by intro _; norm_num)).2⟩

/-! ## Two isolated points -/

theorem initFl_id (points : Nat → Point K) (c0 : CenterOfMass K) :
    ∀ (fuel : Nat) (xmin ymin xmax ymax : K) (nums : List Nat),
      initFl (fun v => v) points c0 fuel xmin ymin xmax ymax nums
        = init points c0 fuel xmin ymin xmax ymax nums := by
  intro fuel
  induction fuel with
  | zero => intro _ _ _ _ _; rfl
  | succ fuel ih =>
    intro xmin ymin xmax ymax nums
    have hrec : initFl (fun v => v) points c0 fuel = init points c0 fuel := by
      funext a b c d l; exact ih a b c d l
    match nums with
    | [] => rfl
    | [n] => rfl
    | _ :: _ :: _ =>
      simp only [initFl, init, buildSubBoxesFl, buildSubBoxes, hrec]

theorem getMassFl_id (points : Nat → Point K) :
    ∀ t : DiagramBox K, getMassFl (fun v => v) points t = getMass points t := by
  intro t
  induction t with
  | box => rfl
  | split a b c d e f g s0 s1 s2 s3 h0 h1 h2 h3 => simp only [getMassFl, getMass, h0, h1, h2, h3]

theorem usesOwnMassFl_id (hypot : K → K → K) (theta : K) (num : Int) (pt : Point K) :
    ∀ t : DiagramBox K,
      usesOwnMassFl (fun v => v) hypot theta num pt t = usesOwnMass hypot theta num pt t := by
  intro t
  induction t with
  | box => rfl
  | split a b c d e f g s0 s1 s2 s3 h0 h1 h2 h3 =>
    simp only [usesOwnMassFl, usesOwnMass, h0, h1, h2, h3]

theorem divisorsFl_id (hypot : K → K → K) (points : Nat → Point K) (theta : K) (num : Int)
    (pt : Point K) :
    ∀ t : DiagramBox K,
      divisorsFl (fun v => v) hypot points theta num pt t
        = divisors hypot points theta num pt t := by
  intro t
  induction t with
  | box => rfl
  | split a b c d e f g s0 s1 s2 s3 h0 h1 h2 h3 =>
    simp only [divisorsFl, divisors, h0, h1, h2, h3]

theorem clampLoopFl_id (hypot : K → K → K) (motionLimit : K) (points : Nat → Point K) :
    ∀ (l : List Nat) (pointsNew : Nat → Point K),
      clampLoopFl (fun v => v) hypot motionLimit points l pointsNew
        = clampLoop hypot motionLimit points l pointsNew := by
  intro l
  induction l with
  | nil => intro _; rfl
  | cons i rest ih =>
    intro pointsNew
    simp only [clampLoopFl, clampLoop, ih]
    rfl

theorem encodeCoordFl_id [FloorRing K] (c : K) : encodeCoordFl (fun v => v) c = encodeCoord c :=
  rfl

/-! ## The tree build in binary64 arithmetic -/

theorem distribute_all_bl (points : Nat → Point K) (xmid ymid : K) (nums : List Nat)
    (h : ∀ n ∈ nums, (points n).x ≤ xmid ∧ (points n).y ≤ ymid) :
    (distribute points xmid ymid nums).bl = nums := by
  rw [distribute_eq_filter]
  apply List.filter_eq_self.2
  intro n hn
  simp [not_lt.2 (h n hn).1, not_lt.2 (h n hn).2]

theorem initFl_repeat_none (fl : K → K) (points : Nat → Point K) (c0 : CenterOfMass K)
    (xmin ymin xmax ymax : K) (nums : List Nat)
    (hx : fl (fl (xmin + xmax) / 2) = xmax) (hy : fl (fl (ymin + ymax) / 2) = ymax)
    (hle : ∀ n ∈ nums, (points n).x ≤ xmax ∧ (points n).y ≤ ymax) (h2 : 2 ≤ nums.length) :
    ∀ fuel : Nat, initFl fl points c0 fuel xmin ymin xmax ymax nums = none := by
  intro fuel
  induction fuel with
  | zero => rfl
  | succ fuel ih =>
    match nums, h2, hle, ih with
    | a :: b :: rest, _, hle, ih =>
      simp only [initFl, buildSubBoxesFl, hx, hy, distribute_all_bl _ _ _ _ hle, ih]

/-- C17, counterexample. In binary64 arithmetic, on the square region
`[1 + 2^-52, 1 + 2^-51] × [1 + 2^-52, 1 + 2^-51]` of side `2^-52`, with the two distinct
points in its lower left and its upper right corner: the sum `xmin + xmax = 2 + 3 * 2^-52`
lies half-way between the `double` values `2 + 2^-51` and `2 + 2^-50` and is rounded to the
second, whose significand is even, so that `xmid = xmax`, and likewise `ymid = ymax`.  Both
points are placed in `subBoxes[0]`, whose region `[xmin, xmid] × [ymin, ymid]` is the region
itself: with no amount of fuel does `init` return a tree. -/
theorem init_distinct_points_diverge_in_binary64 :
    adjacentPoints 0 ≠ adjacentPoints 1 ∧
    (1 + 1 / 2 ^ 51 : ℚ) - (1 + 1 / 2 ^ 52) = 1 / 2 ^ 52 ∧
    InBox adjacentPoints (1 + 1 / 2 ^ 52) (1 + 1 / 2 ^ 52) (1 + 1 / 2 ^ 51) (1 + 1 / 2 ^ 51)
      [0, 1] ∧
    round64 (round64 ((1 + 1 / 2 ^ 52) + (1 + 1 / 2 ^ 51)) / 2) = 1 + 1 / 2 ^ 51 ∧
    ¬ ∃ (fuel : Nat) (t : DiagramBox ℚ),
      initFl round64 adjacentPoints ⟨0, 0, 0⟩ fuel (1 + 1 / 2 ^ 52) (1 + 1 / 2 ^ 52)
        (1 + 1 / 2 ^ 51) (1 + 1 / 2 ^ 51) [0, 1] = some t := by
  have hmid : round64 (round64 ((1 + 1 / 2 ^ 52) + (1 + 1 / 2 ^ 51)) / 2) = 1 + 1 / 2 ^ 51 := by
    rw [round64_funext]; decide!
  have hin : InBox adjacentPoints (1 + 1 / 2 ^ 52) (1 + 1 / 2 ^ 52) (1 + 1 / 2 ^ 51)
      (1 + 1 / 2 ^ 51) [0, 1] := by
    intro n hn
    simp only [List.mem_cons, List.mem_singleton, List.not_mem_nil, or_false] at hn
    rcases hn with rfl | rfl <;> simp [adjacentPoints] <;> norm_num
  refine ⟨by simp [adjacentPoints], by norm_num, hin, hmid, ?_⟩
  rintro ⟨fuel, t, h⟩
  rw [initFl_repeat_none round64 adjacentPoints ⟨0, 0, 0⟩ _ _ _ _ [0, 1] hmid hmid
    (fun n hn => ⟨(hin n hn).2.1, (hin n hn).2.2.2⟩) (by simp) fuel] at h
  exact absurd h (by simp)

/-! ## The repulsion traversal in binary64 arithmetic -/

theorem exists_of_map_decide {α : Type} (o : Option α) (Q : α → Prop) [DecidablePred Q]
    (h : o.map (fun t => decide (Q t)) = some true) : ∃ t, o = some t ∧ Q t := by
  cases o with
  | none => simp at h
  | some t => exact ⟨t, rfl, by simpa using h⟩

theorem divisorsFl_axis (fl : K → K) (hypot : K → K → K) (points : Nat → Point K) (theta : K)
    (num : Int) (pt : Point K) (h : ∀ b, hypot 0 b = |b|) :
    ∀ t : DiagramBox K,
      (∀ s ∈ t.subtrees, (s.hasSubBoxes = true → fl (pt.x - s.cMass.x) = 0) ∧
        (s.num ≠ -1 → fl ((points s.num.toNat).x - pt.x) = 0)) →
      divisorsFl fl hypot points theta num pt t
        = divisorsFl fl (fun _ b => |b|) points theta num pt t := by
  intro t
  induction t with
  | box a b c d e f g =>
    intro hs
    have hroot := (hs (.box a b c d e f g) (by simp [DiagramBox.subtrees])).2
    simp only [DiagramBox.num] at hroot
    by_cases hg : g = -1
    · simp only [divisorsFl, hg, ne_eq, not_true_eq_false, if_false]
    · simp only [divisorsFl, hroot hg, h]
  | split a b c d e f g s0 s1 s2 s3 h0 h1 h2 h3 =>
    intro hs
    have hroot := hs (.split a b c d e f g s0 s1 s2 s3) (by simp [DiagramBox.subtrees])
    simp only [DiagramBox.cMass, DiagramBox.num, DiagramBox.hasSubBoxes, forall_true_left]
      at hroot
    have e0 := h0 (fun s m => hs s (by simp [DiagramBox.subtrees, m]))
    have e1 := h1 (fun s m => hs s (by simp [DiagramBox.subtrees, m]))
    have e2 := h2 (fun s m => hs s (by simp [DiagramBox.subtrees, m]))
    have e3 := h3 (fun s m => hs s (by simp [DiagramBox.subtrees, m]))
    by_cases hg : g = -1
    · simp only [divisorsFl, hg, ne_eq, not_true_eq_false, if_false, hroot.1, h, e0, e1, e2, e3]
    · simp only [divisorsFl, hroot.2 hg, h, hg, ne_eq, not_false_eq_true, if_true]

theorem tiny_tree_check :
    (initFl round64Fast tinyPoints ⟨0, 0, 0⟩ 2 (-10) (-10) 10 10 [0, 1]).map
      (fun t => decide (
        (∀ s ∈ (getMassFl round64Fast tinyPoints t).2.subtrees,
          (s.hasSubBoxes = true → round64Fast ((tinyPoints 0).x - s.cMass.x) = 0) ∧
          (s.num ≠ -1 → round64Fast ((tinyPoints s.num.toNat).x - (tinyPoints 0).x) = 0)) ∧
        divisorsFl round64Fast (fun _ b => |b|) tinyPoints (1 / 2) 0 (tinyPoints 0)
          (getMassFl round64Fast tinyPoints t).2 = [1 / 2 ^ 365])) = some true := by
  decide!

/-- C18, counterexample. In binary64 arithmetic, for the points `(0, 0)` and
`(0, 2^-365)` (at distance `1.3e-110`) in the root box `[-10, 10] × [-10, 10]` and
`theta = 1 / 2`: the build returns a tree, and for every `hypot` with `hypot(0, b) = |b|`
the traversal for point `0` divides once, in the branch of a box holding one point, with
`d = 2^-365 > 0`.  The divisor `d * d * d` is `0`: the product `2^-730 * 2^-365 = 2^-1095`
is less than half the least positive `double`, `2^-1074`, and is rounded to `0`. -/
theorem repulsion_divides_by_zero_in_binary64 :
    tinyPoints 0 ≠ tinyPoints 1 ∧
    (0 : ℚ) < 1 / 2 ^ 365 ∧ cubeFl round64 (1 / 2 ^ 365) = 0 ∧
    ∃ t : DiagramBox ℚ,
      initFl round64 tinyPoints ⟨0, 0, 0⟩ 2 (-10) (-10) 10 10 [0, 1] = some t ∧
      ∀ hypot : ℚ → ℚ → ℚ, (∀ b, hypot 0 b = |b|) →
        divisorsFl round64 hypot tinyPoints (1 / 2) 0 (tinyPoints 0)
          (getMassFl round64 tinyPoints t).2 = [1 / 2 ^ 365] := by
  refine ⟨fun h => by have h2 := congrArg Point.y h; norm_num [tinyPoints] at h2, by positivity, by rw [round64_funext]; decide!, ?_⟩
  rw [round64_funext]
  obtain ⟨t, ht, h1, h2⟩ := exists_of_map_decide _ _ tiny_tree_check
  refine ⟨t, ht, fun hypot h => ?_⟩
  rw [divisorsFl_axis round64Fast hypot tinyPoints (1 / 2) 0 (tinyPoints 0) h _ h1]
  exact h2

theorem usesOwnMassFl_axis (fl : K → K) (hypot : K → K → K) (theta : K) (num : Int)
    (pt : Point K) (h : ∀ b, hypot 0 b = |b|) :
    ∀ t : DiagramBox K,
      (∀ s ∈ t.subtrees, s.hasSubBoxes = true → fl (pt.x - s.cMass.x) = 0) →
      usesOwnMassFl fl hypot theta num pt t
        = usesOwnMassFl fl (fun _ b => |b|) theta num pt t := by
  intro t
  induction t with
  | box => intro _; rfl
  | split a b c d e f g s0 s1 s2 s3 h0 h1 h2 h3 =>
    intro hs
    have hroot := hs (.split a b c d e f g s0 s1 s2 s3) (by simp [DiagramBox.subtrees]) rfl
    simp only [DiagramBox.cMass] at hroot
    have e0 := h0 (fun s m => hs s (by simp [DiagramBox.subtrees, m]))
    have e1 := h1 (fun s m => hs s (by simp [DiagramBox.subtrees, m]))
    have e2 := h2 (fun s m => hs s (by simp [DiagramBox.subtrees, m]))
    have e3 := h3 (fun s m => hs s (by simp [DiagramBox.subtrees, m]))
    simp only [usesOwnMassFl, hroot, h, e0, e1, e2, e3]

set_option maxRecDepth 100000 in
theorem edge_tree_check :
    (initFl round64Fast edgePoints ⟨0, 0, 0⟩ 60 (-10) (-10) 10 10 [0, 1]).map
      (fun t => decide ((1 : Int) ∈ t.indices ∧
        (∀ s ∈ (getMassFl round64Fast edgePoints t).2.subtrees, s.hasSubBoxes = true →
          round64Fast ((edgePoints 1).x - s.cMass.x) = 0) ∧
        (∃ s ∈ (getMassFl round64Fast edgePoints t).2.subtrees,
          s.hasSubBoxes = true ∧ (1 : Int) ∈ s.indices ∧ s.boxSize = 0) ∧
        usesOwnMassFl round64Fast (fun _ b => |b|) (1 / 2) 1 (edgePoints 1)
          (getMassFl round64Fast edgePoints t).2 = true)) = some true := by
  decide!

/-- C20, counterexample. In binary64 arithmetic, for the points `(-10, 1)` and
`(-10, 1 + 2^-52)` in the root box `[-10, 10] × [-10, 10]` and `theta = 1 / 2`: the build
returns a tree; the midpoint of the box `[-10, -10 + 2^-49]` is rounded to `-10`, so the tree
holds a box with sub-boxes and `boxSize = 0` whose sub-tree holds both points; and for every
`hypot` with `hypot(0, b) = |b|` the traversal for point `1` takes the centre-of-mass branch
at a box whose sub-tree holds point `1`. -/
theorem self_exclusion_fails_in_binary64 :
    InBox edgePoints (-10) (-10) 10 10 [0, 1] ∧
    ∃ t : DiagramBox ℚ,
      initFl round64 edgePoints ⟨0, 0, 0⟩ 60 (-10) (-10) 10 10 [0, 1] = some t ∧
      (1 : Int) ∈ t.indices ∧
      (∃ s ∈ (getMassFl round64 edgePoints t).2.subtrees,
        s.hasSubBoxes = true ∧ (1 : Int) ∈ s.indices ∧ s.boxSize = 0) ∧
      ∀ hypot : ℚ → ℚ → ℚ, (∀ b, hypot 0 b = |b|) →
        usesOwnMassFl round64 hypot (1 / 2) 1 (edgePoints 1)
          (getMassFl round64 edgePoints t).2 = true := by
  constructor
  · intro n hn
    simp only [List.mem_cons, List.mem_singleton, List.not_mem_nil, or_false] at hn
    rcases hn with rfl | rfl <;> simp [edgePoints] <;> norm_num
  · rw [round64_funext]
    obtain ⟨t, ht, h1, h2, h3, h4⟩ := exists_of_map_decide _ _ edge_tree_check
    refine ⟨t, ht, h1, h3, fun hypot h => ?_⟩
    rw [usesOwnMassFl_axis round64Fast hypot (1 / 2) 1 (edgePoints 1) h _ h2]
    exact h4

/-! ## The clamping loop in binary64 arithmetic -/

/-- C19, counterexample. In binary64 arithmetic, with `motionLimit` the `double` nearest to
`0.2` (the default), the prior position `(2, 0)`, inside the disc, and the tentative position
`(3, 0)`: for every `hypot` with `hypot(a, 0) = |a|` the motion cap binds (`d = 1`), the sum
`xold + dx / d * motionLimit = 2 + motionLimit` is rounded up to `4953959590107546 / 2^51`,
and the position stored is `(4953959590107546 / 2^51, 0)`; its distance from the prior
position, `4953959590107546 / 2^51 - 2`, is greater than `motionLimit`. -/
theorem bounded_motion_exceeds_limit_in_binary64 :
    round64 (3602879701896397 / 2 ^ 54) = 3602879701896397 / 2 ^ 54 ∧
    ∀ hypot : ℚ → ℚ → ℚ, (∀ a, hypot a 0 = |a|) →
      hypot 2 0 ≤ 10 ∧
      clampLoopFl round64 hypot (3602879701896397 / 2 ^ 54) (fun _ => ⟨2, 0⟩) (List.range 1)
        (fun _ => ⟨3, 0⟩) 0 = ⟨4953959590107546 / 2 ^ 51, 0⟩ ∧
      (3602879701896397 / 2 ^ 54 : ℚ) <
        hypot
          ((clampLoopFl round64 hypot (3602879701896397 / 2 ^ 54) (fun _ => ⟨2, 0⟩)
            (List.range 1) (fun _ => ⟨3, 0⟩) 0).x - 2)
          ((clampLoopFl round64 hypot (3602879701896397 / 2 ^ 54) (fun _ => ⟨2, 0⟩)
            (List.range 1) (fun _ => ⟨3, 0⟩) 0).y - 0) := by
  refine ⟨by rw [round64_funext]; decide!, fun hypot h => ?_⟩
  have e1 : round64 ((3 : ℚ) - 2) = 1 := by rw [round64_funext]; decide!
  have e2 : round64 ((0 : ℚ) - 0) = 0 := by rw [round64_funext]; decide!
  have e3 : round64 ((1 : ℚ) / 1) = 1 := by rw [round64_funext]; decide!
  have e4 : round64 ((0 : ℚ) / 1) = 0 := by rw [round64_funext]; decide!
  have e5 : round64 ((1 : ℚ) * (3602879701896397 / 2 ^ 54)) = 3602879701896397 / 2 ^ 54 := by
    rw [round64_funext]; decide!
  have e6 : round64 ((0 : ℚ) * (3602879701896397 / 2 ^ 54)) = 0 := by
    rw [round64_funext]; decide!
  have e7 : round64 ((2 : ℚ) + 3602879701896397 / 2 ^ 54) = 4953959590107546 / 2 ^ 51 := by
    rw [round64_funext]; decide!
  have e8 : round64 ((0 : ℚ) + 0) = 0 := by rw [round64_funext]; decide!
  have key : clampLoopFl round64 hypot (3602879701896397 / 2 ^ 54) (fun _ => ⟨2, 0⟩)
      (List.range 1) (fun _ => ⟨3, 0⟩) 0 = ⟨4953959590107546 / 2 ^ 51, 0⟩ := by
    have hgt : (1 : ℚ) > 3602879701896397 / 2 ^ 54 := by norm_num
    have ha : |(4953959590107546 / 2 ^ 51 : ℚ)| = 4953959590107546 / 2 ^ 51 :=
      abs_of_pos (by norm_num)
    have hn : ¬ ((4953959590107546 / 2 ^ 51 : ℚ) > 10) := by norm_num
    simp only [List.range_succ, List.range_zero, List.nil_append, clampLoopFl, clampPointFl,
      motionCapFl, e1, e2, h, abs_one, e3, e4, e5, e6, e7, e8, hgt, if_true, ha, hn, if_false,
      Function.update_same]
  refine ⟨by rw [h]; norm_num, key, ?_⟩
  rw [key]
  simp only [sub_zero, h]
  rw [abs_of_pos (by norm_num)]
  norm_num

end ForceGraph
